import Mathlib

/-!
Verification development for the pkgdepdb link-resolution database
(`src/db.cpp`, with `src/elf.cpp`, `src/package.cpp`).

The data model and the operations are shallowly embedded: C++ objects
(`Elf`) live in an arena (`Store`), identified by a natural number that
stands in for the object's address; packages and the database's flat
object index reference those identifiers.  `std::set` fields are
represented as strictly sorted duplicate-free lists, so that list
equality coincides with `std::set` equality (element-wise).

Declarations `Elf.can_use` and `fixpath` are declared in `main.h`,
which is not part of the sources; they are modelled from the spec and
marked as such in their doc comments.  Everything else is translated
from `src/db.cpp`.
-/

set_option maxHeartbeats 1000000

/-- Ordered insertion into a strictly sorted duplicate-free list; this is the
model of `std::set::insert` (no-op when the element is present). -/
def oinsert {α : Type} [LinearOrder α] : List α → α → List α
  | [], x => [x]
  | y :: ys, x =>
    if x < y then x :: y :: ys
    else if x = y then y :: ys
    else y :: oinsert ys x


/-- Lexicographic strict order on character lists (byte order of
`std::set<std::string>`'s default comparator). -/
def listLtB : List Char → List Char → Bool
  | [], [] => false
  | [], _ :: _ => true
  | _ :: _, [] => false
  | a :: as, b :: bs =>
    if a.toNat < b.toNat then true
    else if b.toNat < a.toNat then false
    else listLtB as bs

/-- Lexicographic strict order on strings. -/
def strLtB (a b : String) : Bool := listLtB a.data b.data

/-- The propositional form of `strLtB`. -/
def strLt (a b : String) : Prop := strLtB a b = true

instance : DecidableRel strLt := fun a b =>
  inferInstanceAs (Decidable (strLtB a b = true))

/-- Ordered insertion into a strictly sorted duplicate-free list of
strings; the model of `std::set<std::string>::insert`. -/
def sinsert : List String → String → List String
  | [], x => [x]
  | y :: ys, x =>
    if strLtB x y then x :: y :: ys
    else if x = y then y :: ys
    else y :: sinsert ys x

/-- Insertion into a list at a position, used to model `std::vector::insert`
at `begin() + i` (an index beyond the end appends, see the remark at
`DB.pkg_ld_insert`). -/
def insertAt {α : Type} : List α → Nat → α → List α
  | l, 0, x => x :: l
  | [], _ + 1, x => [x]
  | y :: l, n + 1, x => y :: insertAt l n x

/-- Index of the first element satisfying a predicate (`std::find` position). -/
def idxOf? {α : Type} (p : α → Bool) : List α → Option Nat
  | [] => none
  | y :: ys => if p y then some 0 else (idxOf? p ys).map (· + 1)

/-- Removal of the first element satisfying a predicate; this models erasing
the iterator returned by a successful `std::find_if`. -/
def removeFirstBy {α : Type} (p : α → Bool) : List α → List α
  | [] => []
  | y :: ys => if p y then ys else y :: removeFirstBy p ys

/-- One binary object (class `Elf`, declared in `main.h`, fields as used by
`src/db.cpp` and `src/package.cpp`).  The `rpath_set`/`rpath` pair (and
likewise `runpath`) is modelled as an `Option`; `owner` is the owning
package's name (names are unique per DB), standing in for the `Package*`
back-reference.  `req_found` holds arena identifiers of resolved objects. -/
structure Elf where
  dirname : String
  basename : String
  ei_class : Nat
  ei_data : Nat
  ei_osabi : Nat
  rpath : Option String
  runpath : Option String
  needed : List String
  owner : Option String
  req_found : List Nat
  req_missing : List String
deriving DecidableEq

/-- Arena of live objects: identifier → object.  Identifiers stand in for
`Elf*` pointer values. -/
abbrev Store := List (Nat × Elf)

/-- Lookup of an arena entry (dereference of an `Elf*`). -/
def getObj : Store → Nat → Option Elf
  | [], _ => none
  | e :: es, id => if e.1 = id then some e.2 else getObj es id

/-- Replacement of an arena entry (in-place mutation through an `Elf*`). -/
def setObj : Store → Nat → Elf → Store
  | [], _, _ => []
  | e :: es, id, o => (if e.1 = id then (e.1, o) else e) :: setObj es id o

/-- A package (class `Package`): name, version, metadata lists and the list
of owned objects (arena identifiers, in order). -/
structure Package where
  name : String
  version : String
  depends : List String
  optdepends : List String
  replaces : List String
  conflicts : List String
  provides : List String
  groups : List String
  filelist : List String
  objects : List Nat
deriving DecidableEq

/-- The database (class `DB`): the fields of `main.h` used by `src/db.cpp`.
`package_library_path` (a `std::map`) is an association list;
`ignore_file_rules` and `assume_found_rules` (`std::set<std::string>`) are
sorted duplicate-free lists. -/
structure DB where
  packages : List Package
  objects : List Nat
  store : Store
  library_path : List String
  package_library_path : List (String × List String)
  ignore_file_rules : List String
  assume_found_rules : List String
  strict_linking : Bool
  contains_package_depends : Bool
  contains_groups : Bool
  contains_filelists : Bool
deriving DecidableEq

/-- Splitting of a character list at a separator; the segments between
consecutive separators, in order (used for `:`-separated path lists and
`/`-separated path components). -/
def splitSeg (c : Char) : List Char → List (List Char)
  | [] => [[]]
  | x :: xs =>
    if x = c then [] :: splitSeg c xs
    else
      match splitSeg c xs with
      | s :: rest => (x :: s) :: rest
      | [] => [[x]]

/-- Splitting of a string at a separator character. -/
def strSplit (c : Char) (s : String) : List String :=
  (splitSeg c s.data).map (fun l => String.mk l)

/-- Joining of path components with `/`. -/
def joinSlash : List String → String
  | [] => ""
  | [x] => x
  | x :: xs => x ++ "/" ++ joinSlash xs

/-- Modelled from the spec: `fixpath` is declared in `main.h` (not under
`src/`).  Spec §4.5: `normalize(p)` strips duplicate slashes, resolves `.`
and `..` syntactically, and removes a trailing slash unless the result would
be empty (then `/`).  Component processing: empty components and `.` are
dropped, `..` removes the previous component. -/
def fixpathAux : List String → List String → List String
  | acc, [] => acc.reverse
  | acc, c :: cs =>
    if c = "" ∨ c = "." then fixpathAux acc cs
    else if c = ".." then fixpathAux (acc.drop 1) cs
    else fixpathAux (c :: acc) cs

/-- Modelled from the spec: path normalization (spec §4.5), see `fixpathAux`. -/
def fixpath (p : String) : String :=
  let comps := fixpathAux [] (strSplit '/' p)
  let body := joinSlash comps
  if body = "" then "/"
  else
    match p.data with
    | '/' :: _ => "/" ++ body
    | _ => body

/-- Modelled from the spec: `Elf::can_use(other, strict)` is declared in
`main.h` (not under `src/`).  Spec §3 (ObjectClass): two objects are
compatible iff their `(ei_class, ei_data, ei_osabi)` triples match; in
non-strict mode the `ei_osabi` component is ignored. -/
def Elf.can_use (o lib : Elf) (strict : Bool) : Bool :=
  o.ei_class == lib.ei_class && o.ei_data == lib.ei_data &&
    (!strict || o.ei_osabi == lib.ei_osabi)

/-- Membership of `path` in the colon-separated list `list`
(`pathlist_contains`, db.cpp:167-181).  The C++ loop compares every
substring between consecutive `:` separators (and the final segment), which
is exactly membership in the colon-split. -/
def pathlist_contains (list path : String) : Bool :=
  (strSplit ':' list).contains path

/-- Per-package additional library path (`DB::get_pkg_libpath`,
db.cpp:108-117), keyed by package name. -/
def DB.get_pkg_libpath (db : DB) (pkgname : String) : Option (List String) :=
  (db.package_library_path.find? (fun e => e.1 == pkgname)).map (·.2)

/-- Library path applicable to an object via its owner
(`DB::get_obj_libpath`, db.cpp:103-106). -/
def DB.get_obj_libpath (db : DB) (o : Elf) : Option (List String) :=
  o.owner.bind db.get_pkg_libpath

/-- Visibility of directory `path` for object `elf` (`DB::elf_finds`,
db.cpp:183-212): DT_RPATH, then DT_RUNPATH (LD_LIBRARY_PATH deliberately
ignored), the trusted paths `/lib` and `/usr/lib`, the DB's `library_path`,
and finally the supplied extra paths. -/
def DB.elf_finds (db : DB) (elf : Elf) (path : String)
    (extrapaths : Option (List String)) : Bool :=
  (match elf.rpath with
   | some rp => pathlist_contains rp path
   | none => false) ||
  (match elf.runpath with
   | some rp => pathlist_contains rp path
   | none => false) ||
  path == "/lib" || path == "/usr/lib" ||
  db.library_path.contains path ||
  (match extrapaths with
   | some ex => ex.contains path
   | none => false)

/-- Resolution of one needed name for a requesting object (`DB::find_for`,
db.cpp:256-277): scan the flat object index in insertion order and return
the first candidate that is class-compatible, has the needed basename, and
whose directory is visible to the requester. -/
def DB.find_for (db : DB) (obj : Elf) (needed : String)
    (extrapath : Option (List String)) : Option Nat :=
  db.objects.find? fun id =>
    match getObj db.store id with
    | some lib =>
      obj.can_use lib db.strict_linking && lib.basename == needed &&
        db.elf_finds obj lib.dirname extrapath
    | none => false

/-- Linking of one object (`DB::link_object`, db.cpp:294-312): skip the
object entirely when its full path is an ignore rule; otherwise resolve each
needed name, inserting hits into `req_found` and misses into `req_missing`
unless the name is an assume-found rule.  The two set arguments are the
caller's sets, inserted into (not rebuilt). -/
def DB.link_object (db : DB) (obj : Elf) (ownerName : String)
    (req_found : List Nat) (req_missing : List String) :
    List Nat × List String :=
  if db.ignore_file_rules.contains (obj.dirname ++ "/" ++ obj.basename) then
    (req_found, req_missing)
  else
    let libpaths := db.get_pkg_libpath ownerName
    obj.needed.foldl
      (fun acc needed =>
        match db.find_for obj needed libpaths with
        | some found => (oinsert acc.1 found, acc.2)
        | none =>
          if db.assume_found_rules.contains needed then acc
          else (acc.1, sinsert acc.2 needed))
      (req_found, req_missing)

/-- Update of one object's sets by `link_object` (the body of
`DB::link_object_do`, db.cpp:279-292): the object's own sets are passed to
`link_object` and the result written back. -/
def linkApply (db : DB) (ownerName : String) (s : Elf) : Elf :=
  let r := db.link_object s ownerName s.req_found s.req_missing
  { s with req_found := r.1, req_missing := r.2 }

/-- Loop shape shared by the object-mutating loops of `src/db.cpp`: fold a
per-object update over a list of flat-index identifiers, writing each
object's new value into the arena.  Each update only touches the seeker's
own entry, so writing once per seeker is the in-place mutation of the
source. -/
def seekerFold (G : DB → Elf → Elf) (ids : List Nat) (db : DB) : DB :=
  ids.foldl
    (fun d sid =>
      match getObj d.store sid with
      | none => d
      | some s => { d with store := setObj d.store sid (G d s) })
    db

/-- In-place linking of one object (`DB::link_object_do`, db.cpp:279-292). -/
def DB.link_object_do (db : DB) (id : Nat) (ownerName : String) : DB :=
  seekerFold (fun d s => linkApply d ownerName s) [id] db

/-- Reference-count survival used by `delete_package`'s final cleanup
(db.cpp:159-162, `1 == obj->refcount` removes the object).  The holders of
an `rptr<Elf>` besides the flat index itself are the owning package's
object vector and other objects' `req_found` sets; an object survives iff
one of those still references it. -/
def DB.refKept (db : DB) (id : Nat) : Bool :=
  db.packages.any (fun p => p.objects.contains id) ||
  db.objects.any (fun sid =>
    match getObj db.store sid with
    | some o => o.req_found.contains id
    | none => false)

/-- One step of `delete_package`'s re-resolution (db.cpp:139-154): if the
seeker's `req_found` holds the removed object, drop it and re-resolve its
basename; a hit goes back into `req_found`, a miss puts the basename into
`req_missing` (no `assume_found_rules` check appears here).  The seeker's
evolving sets are threaded through `seeker`; `db` supplies only data the
loop never mutates (the flat index, arena identities and library paths). -/
def DB.reresolveStep (db : DB) (seeker : Elf) (oid : Nat) : Elf :=
  match getObj db.store oid with
  | none => seeker
  | some elf =>
    if seeker.req_found.contains oid then
      let found1 := seeker.req_found.erase oid
      let libpaths := db.get_obj_libpath seeker
      match db.find_for seeker elf.basename libpaths with
      | some other => { seeker with req_found := oinsert found1 other }
      | none =>
        { seeker with req_found := found1,
                      req_missing := sinsert seeker.req_missing elf.basename }
    else seeker

/-- Inner loop of `delete_package` over the removed package's objects for a
single seeker (db.cpp:139-154). -/
def DB.reresolveSeeker (db : DB) (olds : List Nat) (seeker : Elf) : Elf :=
  olds.foldl db.reresolveStep seeker

/-- Package deletion (`DB::delete_package`, db.cpp:119-165): find the
package by name (absent is a no-op success); unlink it; remove its objects
from the flat index; re-resolve every remaining seeker that referenced a
removed object; finally drop flat entries whose reference count fell to
one.  Each seeker's update only touches its own arena entry, so the store
write is performed once per seeker after its inner loop, which is
equivalent to the in-place mutation of the source.  The stages are split
into named definitions for the proofs below; `deleteDb1` unlinks the
package from the package list (db.cpp:122-129). -/
def deleteDb1 (db : DB) (name : String) : DB :=
  { db with packages := removeFirstBy (fun p => p.name == name) db.packages }

/-- Removal of the deleted package's objects from the flat index
(db.cpp:131-136; `std::remove` erases every occurrence of each pointer). -/
def deleteDb2 (db : DB) (name : String) (old : Package) : DB :=
  { deleteDb1 db name with
    objects := (deleteDb1 db name).objects.filter
      (fun id => !old.objects.contains id) }

/-- The re-resolution loop of `delete_package` over all remaining seekers
(db.cpp:138-155). -/
def deleteDb3 (db : DB) (name : String) (old : Package) : DB :=
  seekerFold (fun d s => d.reresolveSeeker old.objects s)
    (deleteDb2 db name old).objects (deleteDb2 db name old)

/-- The final cleanup of `delete_package` (db.cpp:159-162). -/
def deleteCore (db : DB) (name : String) (old : Package) : DB :=
  { deleteDb3 db name old with
    objects := (deleteDb3 db name old).objects.filter
      (deleteDb3 db name old).refKept }

def DB.delete_package (db : DB) (name : String) : DB × Bool :=
  match db.packages.find? (fun p => p.name == name) with
  | none => (db, true)
  | some old => (deleteCore db name old, true)

/-- One step of `install_package`'s reverse-fix (db.cpp:241-252): when the
seeker can use the new object and the new object's directory is visible
with the new package's library path, a pending `req_missing` entry for the
new object's basename moves to `req_found`. -/
def DB.reverseFixStep (db : DB) (libpaths : Option (List String))
    (seeker : Elf) (oid : Nat) : Elf :=
  match getObj db.store oid with
  | none => seeker
  | some obj =>
    if seeker.can_use obj db.strict_linking &&
        db.elf_finds seeker obj.dirname libpaths then
      if seeker.req_missing.contains obj.basename then
        { seeker with
            req_missing := seeker.req_missing.erase obj.basename,
            req_found := oinsert seeker.req_found oid }
      else seeker
    else seeker

/-- Inner loop of the reverse-fix over the new package's objects for a
single seeker (db.cpp:241-252). -/
def DB.reverseFixSeeker (db : DB) (libpaths : Option (List String))
    (news : List Nat) (seeker : Elf) : Elf :=
  news.foldl (db.reverseFixStep libpaths) seeker

/-- Package installation (`DB::install_package`, db.cpp:214-254): delete
any package of the same name, append the package and its objects, link the
new objects (against the index that already holds them), then run the
reverse-fix over every object.  The per-package library path is read before
the loops (db.cpp:232); `package_library_path` is not modified in between.
As in `delete_package`, each seeker's store write happens once after its
inner loop. -/
def installDb1 (db : DB) (pkg : Package) : DB :=
  { db with
    packages := db.packages ++ [pkg],
    contains_package_depends := db.contains_package_depends ||
      !(pkg.depends.isEmpty && pkg.optdepends.isEmpty &&
        pkg.replaces.isEmpty && pkg.conflicts.isEmpty &&
        pkg.provides.isEmpty),
    contains_groups := db.contains_groups || !pkg.groups.isEmpty,
    contains_filelists := db.contains_filelists || !pkg.filelist.isEmpty }

/-- Appending the new package's objects to the flat index
(db.cpp:234-235). -/
def installDb2 (db : DB) (pkg : Package) : DB :=
  { installDb1 db pkg with
    objects := (installDb1 db pkg).objects ++ pkg.objects }

/-- Linking of the new package's objects (db.cpp:236-238), against the
index that already holds them. -/
def installDb3 (db : DB) (pkg : Package) : DB :=
  seekerFold (fun d s => linkApply d pkg.name s) pkg.objects
    (installDb2 db pkg)

/-- The reverse-fix loop over every object (db.cpp:240-252); the
per-package library path is the one read at db.cpp:232, which
`package_library_path` does not change in between. -/
def installDb4 (db : DB) (pkg : Package) : DB :=
  seekerFold
    (fun d s => d.reverseFixSeeker (db.get_pkg_libpath pkg.name)
      pkg.objects s)
    (installDb3 db pkg).objects (installDb3 db pkg)

def DB.install_package (db : DB) (pkg : Package) : DB × Bool :=
  let r := db.delete_package pkg.name
  if !r.2 then (r.1, false)
  else (installDb4 r.1 pkg, true)

/-- Serial relink (`DB::relink_all`, db.cpp:447-490, non-threaded path):
`link_object_do` for every object of every package, in order.  The early
return on an empty package list coincides with folding over `[]`. -/
def DB.relink_all (db : DB) : DB :=
  db.packages.foldl
    (fun d pkg =>
      seekerFold (fun d2 s => linkApply d2 pkg.name s) pkg.objects d)
    db

/-- Keyed assignment `m[k] = v` on a `std::map` modelled as an association
list (replace the entry if the key is present, otherwise add it). -/
def mapSet {α : Type} (m : List (Nat × α)) (k : Nat) (v : α) :
    List (Nat × α) :=
  if m.any (fun e => e.1 == k) then
    m.map (fun e => if e.1 == k then (k, v) else e)
  else m ++ [(k, v)]

/-- Worker of the threaded relink (db.cpp:400-419): for every object of the
worker's package slice, link into fresh local sets and record only
non-empty results in the worker's two maps.  Workers read the shared,
unmutated database. -/
def DB.relinkWorker (db : DB) (pkgs : List Package) :
    List (Nat × List Nat) × List (Nat × List String) :=
  pkgs.foldl
    (fun acc pkg =>
      pkg.objects.foldl
        (fun acc2 id =>
          match getObj db.store id with
          | none => acc2
          | some obj =>
            let r := db.link_object obj pkg.name [] []
            let f := if r.1.isEmpty then acc2.1 else mapSet acc2.1 id r.1
            let m := if r.2.isEmpty then acc2.2 else mapSet acc2.2 id r.2
            (f, m))
        acc)
    ([], [])

/-- Wholesale replacement of one object's `req_found` (merge phase). -/
def setFound : Store → Nat → List Nat → Store
  | [], _, _ => []
  | e :: es, id, f =>
    (if e.1 = id then (e.1, { e.2 with req_found := f }) else e) ::
      setFound es id f

/-- Wholesale replacement of one object's `req_missing` (merge phase). -/
def setMissing : Store → Nat → List String → Store
  | [], _, _ => []
  | e :: es, id, m =>
    (if e.1 = id then (e.1, { e.2 with req_missing := m }) else e) ::
      setMissing es id m

/-- Merger of the threaded relink (db.cpp:420-429): for every worker tuple,
install each recorded `req_found` and `req_missing` wholesale. -/
def DB.relinkMerge (db : DB)
    (tuples : List (List (Nat × List Nat) × List (Nat × List String))) : DB :=
  tuples.foldl
    (fun d t =>
      let d1 := t.1.foldl
        (fun dd p => { dd with store := setFound dd.store p.1 p.2 }) d
      t.2.foldl
        (fun dd p => { dd with store := setMissing dd.store p.1 p.2 }) d1)
    db

/-- Threaded relink (`DB::relink_all_threaded`, db.cpp:394-444),
parametrized by the partition of the package list into contiguous worker
slices; compute phase over the original database, then a single merge. -/
def DB.relink_all_threaded (db : DB) (slices : List (List Package)) : DB :=
  db.relinkMerge (slices.map db.relinkWorker)

/-- Copying path fixup (`fixcpath`, db.cpp:518-524): a local copy is
normalized, but the function returns its argument (`return std::move(dir)`)
unchanged. -/
def fixcpath (dir : String) : String :=
  let _s := fixpath dir
  dir

/-- Insertion into the global library path (`DB::ld_insert`,
db.cpp:565-585): normalize, clamp the index, move an existing equal entry
to the requested index (report `false` when it is already there).  The
insertion position for a moved entry is the index computed before the
erase, as in the source (clamped here where the source's iterator
arithmetic assumes it is in range). -/
def DB.ld_insert (db : DB) (dir_ : String) (i : Nat) : DB × Bool :=
  let dir := fixpath dir_
  let i := min i db.library_path.length
  match idxOf? (fun d => d == dir) db.library_path with
  | none =>
    ({ db with library_path := insertAt db.library_path i dir }, true)
  | some oldidx =>
    if oldidx == i then (db, false)
    else
      ({ db with
          library_path := insertAt (db.library_path.erase dir) i dir }, true)

/-- Append to the global library path (`DB::ld_append`, db.cpp:526-530);
note the argument goes through `fixcpath`. -/
def DB.ld_append (db : DB) (dir : String) : DB × Bool :=
  db.ld_insert (fixcpath dir) db.library_path.length

/-- Prepend to the global library path (`DB::ld_prepend`, db.cpp:532-536). -/
def DB.ld_prepend (db : DB) (dir : String) : DB × Bool :=
  db.ld_insert (fixcpath dir) 0

/-- Deletion from the global library path by index (`DB::ld_delete(size_t)`,
db.cpp:538-545). -/
def DB.ld_delete_idx (db : DB) (i : Nat) : DB × Bool :=
  if db.library_path.isEmpty ∨ db.library_path.length ≤ i then (db, false)
  else ({ db with library_path := db.library_path.eraseIdx i }, true)

/-- Octal digit value for the `strtoul` model. -/
def octVal? (c : Char) : Option Nat :=
  if '0' ≤ c ∧ c ≤ '7' then some (c.toNat - '0'.toNat) else none

/-- Decimal digit value for the `strtoul` model. -/
def decVal? (c : Char) : Option Nat :=
  if '0' ≤ c ∧ c ≤ '9' then some (c.toNat - '0'.toNat) else none

/-- Hexadecimal digit value for the `strtoul` model. -/
def hexVal? (c : Char) : Option Nat :=
  if '0' ≤ c ∧ c ≤ '9' then some (c.toNat - '0'.toNat)
  else if 'a' ≤ c ∧ c ≤ 'f' then some (c.toNat - 'a'.toNat + 10)
  else if 'A' ≤ c ∧ c ≤ 'F' then some (c.toNat - 'A'.toNat + 10)
  else none

/-- Accumulating digit parse over the maximal valid prefix. -/
def parseBase (base : Nat) (val? : Char → Option Nat) :
    List Char → Nat → Nat
  | [], acc => acc
  | c :: cs, acc =>
    match val? c with
    | some v => parseBase base val? cs (acc * base + v)
    | none => acc

/-- Model of `strtoul(s, nullptr, 0)` (base-0 detection: `0x`/`0X` prefix
is hexadecimal — only when a hexadecimal digit follows —, a leading `0` is
octal, otherwise decimal; parsing stops at the first invalid character).
`DB::ld_delete` only calls it on strings whose first character is a decimal
digit, so whitespace and sign handling do not arise. -/
def strtoul0 (s : String) : Nat :=
  match s.data with
  | '0' :: x :: rest =>
    if x = 'x' ∨ x = 'X' then
      match rest with
      | c :: _ => if (hexVal? c).isSome then parseBase 16 hexVal? rest 0 else 0
      | [] => 0
    else parseBase 8 octVal? (x :: rest) 0
  | cs => parseBase 10 decVal? cs 0

/-- Deletion from the global library path by name or index
(`DB::ld_delete(const std::string&)`, db.cpp:547-563): an empty string
fails; a string whose first character is a decimal digit is parsed by
`strtoul` and dispatched to deletion by index; otherwise the normalized
string is searched for and its first occurrence erased. -/
def DB.ld_delete (db : DB) (dir_ : String) : DB × Bool :=
  if dir_.length == 0 then (db, false)
  else if '0' ≤ dir_.front ∧ dir_.front ≤ '9' then
    db.ld_delete_idx (strtoul0 dir_)
  else
    let dir := fixpath dir_
    match idxOf? (fun d => d == dir) db.library_path with
    | some i => ({ db with library_path := db.library_path.eraseIdx i }, true)
    | none => (db, false)

/-- Keyed assignment on `package_library_path`. -/
def plpSet (plp : List (String × List String)) (k : String)
    (v : List String) : List (String × List String) :=
  if plp.any (fun e => e.1 == k) then
    plp.map (fun e => if e.1 == k then (k, v) else e)
  else plp ++ [(k, v)]

/-- Keyed removal from `package_library_path` (`map::erase(iter)`). -/
def plpErase (plp : List (String × List String)) (k : String) :
    List (String × List String) :=
  removeFirstBy (fun e => e.1 == k) plp

/-- Insertion into a package's library path (`DB::pkg_ld_insert`,
db.cpp:587-609).  `package_library_path[package]` default-constructs an
empty list for an absent key; on the `false` return path the searched
directory was present, so the entry already existed and the map is
unchanged. -/
def DB.pkg_ld_insert (db : DB) (package dir_ : String) (i : Nat) :
    DB × Bool :=
  let dir := fixpath dir_
  let path := (db.get_pkg_libpath package).getD []
  let i := min i path.length
  match idxOf? (fun d => d == dir) path with
  | none =>
    let plp' := plpSet db.package_library_path package (insertAt path i dir)
    ({ db with package_library_path := plp' }, true)
  | some oldidx =>
    if oldidx == i then (db, false)
    else
      let plp' := plpSet db.package_library_path package
        (insertAt (path.erase dir) i dir)
      ({ db with package_library_path := plp' }, true)

/-- Deletion from a package's library path by directory
(`DB::pkg_ld_delete`, db.cpp:611-629); the package's entry is dropped when
its list becomes empty. -/
def DB.pkg_ld_delete (db : DB) (package dir_ : String) : DB × Bool :=
  let dir := fixpath dir_
  match db.get_pkg_libpath package with
  | none => (db, false)
  | some path =>
    if path.contains dir then
      let path' := path.erase dir
      if path'.isEmpty then
        let plp' := plpErase db.package_library_path package
        ({ db with package_library_path := plp' }, true)
      else
        let plp' := plpSet db.package_library_path package path'
        ({ db with package_library_path := plp' }, true)
    else (db, false)

/-- Deletion from a package's library path by index
(`DB::pkg_ld_delete(size_t)`, db.cpp:631-645). -/
def DB.pkg_ld_delete_idx (db : DB) (package : String) (i : Nat) :
    DB × Bool :=
  match db.get_pkg_libpath package with
  | none => (db, false)
  | some path =>
    if path.length ≤ i then (db, false)
    else
      let path' := path.eraseIdx i
      if path'.isEmpty then
        let plp' := plpErase db.package_library_path package
        ({ db with package_library_path := plp' }, true)
      else
        let plp' := plpSet db.package_library_path package path'
        ({ db with package_library_path := plp' }, true)

/-- Removal of a package's whole library-path entry (`DB::pkg_ld_clear`,
db.cpp:647-656). -/
def DB.pkg_ld_clear (db : DB) (package : String) : DB × Bool :=
  match db.get_pkg_libpath package with
  | none => (db, false)
  | some _ =>
    let plp' := plpErase db.package_library_path package
    ({ db with package_library_path := plp' }, true)

/-- Registration of an ignore rule (`DB::ignore_file`, db.cpp:658-662): the
inserted string is `fixcpath(filename)`. -/
def DB.ignore_file (db : DB) (filename : String) : DB × Bool :=
  let s := fixcpath filename
  if db.ignore_file_rules.contains s then (db, false)
  else ({ db with ignore_file_rules := sinsert db.ignore_file_rules s }, true)

/-- Registration of an assume-found rule (`DB::assume_found`,
db.cpp:684-688); the name is inserted as given. -/
def DB.assume_found (db : DB) (name : String) : DB × Bool :=
  if db.assume_found_rules.contains name then (db, false)
  else
    ({ db with assume_found_rules := sinsert db.assume_found_rules name },
     true)

/-- Version-constraint satisfaction between a dependency constraint
`(dop, dver)` and a provides constraint `(pop, pver)`
(`version_satisfies`, db.cpp:1020-1076).  `vercmp` stands for the external
`alpm_pkg_vercmp` comparator; the code uses only
`ret = vercmp(dver, pver)`. -/
def version_satisfies (vercmp : String → String → Int)
    (dop dver pop pver : String) : Bool :=
  let ret := vercmp dver pver
  if dop == pop then
    if dop == "=" then ret == 0
    else if dop == "!=" then !(ret == 0)
    else if dop == ">=" then decide (ret < 0)
    else if dop == ">" then decide (ret ≤ 0)
    else if dop == "<=" then decide (ret > 0)
    else if dop == "<" then decide (ret ≥ 0)
    else false
  else if dop == "=" then false
  else if dop == "!=" then
    if pop == "=" then !(ret == 0)
    else if pop == ">" then decide (ret > 0)
    else if pop == ">=" then decide (ret ≥ 0)
    else if pop == "<" then decide (ret < 0)
    else if pop == "<=" then decide (ret ≤ 0)
    else false
  else if dop == ">=" then
    if pop == "=" then decide (ret < 0)
    else if pop == ">" then decide (ret < 0)
    else if pop == ">=" then decide (ret < 0)
    else false
  else if dop == ">" then
    if pop == "=" then decide (ret ≤ 0)
    else if pop == ">" then decide (ret ≤ 0)
    else if pop == ">=" then decide (ret ≤ 0)
    else false
  else if dop == "<=" then
    if pop == "=" then decide (ret > 0)
    else if pop == "<" then decide (ret > 0)
    else if pop == "<=" then decide (ret > 0)
    else false
  else if dop == "<" then
    if pop == "=" then decide (ret ≥ 0)
    else if pop == "<" then decide (ret ≥ 0)
    else if pop == "<=" then decide (ret ≥ 0)
    else false
  else false

/-- Simple concrete comparator (equal strings compare equal), used to
instantiate `version_satisfies` on concrete inputs. -/
def strVercmp (a b : String) : Int :=
  if a = b then 0 else if a < b then -1 else 1

/-- Static part of an object: everything except the two resolution sets.
The linking loops mutate only `req_found`/`req_missing`; all searching
reads only the static part. -/
def Elf.static (o : Elf) : Elf :=
  { o with req_found := [], req_missing := [] }

/-- The `req_found` set of an arena entry (empty for a dangling id). -/
def foundOf (st : Store) (id : Nat) : List Nat :=
  ((getObj st id).map Elf.req_found).getD []

/-- The `req_missing` set of an arena entry. -/
def missingOf (st : Store) (id : Nat) : List String :=
  ((getObj st id).map Elf.req_missing).getD []

/-- The `needed` list of an arena entry. -/
def neededOf (st : Store) (id : Nat) : List String :=
  ((getObj st id).map Elf.needed).getD []

/-- Basenames of a list of arena identifiers (`names(S)` of spec §8 I1). -/
def namesOf (st : Store) (ids : List Nat) : List String :=
  ids.filterMap (fun i => (getObj st i).map Elf.basename)

/-- Weakened partition property of spec §8 I1 for one object: the names of
`req_found`, `req_missing` and `needed ∩ assume_found_rules` cover exactly
the `needed` names, the first two are disjoint, and each needed name is
resolved by at most one `req_found` entry.  (The full I1 additionally asks
the assume-found part to be disjoint from the other two.) -/
def PartitionInv (db : DB) (id : Nat) : Prop :=
  (∀ n ∈ namesOf db.store (foundOf db.store id), n ∈ neededOf db.store id) ∧
  (∀ n ∈ missingOf db.store id, n ∈ neededOf db.store id) ∧
  (∀ n ∈ neededOf db.store id,
    n ∈ namesOf db.store (foundOf db.store id) ∨
    n ∈ missingOf db.store id ∨ n ∈ db.assume_found_rules) ∧
  (∀ n ∈ namesOf db.store (foundOf db.store id), n ∉ missingOf db.store id) ∧
  (namesOf db.store (foundOf db.store id)).Nodup

/-- Well-formedness of a database state, matching the representation
invariants of the C++ heap: the flat index is the concatenation of the
installed packages' object lists without duplicates, package names are
unique, arena keys are unique, flat identifiers are live, owner
back-references are correct, `req_found` references live flat objects, and
the resolution sets are strictly sorted (canonical `std::set`s). -/
def WF (db : DB) : Prop :=
  db.objects = (db.packages.map Package.objects).flatten ∧
  db.objects.Nodup ∧
  (db.packages.map Package.name).Nodup ∧
  (db.store.map Prod.fst).Nodup ∧
  (∀ id ∈ db.objects, (getObj db.store id).isSome = true) ∧
  (∀ pkg ∈ db.packages, ∀ id ∈ pkg.objects,
    ((getObj db.store id).map Elf.owner) = some (some pkg.name)) ∧
  (∀ id ∈ db.objects, ∀ f ∈ foundOf db.store id, f ∈ db.objects) ∧
  (∀ id ∈ db.objects,
    (foundOf db.store id).Sorted (· < ·) ∧
    (missingOf db.store id).Sorted strLt)

/-- Freshness of a package value handed to `install_package`: its objects
are new arena entries (identifiers unused by the database's flat index),
listed once each, owned by the package, and with empty resolution sets. -/
def FreshPkg (db : DB) (pkg : Package) : Prop :=
  pkg.objects.Nodup ∧
  (∀ id ∈ pkg.objects, id ∉ db.objects) ∧
  (∀ id ∈ pkg.objects,
    ((getObj db.store id).map
      (fun o => (o.owner, o.req_found, o.req_missing))) =
      some (some pkg.name, [], []))

/-- Resolution-consistency of a database state: a recorded missing name
really has no visible provider.  This is what `install_package` and
`delete_package` maintain, and what editing `library_path` without a relink
can break. -/
def Consistent (db : DB) : Prop :=
  ∀ id ∈ db.objects, ∀ o, getObj db.store id = some o →
    ∀ b ∈ o.req_missing, db.find_for o b (db.get_obj_libpath o) = none

/-- All resolution sets of the database are empty (the state in which a
relink is meaningful; loaders produce objects in this state). -/
def AllEmpty (db : DB) : Prop :=
  ∀ id ∈ db.objects,
    foundOf db.store id = [] ∧ missingOf db.store id = []


/-- Lookup in a worker map keyed by arena identifiers. -/
def mlookup {α : Type} (m : List (Nat × α)) (j : Nat) : Option α :=
  (m.find? (fun e => e.1 == j)).map (·.2)

/-- The fresh-link transform of one object: its sets replaced by what
`link_object` computes into empty sets. -/
def freshApply (db : DB) (own : String) (o : Elf) : Elf :=
  { o with req_found := (db.link_object o own [] []).1,
           req_missing := (db.link_object o own [] []).2 }

/-- Specification-side description of a full relink (spec §8 I7): every
object owned by an installed package carries exactly the sets that
`link_object(o, o.owner)` computes into fresh empty sets against the
current database; everything else is unchanged. -/
def linkFreshSpec (db : DB) : DB :=
  { db with store := db.store.map (fun e =>
      match db.packages.find? (fun p => p.objects.contains e.1) with
      | some pkg => (e.1, freshApply db pkg.name e.2)
      | none => e) }

/-- Convenience constructor for concrete objects in witnesses. -/
def mkElf (dir base : String) (needs : List String) (rp : Option String)
    (own : Option String) : Elf :=
  { dirname := dir, basename := base, ei_class := 2, ei_data := 1,
    ei_osabi := 0, rpath := rp, runpath := none, needed := needs,
    owner := own, req_found := [], req_missing := [] }

/-- Convenience constructor for concrete packages in witnesses. -/
def mkPkg (name : String) (objs : List Nat) : Package :=
  { name := name, version := "1", depends := [], optdepends := [],
    replaces := [], conflicts := [], provides := [], groups := [],
    filelist := [], objects := objs }

/-- The empty database. -/
def emptyDB : DB :=
  { packages := [], objects := [], store := [], library_path := [],
    package_library_path := [], ignore_file_rules := [],
    assume_found_rules := [], strict_linking := false,
    contains_package_depends := false, contains_groups := false,
    contains_filelists := false }

/-- Pointwise equality of the static parts of two arenas. -/
def storeStaticEq (st st' : Store) : Prop :=
  ∀ i, (getObj st i).map Elf.static = (getObj st' i).map Elf.static

/-- Relation between a reference state and a state reached from it by
resolution-set updates only: all searched data (package list, flat index,
path configuration, rules, linking mode and the arena's static parts)
coincide. -/
structure DBRel (db0 d : DB) : Prop where
  pk : d.packages = db0.packages
  obj : d.objects = db0.objects
  lib : d.library_path = db0.library_path
  plp : d.package_library_path = db0.package_library_path
  ign : d.ignore_file_rules = db0.ignore_file_rules
  ass : d.assume_found_rules = db0.assume_found_rules
  strict : d.strict_linking = db0.strict_linking
  sst : storeStaticEq d.store db0.store


/-- Claim-side visibility predicate (C6): the dirname is in the requester's
colon-split rpath, or its colon-split runpath, or is a trusted path, or is
in the DB's `library_path`, or is in the supplied extra paths. -/
def visibleSpec (db : DB) (obj : Elf) (dir : String)
    (extra : Option (List String)) : Prop :=
  (∃ rp, obj.rpath = some rp ∧ dir ∈ strSplit ':' rp) ∨
  (∃ rp, obj.runpath = some rp ∧ dir ∈ strSplit ':' rp) ∨
  dir = "/lib" ∨ dir = "/usr/lib" ∨ dir ∈ db.library_path ∨
  (∃ ex, extra = some ex ∧ dir ∈ ex)

/-- Claim-side qualification predicate (C6): a flat-index identifier
qualifies when it is live, class-compatible with the requester, has the
needed basename, and its directory is visible. -/
def qualifiesSpec (db : DB) (obj : Elf) (needed : String)
    (extra : Option (List String)) (id : Nat) : Prop :=
  ∃ lib, getObj db.store id = some lib ∧
    obj.can_use lib db.strict_linking = true ∧ lib.basename = needed ∧
    visibleSpec db obj lib.dirname extra

/-- Concrete state for the C3 counterexample: package `P` provides
`/usr/lib/libA.so` (arena id 1), package `Q` owns `/usr/bin/app` (arena
id 2) which needs `libA.so` and currently resolves it to id 1; `libA.so`
is on the assume-found allowlist. -/
def dbC3 : DB :=
  { emptyDB with
    packages := [mkPkg "P" [1], mkPkg "Q" [2]],
    objects := [1, 2],
    store :=
      [(1, mkElf "/usr/lib" "libA.so" [] none (some "P")),
       (2, { mkElf "/usr/bin" "app" ["libA.so"] none (some "Q") with
              req_found := [1] })],
    library_path := ["/usr/lib"],
    assume_found_rules := ["libA.so"] }

/-- Concrete package with an empty name (C4 counterexample). -/
def pkgC4 : Package := mkPkg "" []

/-- Concrete state for the C1 counterexample: a name that is both on the
assume-found allowlist and actually resolvable. -/
def dbC1 : DB :=
  { emptyDB with
    store :=
      [(1, mkElf "/usr/lib" "libA.so" [] none (some "P")),
       (2, mkElf "/usr/bin" "app" ["libA.so"] none (some "P"))],
    assume_found_rules := ["libA.so"] }

/-- Concrete state for the C2 counterexample: one installed object with a
stale `req_missing` entry `"x"` and an unresolvable need `"y"`. -/
def dbC2 : DB :=
  { emptyDB with
    packages := [mkPkg "P" [1]],
    objects := [1],
    store :=
      [(1, { mkElf "/usr/lib" "libB.so" ["y"] none (some "P") with
              req_missing := ["x"] })] }

/-- Concrete state for the C8 counterexample: seeker 2 records `libA.so`
as missing although provider 1 is visible (a stale state, reachable by
editing `library_path` without a relink). -/
def dbC8 : DB :=
  { emptyDB with
    packages := [mkPkg "R" [1], mkPkg "Q" [2]],
    objects := [1, 2],
    store :=
      [(1, mkElf "/usr/lib" "libA.so" [] none (some "R")),
       (2, { mkElf "/usr/bin" "app" ["libA.so"] none (some "Q") with
              req_missing := ["libA.so"] }),
       (3, mkElf "/opt/lib" "libA.so" [] none (some "P"))],
    library_path := ["/opt/lib"] }

/-- The package installed and removed again in the C8 counterexample. -/
def pkgC8 : Package := mkPkg "P" [3]

/-- Concrete state for the C10 witness: a library-path entry whose name
starts with a decimal digit. -/
def dbC10 : DB := { emptyDB with library_path := ["/x", "7seven"] }

/-- Concrete state for the C9 witness. -/
def dbC9 : DB := { emptyDB with package_library_path := [("p", ["/a"])] }

/-- Concrete state for the C8 witness: like `dbC8` but consistent — the
seeker records its dependency as found, not missing. -/
def dbC8w : DB :=
  { emptyDB with
    packages := [mkPkg "R" [1], mkPkg "Q" [2]],
    objects := [1, 2],
    store :=
      [(1, mkElf "/usr/lib" "libA.so" [] none (some "R")),
       (2, { mkElf "/usr/bin" "app" ["libA.so"] none (some "Q") with
              req_found := [1] }),
       (3, mkElf "/opt/lib" "libA.so" [] none (some "P"))],
    library_path := ["/opt/lib"] }

/-- Concrete state for the C2 witness: like `dbC2` but with all resolution
sets empty (the state a loader produces, in which a relink is run). -/
def dbC2f : DB :=
  { emptyDB with
    packages := [mkPkg "P" [1]],
    objects := [1],
    store := [(1, mkElf "/usr/lib" "libB.so" ["y"] none (some "P"))] }


/-- The database with its assume-found allowlist replaced (used to state
that `delete_package` never reads the allowlist). -/
def withAssume (db : DB) (A : List String) : DB :=
  { db with assume_found_rules := A }

/-- The weakened partition property of spec §8 I1 relative to a fixed name
arena `st` and allowlist `A`, stated on one seeker value: names of
`req_found` and the `req_missing` entries lie in `needed`, every `needed`
name is covered by one of the three parts, found-names avoid `req_missing`,
the found set is strictly sorted, and the name map is injective on it. -/
def SeekerInv (st : Store) (A : List String) (t : Elf) : Prop :=
  (∀ n ∈ namesOf st t.req_found, n ∈ t.needed) ∧
  (∀ m ∈ t.req_missing, m ∈ t.needed) ∧
  (∀ n ∈ t.needed,
    n ∈ namesOf st t.req_found ∨ n ∈ t.req_missing ∨ n ∈ A) ∧
  (∀ n ∈ namesOf st t.req_found, n ∉ t.req_missing) ∧
  t.req_found.Sorted (· < ·) ∧
  (∀ f1 ∈ t.req_found, ∀ f2 ∈ t.req_found, ∀ n,
    (getObj st f1).map Elf.basename = some n →
    (getObj st f2).map Elf.basename = some n → f1 = f2)

/-- The per-needed-name loop body of `DB::link_object` (db.cpp:298-310),
named for the characterization proofs. -/
def linkFold (db : DB) (o : Elf) (own : String)
    (needs : List String) (acc : List Nat × List String) :
    List Nat × List String :=
  needs.foldl
    (fun acc needed =>
      match db.find_for o needed (db.get_pkg_libpath own) with
      | some found => (oinsert acc.1 found, acc.2)
      | none =>
        if db.assume_found_rules.contains needed then acc
        else (acc.1, sinsert acc.2 needed))
    acc


/-- The found-map entry a relink worker records for one object: the fresh
`req_found`, but only when non-empty. -/
def workerFoundOpt (db : DB) (own : String) (id : Nat) : Option (List Nat) :=
  match getObj db.store id with
  | none => none
  | some o =>
    let r := db.link_object o own [] []
    if r.1.isEmpty then none else some r.1

/-- The missing-map entry a relink worker records for one object. -/
def workerMissingOpt (db : DB) (own : String) (id : Nat) :
    Option (List String) :=
  match getObj db.store id with
  | none => none
  | some o =>
    let r := db.link_object o own [] []
    if r.2.isEmpty then none else some r.2


/-- The relink worker's fold from an arbitrary accumulator (the body of
`DB.relinkWorker`, generalized for induction). -/
def relinkWorkerFrom (db : DB) (pkgs : List Package)
    (acc : List (Nat × List Nat) × List (Nat × List String)) :
    List (Nat × List Nat) × List (Nat × List String) :=
  pkgs.foldl
    (fun acc pkg =>
      pkg.objects.foldl
        (fun acc2 id =>
          match getObj db.store id with
          | none => acc2
          | some obj =>
            let r := db.link_object obj pkg.name [] []
            let f := if r.1.isEmpty then acc2.1 else mapSet acc2.1 id r.1
            let m := if r.2.isEmpty then acc2.2 else mapSet acc2.2 id r.2
            (f, m))
        acc)
    acc


theorem mem_oinsert {α : Type} [LinearOrder α] (l : List α) (x a : α) :
    a ∈ oinsert l x ↔ a = x ∨ a ∈ l := by
  induction l with
  | nil => simp [oinsert]
  | cons y ys ih =>
    by_cases h1 : x < y
    · simp [oinsert, h1]
    · by_cases h2 : x = y
      · subst h2
        simp only [oinsert, if_neg h1, if_pos rfl]
        constructor
        · exact Or.inr
        · rintro (rfl | h) <;> [exact List.mem_cons_self _ _; exact h]
      · simp only [oinsert, if_neg h1, if_neg h2, List.mem_cons, ih]
        tauto

theorem sorted_oinsert {α : Type} [LinearOrder α] (l : List α) (x : α)
    (h : l.Sorted (· < ·)) : (oinsert l x).Sorted (· < ·) := by
  induction l with
  | nil => simp [oinsert]
  | cons y ys ih =>
    rw [List.sorted_cons] at h
    obtain ⟨hy, hys⟩ := h
    by_cases h1 : x < y
    · simp only [oinsert, if_pos h1, List.sorted_cons]
      refine ⟨fun b hb => ?_, hy, hys⟩
      rcases List.mem_cons.mp hb with rfl | hb
      · exact h1
      · exact h1.trans (hy b hb)
    · by_cases h2 : x = y
      · subst h2
        simp only [oinsert, if_neg h1, if_pos rfl]
        exact List.sorted_cons.mpr ⟨hy, hys⟩
      · have hyx : y < x := by
          rcases lt_trichotomy x y with h | h | h
          · exact absurd h h1
          · exact absurd h h2
          · exact h
        simp only [oinsert, if_neg h1, if_neg h2, List.sorted_cons]
        refine ⟨fun b hb => ?_, ih hys⟩
        rcases (mem_oinsert ys x b).mp hb with rfl | hb
        · exact hyx
        · exact hy b hb

theorem oinsert_erase_cancel {α : Type} [LinearOrder α] (l : List α) (x : α)
    (h : x ∉ l) : (oinsert l x).erase x = l := by
  induction l with
  | nil => simp [oinsert]
  | cons y ys ih =>
    have hxy : x ≠ y := fun e => h (e ▸ List.mem_cons_self y ys)
    have hx : x ∉ ys := fun e => h (List.mem_cons_of_mem _ e)
    by_cases h1 : x < y
    · simp [oinsert, h1, List.erase_cons_head]
    · simp only [oinsert, if_neg h1, if_neg hxy]
      rw [List.erase_cons_tail, ih hx]
      simp [hxy.symm]

theorem getObj_setObj (st : Store) (id : Nat) (o : Elf) (j : Nat) :
    getObj (setObj st id o) j =
      if j = id then (getObj st id).map (fun _ => o) else getObj st j := by
  induction st with
  | nil => simp [getObj, setObj]
  | cons e es ih =>
    obtain ⟨k, v⟩ := e
    by_cases hk : k = id
    · subst hk
      by_cases hj : k = j
      · subst hj; simp [getObj, setObj]
      · simp [getObj, setObj, hj, Ne.symm hj, ih]
    · by_cases hj : k = j
      · subst hj
        simp [getObj, setObj, hk, fun h => hk (h : k = id)]
      · simp [getObj, setObj, hk, hj, ih]

theorem static_fields {o o' : Elf} (h : Elf.static o = Elf.static o') :
    o.dirname = o'.dirname ∧ o.basename = o'.basename ∧
    o.ei_class = o'.ei_class ∧ o.ei_data = o'.ei_data ∧
    o.ei_osabi = o'.ei_osabi ∧ o.rpath = o'.rpath ∧
    o.runpath = o'.runpath ∧ o.needed = o'.needed ∧ o.owner = o'.owner := by
  cases o; cases o'
  simp only [Elf.static, Elf.mk.injEq] at h
  simp_all

theorem static_static (o : Elf) : Elf.static (Elf.static o) = Elf.static o := rfl

theorem can_use_congr {s s' t t' : Elf}
    (hs : Elf.static s = Elf.static s') (ht : Elf.static t = Elf.static t')
    (b : Bool) : s.can_use t b = s'.can_use t' b := by
  obtain ⟨-, -, h3, h4, h5, -⟩ := static_fields hs
  obtain ⟨-, -, g3, g4, g5, -⟩ := static_fields ht
  simp [Elf.can_use, h3, h4, h5, g3, g4, g5]

theorem elf_finds_congr {db0 d : DB} (hlib : d.library_path = db0.library_path)
    {s s' : Elf} (hs : Elf.static s = Elf.static s') (p : String)
    (e : Option (List String)) : d.elf_finds s p e = db0.elf_finds s' p e := by
  obtain ⟨-, -, -, -, -, h6, h7, -⟩ := static_fields hs
  simp [DB.elf_finds, hlib, h6, h7]

theorem find?_congr {α : Type} {p q : α → Bool} :
    ∀ l : List α, (∀ a ∈ l, p a = q a) → l.find? p = l.find? q := by
  intro l
  induction l with
  | nil => intro _; rfl
  | cons a as ih =>
    intro h
    have ha := h a (List.mem_cons_self a as)
    rw [List.find?, List.find?, ha]
    cases q a
    · exact ih fun x hx => h x (List.mem_cons_of_mem a hx)
    · rfl

theorem foldl_congr {α β : Type} {f g : β → α → β} :
    ∀ (l : List α) (b : β), (∀ x ∈ l, ∀ acc, f acc x = g acc x) →
      l.foldl f b = l.foldl g b := by
  intro l
  induction l with
  | nil => intro _ _; rfl
  | cons a as ih =>
    intro b h
    rw [List.foldl, List.foldl, h a (List.mem_cons_self a as)]
    exact ih _ (fun x hx acc => h x (List.mem_cons_of_mem a hx) acc)

theorem find_for_congr {db0 d : DB} (hRel : DBRel db0 d) {s s' : Elf}
    (hs : Elf.static s = Elf.static s') (needed : String)
    (extra : Option (List String)) :
    d.find_for s needed extra = db0.find_for s' needed extra := by
  rw [DB.find_for, DB.find_for, hRel.obj]
  refine find?_congr _ (fun id _ => ?_)
  have h := hRel.sst id
  cases hg : getObj d.store id with
  | none =>
    rw [hg] at h
    cases hg' : getObj db0.store id with
    | none => rfl
    | some o' => rw [hg'] at h; simp at h
  | some o =>
    rw [hg] at h
    cases hg' : getObj db0.store id with
    | none => rw [hg'] at h; simp at h
    | some o' =>
      rw [hg'] at h
      simp only [Option.map_some'] at h
      have h2 : Elf.static o = Elf.static o' := Option.some.inj h
      obtain ⟨hd, hb, -⟩ := static_fields h2
      show (s.can_use o d.strict_linking && o.basename == needed &&
          d.elf_finds s o.dirname extra) =
        (s'.can_use o' db0.strict_linking && o'.basename == needed &&
          db0.elf_finds s' o'.dirname extra)
      rw [hRel.strict, can_use_congr hs h2, hb, hd,
        elf_finds_congr hRel.lib hs]

theorem get_pkg_libpath_congr {db0 d : DB} (hRel : DBRel db0 d) (n : String) :
    d.get_pkg_libpath n = db0.get_pkg_libpath n := by
  rw [DB.get_pkg_libpath, DB.get_pkg_libpath, hRel.plp]

theorem get_obj_libpath_congr {db0 d : DB} (hRel : DBRel db0 d) {s s' : Elf}
    (hs : Elf.static s = Elf.static s') :
    d.get_obj_libpath s = db0.get_obj_libpath s' := by
  obtain ⟨-, -, -, -, -, -, -, -, how⟩ := static_fields hs
  rw [DB.get_obj_libpath, DB.get_obj_libpath, how]
  cases s'.owner with
  | none => rfl
  | some n => exact get_pkg_libpath_congr hRel n

theorem link_object_congr {db0 d : DB} (hRel : DBRel db0 d) {s s' : Elf}
    (hs : Elf.static s = Elf.static s') (own : String)
    (f : List Nat) (m : List String) :
    d.link_object s own f m = db0.link_object s' own f m := by
  obtain ⟨hd, hb, -, -, -, -, -, hn, -⟩ := static_fields hs
  rw [DB.link_object, DB.link_object, hd, hb, hRel.ign, hn,
    get_pkg_libpath_congr hRel own]
  by_cases hi :
      (db0.ignore_file_rules.contains (s'.dirname ++ "/" ++ s'.basename)) = true
  · rw [if_pos hi, if_pos hi]
  · rw [if_neg hi, if_neg hi]
    refine foldl_congr _ _ (fun nd _ acc => ?_)
    rw [find_for_congr hRel hs nd, hRel.ass]

theorem seekerFold_cons (G : DB → Elf → Elf) (i : Nat) (is : List Nat)
    (db : DB) :
    seekerFold G (i :: is) db =
      seekerFold G is
        (match getObj db.store i with
         | none => db
         | some s => { db with store := setObj db.store i (G db s) }) := rfl

theorem seekerFold_shape (G : DB → Elf → Elf) :
    ∀ (ids : List Nat) (db : DB),
      seekerFold G ids db = { db with store := (seekerFold G ids db).store } := by
  intro ids
  induction ids with
  | nil => intro db; rfl
  | cons i is ih =>
    intro db
    rw [seekerFold_cons]
    cases hg : getObj db.store i with
    | none => simp only [hg]; exact ih db
    | some s => simp only [hg]; exact ih _

theorem DBRel.rfl' (db : DB) : DBRel db db :=
  ⟨rfl, rfl, rfl, rfl, rfl, rfl, rfl, fun _ => rfl⟩

theorem DBRel.step {db0 d : DB} (h : DBRel db0 d) {i : Nat} {s : Elf}
    (hg : getObj d.store i = some s) {G : DB → Elf → Elf}
    (hGstat : Elf.static (G d s) = Elf.static s) :
    DBRel db0 { d with store := setObj d.store i (G d s) } := by
  refine ⟨h.pk, h.obj, h.lib, h.plp, h.ign, h.ass, h.strict, fun k => ?_⟩
  show (getObj (setObj d.store i (G d s)) k).map Elf.static = _
  rw [getObj_setObj]
  by_cases hk : k = i
  · subst hk
    rw [if_pos rfl, hg]
    simp only [Option.map_some']
    rw [hGstat]
    have hs := h.sst k
    rw [hg] at hs
    simpa using hs
  · rw [if_neg hk]
    exact h.sst k

theorem seekerFold_getObj (G : DB → Elf → Elf) (db0 : DB)
    (hGcong : ∀ d s, DBRel db0 d → G d s = G db0 s)
    (hGstat : ∀ d s, Elf.static (G d s) = Elf.static s) :
    ∀ (ids : List Nat) (d : DB), ids.Nodup → DBRel db0 d →
      ∀ j, getObj (seekerFold G ids d).store j =
        if j ∈ ids then (getObj d.store j).map (G db0)
        else getObj d.store j := by
  intro ids
  induction ids with
  | nil =>
    intro d _ _ j
    simp [seekerFold]
  | cons i is ih =>
    intro d hnd hRel j
    obtain ⟨hi_nin, his⟩ := List.nodup_cons.mp hnd
    rw [seekerFold_cons]
    cases hg : getObj d.store i with
    | none =>
      simp only [hg]
      rw [ih d his hRel j]
      by_cases hj : j ∈ is
      · rw [if_pos hj, if_pos (List.mem_cons_of_mem i hj)]
      · rw [if_neg hj]
        by_cases hji : j = i
        · subst hji
          rw [if_pos (List.mem_cons_self j is), hg]
          rfl
        · rw [if_neg (by simp [hji, hj] : ¬ j ∈ i :: is)]
    | some s =>
      simp only [hg]
      have hRel1 := hRel.step hg (hGstat d s)
      rw [ih _ his hRel1 j]
      by_cases hji : j = i
      · subst hji
        rw [if_neg hi_nin]
        show getObj (setObj d.store j (G d s)) j = _
        rw [getObj_setObj, if_pos rfl, hg, if_pos (List.mem_cons_self j is)]
        simp only [Option.map_some']
        rw [hGcong d s hRel]
      · have hun : getObj (setObj d.store i (G d s)) j = getObj d.store j := by
          rw [getObj_setObj, if_neg hji]
        by_cases hj : j ∈ is
        · rw [if_pos hj]
          show (getObj (setObj d.store i (G d s)) j).map (G db0) = _
          rw [hun, if_pos (List.mem_cons_of_mem i hj)]
        · rw [if_neg hj]
          show getObj (setObj d.store i (G d s)) j = _
          rw [hun, if_neg (by simp [hji, hj] : ¬ j ∈ i :: is)]

theorem seekerFold_getObj_notmem (G : DB → Elf → Elf) :
    ∀ (ids : List Nat) (d : DB) (j : Nat), j ∉ ids →
      getObj (seekerFold G ids d).store j = getObj d.store j := by
  intro ids
  induction ids with
  | nil => intro d j _; rfl
  | cons i is ih =>
    intro d j hj
    rw [seekerFold_cons]
    have hji : j ≠ i := fun h => hj (h ▸ List.mem_cons_self i is)
    have hjs : j ∉ is := fun h => hj (List.mem_cons_of_mem i h)
    cases hg : getObj d.store i with
    | none => simp only [hg]; exact ih d j hjs
    | some s =>
      simp only [hg]
      rw [ih _ j hjs]
      show getObj (setObj d.store i (G d s)) j = _
      rw [getObj_setObj, if_neg hji]

/-- C10: for a non-empty string whose first character is a decimal digit,
`DB::ld_delete` parses it with `strtoul` (base 0) and dispatches to
deletion by index; the resulting `library_path` is a positional erase, so
such an entry is never compared by name. -/
theorem ld_delete_digit_dispatch (db : DB) (d : String)
    (hne : d.length ≠ 0) (hdig : '0' ≤ d.front ∧ d.front ≤ '9') :
    db.ld_delete d = db.ld_delete_idx (strtoul0 d) ∧
    ((db.ld_delete d).1).library_path =
      (if strtoul0 d < db.library_path.length then
        db.library_path.eraseIdx (strtoul0 d)
      else db.library_path) := by
  have h1 : db.ld_delete d = db.ld_delete_idx (strtoul0 d) := by
    rw [DB.ld_delete, if_neg (by simpa using hne), if_pos hdig]
  refine ⟨h1, ?_⟩
  rw [h1, DB.ld_delete_idx]
  by_cases h : strtoul0 d < db.library_path.length
  · rw [if_neg, if_pos h]
    rintro (he | hle)
    · rw [List.isEmpty_iff] at he
      rw [he] at h
      simp at h
    · omega
  · rw [if_pos, if_neg h]
    right
    omega

/-- C10 witness: `"7seven"` names an existing `library_path` entry of
`dbC10`, yet `ld_delete "7seven"` is index deletion at `strtoul0 "7seven"
= 7`, which is out of range, so the entry is not removed. -/
theorem ld_delete_digit_dispatch_witness :
    ("7seven".length ≠ 0 ∧ ('0' ≤ "7seven".front ∧ "7seven".front ≤ '9')) ∧
    "7seven" ∈ dbC10.library_path ∧
    (dbC10.ld_delete "7seven" = dbC10.ld_delete_idx (strtoul0 "7seven") ∧
      ((dbC10.ld_delete "7seven").1).library_path =
        (if strtoul0 "7seven" < dbC10.library_path.length then
          dbC10.library_path.eraseIdx (strtoul0 "7seven")
        else dbC10.library_path)) :=
  ⟨⟨by decide, by decide, by decide⟩, by decide,
    ld_delete_digit_dispatch dbC10 "7seven" (by decide) ⟨by decide, by decide⟩⟩

/-- C5 (code bug): with any comparator that pronounces equal versions
equal, `version_satisfies` returns `false` on the identical constraints
`(">=", v, ">=", v)`, although §4.7 specifies that identical constraints
match and the code's own comment says "the provided must be >= A"; the
identical-`"="` case and the `dop = "="`, `pop ≠ "="` case behave as
specified. -/
theorem version_satisfies_identical_ge :
    strVercmp "1.0" "1.0" = 0 ∧
    version_satisfies strVercmp ">=" "1.0" ">=" "1.0" = false ∧
    version_satisfies strVercmp "!=" "1.0" "!=" "1.0" = false ∧
    version_satisfies strVercmp "<=" "1.0" "<=" "1.0" = false ∧
    version_satisfies strVercmp "=" "1.0" "=" "1.0" = true ∧
    version_satisfies strVercmp "=" "1.0" ">=" "1.0" = false := by
  refine ⟨by decide, by decide, by decide, by decide, by decide, by decide⟩

/-- C7 (code bug): `fixcpath` returns its argument unnormalized, so
`ignore_file "/usr//lib/a"` stores the raw string; the object at the
normalized path `/usr/lib/a` is not skipped by `link_object` (its miss is
still recorded), although the spec says paths are normalized at rule entry
and such an object is skipped. -/
theorem ignore_file_not_normalized :
    fixcpath "/usr//lib/a" = "/usr//lib/a" ∧
    fixpath "/usr//lib/a" = "/usr/lib/a" ∧
    ((emptyDB.ignore_file "/usr//lib/a").1).ignore_file_rules =
      ["/usr//lib/a"] ∧
    ((emptyDB.ignore_file "/usr//lib/a").1).link_object
        (mkElf "/usr/lib" "a" ["x"] none (some "P")) "P" [] [] =
      ([], ["x"]) := by
  refine ⟨rfl, by decide, by decide, by decide⟩

/-- Helper for C4: `DB::delete_package` returns `true` on both of its
paths. -/
theorem delete_package_returns_true (db : DB) (n : String) :
    (db.delete_package n).2 = true := by
  rw [DB.delete_package]
  split <;> rfl

/-- C4 (amended): `install_package` always reports success — there is no
rejection path at all, because `delete_package` never fails; in particular
an empty package name is not rejected. -/
theorem install_package_always_true (db : DB) (pkg : Package) :
    (db.install_package pkg).2 = true := by
  rw [DB.install_package]
  rw [delete_package_returns_true db pkg.name]
  rfl

/-- C4 counterexample: installing a package whose name is empty returns
`true` (not `false` as the claim's rejection requires) and mutates the
database. -/
theorem install_empty_name_not_rejected :
    pkgC4.name = "" ∧
    (emptyDB.install_package pkgC4).2 = true ∧
    ((emptyDB.install_package pkgC4).1).packages = [pkgC4] := by
  refine ⟨rfl, by decide, by decide⟩

/-- C1 counterexample: after `install_package`, the name `libA.so` is
simultaneously in `names(req_found)` of object 2 and in
`needed ∩ assume_found_rules`, so the three sets of I1 are not pairwise
disjoint. -/
theorem partition_counterexample :
    ("libA.so" ∈ namesOf ((dbC1.install_package (mkPkg "P" [1, 2])).1).store
        (foundOf ((dbC1.install_package (mkPkg "P" [1, 2])).1).store 2)) ∧
    ("libA.so" ∈ neededOf ((dbC1.install_package (mkPkg "P" [1, 2])).1).store 2) ∧
    ("libA.so" ∈ ((dbC1.install_package (mkPkg "P" [1, 2])).1).assume_found_rules) := by
  refine ⟨by decide, by decide, by decide⟩

/-- C2 counterexample: from a state with a stale `req_missing` entry, the
serial `relink_all` accumulates into the existing sets (`{"x","y"}`), the
threaded path replaces them (`{"y"}`), and the freshly computed
`link_object` sets are `{"y"}` — so the serial result matches neither the
fresh computation nor the threaded result. -/
theorem relink_counterexample :
    missingOf (dbC2.relink_all).store 1 = ["x", "y"] ∧
    missingOf (dbC2.relink_all_threaded [[mkPkg "P" [1]]]).store 1 = ["y"] ∧
    missingOf (linkFreshSpec dbC2).store 1 = ["y"] ∧
    missingOf (dbC2.relink_all).store 1 ≠
      missingOf (dbC2.relink_all_threaded [[mkPkg "P" [1]]]).store 1 := by
  refine ⟨by decide, by decide, by decide, by decide⟩

/-- C3 counterexample: `libA.so` is on the assume-found allowlist, object
1 (basename `libA.so`) is in seeker 2's `req_found`, and after
`delete_package "P"` the re-resolution misses — yet `libA.so` is inserted
into the seeker's `req_missing`, which the claim forbids. -/
theorem delete_assume_counterexample :
    "libA.so" ∈ dbC3.assume_found_rules ∧
    1 ∈ foundOf dbC3.store 2 ∧
    ((getObj dbC3.store 1).map Elf.basename) = some "libA.so" ∧
    missingOf ((dbC3.delete_package "P").1).store 2 = ["libA.so"] := by
  refine ⟨by decide, by decide, by decide, by decide⟩

/-- C8 counterexample: in a stale state (`libA.so` recorded missing for
seeker 2 although provider 1 is visible), installing `pkgC8` and deleting
it again does not restore seeker 2's sets: `req_found` ends as `{1}` and
`req_missing` as `{}` instead of the prior `{}` / `{libA.so}`. -/
theorem roundtrip_counterexample :
    foundOf dbC8.store 2 = [] ∧
    missingOf dbC8.store 2 = ["libA.so"] ∧
    (dbC8.packages.find? (fun p => p.name == pkgC8.name)) = none ∧
    foundOf (((dbC8.install_package pkgC8).1.delete_package "P").1).store 2 =
      [1] ∧
    missingOf (((dbC8.install_package pkgC8).1.delete_package "P").1).store 2 =
      [] := by
  refine ⟨by decide, by decide, by decide, by decide, by decide⟩

theorem mem_plpSet (plp : List (String × List String)) (k : String)
    (v : List String) : ∀ e ∈ plpSet plp k v, e = (k, v) ∨ e ∈ plp := by
  intro e he
  rw [plpSet] at he
  split at he
  · obtain ⟨a, ha, rfl⟩ := List.mem_map.mp he
    by_cases h : (a.1 == k) = true
    · left; simp [h]
    · right; simpa [h] using ha
  · rcases List.mem_append.mp he with h | h
    · right; exact h
    · left; simpa using h

theorem mem_removeFirstBy {α : Type} (p : α → Bool) :
    ∀ (l : List α) (x : α), x ∈ removeFirstBy p l → x ∈ l := by
  intro l
  induction l with
  | nil => intro x hx; exact absurd hx (List.not_mem_nil x)
  | cons y ys ih =>
    intro x hx
    rw [removeFirstBy] at hx
    split at hx
    · exact List.mem_cons_of_mem y hx
    · rcases List.mem_cons.mp hx with rfl | hx
      · exact List.mem_cons_self x ys
      · exact List.mem_cons_of_mem y (ih x hx)

theorem insertAt_ne_nil {α : Type} :
    ∀ (l : List α) (n : Nat) (x : α), insertAt l n x ≠ [] := by
  intro l n x
  match l, n with
  | l, 0 => simp [insertAt]
  | [], _ + 1 => simp [insertAt]
  | y :: l, n + 1 => simp [insertAt]

theorem find?_plpErase (plp : List (String × List String)) (k : String)
    (hkeys : (plp.map Prod.fst).Nodup) :
    (plpErase plp k).find? (fun e => e.1 == k) = none := by
  induction plp with
  | nil => rfl
  | cons e es ih =>
    rw [List.map_cons, List.nodup_cons] at hkeys
    obtain ⟨hkey, hkeys⟩ := hkeys
    rw [plpErase, removeFirstBy]
    split
    · next hek =>
      rw [List.find?_eq_none]
      intro x hx hpx
      have : x.1 ∈ es.map Prod.fst := List.mem_map.mpr ⟨x, hx, rfl⟩
      rw [beq_iff_eq] at hek hpx
      rw [hpx] at this
      rw [hek] at hkey
      exact hkey this
    · next hek =>
      rw [List.find?_eq_none]
      intro x hx
      rcases List.mem_cons.mp hx with rfl | hx
      · exact hek
      · exact List.find?_eq_none.mp (ih hkeys) x hx

/-- C9 (invariant): when every entry of `package_library_path` maps to a
non-empty list, each of `pkg_ld_insert`, `pkg_ld_delete` (by directory and
by index) and `pkg_ld_clear` preserves this; and deleting the only
directory of a package's list removes the package's entry from the outer
mapping. -/
theorem pkg_ld_nonempty_invariant (db : DB) (pk dir : String) (i : Nat)
    (hInv : ∀ e ∈ db.package_library_path, e.2 ≠ [])
    (hkeys : (db.package_library_path.map Prod.fst).Nodup) :
    (∀ e ∈ ((db.pkg_ld_insert pk dir i).1).package_library_path, e.2 ≠ []) ∧
    (∀ e ∈ ((db.pkg_ld_delete pk dir).1).package_library_path, e.2 ≠ []) ∧
    (∀ e ∈ ((db.pkg_ld_delete_idx pk i).1).package_library_path, e.2 ≠ []) ∧
    (∀ e ∈ ((db.pkg_ld_clear pk).1).package_library_path, e.2 ≠ []) ∧
    (db.get_pkg_libpath pk = some [fixpath dir] →
      ((db.pkg_ld_delete pk dir).1).get_pkg_libpath pk = none) := by
  refine ⟨?_, ?_, ?_, ?_, ?_⟩
  · rw [DB.pkg_ld_insert]
    cases hf : idxOf? (fun d => d == fixpath dir)
        ((db.get_pkg_libpath pk).getD []) with
    | none =>
      simp only [hf]
      intro e he
      rcases mem_plpSet _ _ _ e he with rfl | he
      · exact insertAt_ne_nil _ _ _
      · exact hInv e he
    | some oldidx =>
      simp only [hf]
      split
      · exact hInv
      · intro e he
        rcases mem_plpSet _ _ _ e he with rfl | he
        · exact insertAt_ne_nil _ _ _
        · exact hInv e he
  · rw [DB.pkg_ld_delete]
    cases hf : db.get_pkg_libpath pk with
    | none => exact hInv
    | some path =>
      simp only [hf]
      split
      · split
        · intro e he
          exact hInv e (mem_removeFirstBy _ _ e he)
        · next hne =>
          intro e he
          rcases mem_plpSet _ _ _ e he with rfl | he
          · simpa [List.isEmpty_iff] using hne
          · exact hInv e he
      · exact hInv
  · rw [DB.pkg_ld_delete_idx]
    cases hf : db.get_pkg_libpath pk with
    | none => exact hInv
    | some path =>
      simp only [hf]
      split
      · exact hInv
      · split
        · intro e he
          exact hInv e (mem_removeFirstBy _ _ e he)
        · next hne =>
          intro e he
          rcases mem_plpSet _ _ _ e he with rfl | he
          · simpa [List.isEmpty_iff] using hne
          · exact hInv e he
  · rw [DB.pkg_ld_clear]
    cases hf : db.get_pkg_libpath pk with
    | none => exact hInv
    | some path =>
      simp only [hf]
      intro e he
      exact hInv e (mem_removeFirstBy _ _ e he)
  · intro hone
    rw [DB.pkg_ld_delete]
    rw [hone]
    simp only
    have hc : ([fixpath dir]).contains (fixpath dir) = true := by
      simp [List.contains]
    rw [if_pos hc]
    have he : ([fixpath dir]).erase (fixpath dir) = [] := by
      simp [List.erase_cons_head]
    rw [he]
    simp only [List.isEmpty_nil, if_pos rfl]
    show ((plpErase db.package_library_path pk).find?
        (fun e => e.1 == pk)).map (·.2) = none
    rw [find?_plpErase db.package_library_path pk hkeys]
    rfl

/-- C9 witness: the concrete database `dbC9` maps `p` to the singleton
`["/a"]`; all four operations preserve non-emptiness and deleting `/a`
drops the entry for `p`. -/
theorem pkg_ld_nonempty_invariant_witness :
    (∀ e ∈ ((dbC9.pkg_ld_insert "p" "/a" 0).1).package_library_path,
      e.2 ≠ []) ∧
    (∀ e ∈ ((dbC9.pkg_ld_delete "p" "/a").1).package_library_path,
      e.2 ≠ []) ∧
    (∀ e ∈ ((dbC9.pkg_ld_delete_idx "p" 0).1).package_library_path,
      e.2 ≠ []) ∧
    (∀ e ∈ ((dbC9.pkg_ld_clear "p").1).package_library_path, e.2 ≠ []) ∧
    (dbC9.get_pkg_libpath "p" = some [fixpath "/a"] →
      ((dbC9.pkg_ld_delete "p" "/a").1).get_pkg_libpath "p" = none) :=
  pkg_ld_nonempty_invariant dbC9 "p" "/a" 0 (by decide) (by decide)

theorem elf_finds_iff (db : DB) (obj : Elf) (dir : String)
    (extra : Option (List String)) :
    db.elf_finds obj dir extra = true ↔ visibleSpec db obj dir extra := by
  rw [DB.elf_finds.eq_def, visibleSpec]
  cases hr : obj.rpath <;> cases hu : obj.runpath <;> cases he : extra <;>
    simp [pathlist_contains, List.elem_iff, Bool.or_eq_true,
      beq_iff_eq] <;> tauto

theorem find_for_pred (db : DB) (obj : Elf) (needed : String)
    (extra : Option (List String)) (id : Nat) :
    ((match getObj db.store id with
      | some lib =>
        obj.can_use lib db.strict_linking && lib.basename == needed &&
          db.elf_finds obj lib.dirname extra
      | none => false) = true) ↔ qualifiesSpec db obj needed extra id := by
  cases hg : getObj db.store id with
  | none => simp [qualifiesSpec, hg]
  | some lib =>
    simp [qualifiesSpec, hg, Bool.and_eq_true, beq_iff_eq, elf_finds_iff]
    tauto

/-- C6: `find_for` scans the flat object index in insertion order and
returns the first identifier whose object is live, class-compatible with
the requester, has the needed basename, and whose directory is visible
(rpath colon-split, runpath colon-split, the trusted `/lib` and
`/usr/lib`, the DB `library_path`, or the supplied extra paths); it
returns `none` exactly when no identifier qualifies. -/
theorem find_for_first_match (db : DB) (obj : Elf) (needed : String)
    (extra : Option (List String)) :
    (∀ id, db.find_for obj needed extra = some id ↔
      (qualifiesSpec db obj needed extra id ∧
        ∃ pre post, db.objects = pre ++ id :: post ∧
          ∀ j ∈ pre, ¬ qualifiesSpec db obj needed extra j)) ∧
    (db.find_for obj needed extra = none ↔
      ∀ id ∈ db.objects, ¬ qualifiesSpec db obj needed extra id) := by
  constructor
  · intro id
    rw [DB.find_for, List.find?_eq_some]
    constructor
    · rintro ⟨h1, pre, post, heq, hall⟩
      refine ⟨(find_for_pred db obj needed extra id).mp h1, pre, post, heq,
        fun j hj hq => ?_⟩
      have hb := hall j hj
      have ht := (find_for_pred db obj needed extra j).mpr hq
      simp [ht] at hb
    · rintro ⟨hq, pre, post, heq, hall⟩
      refine ⟨(find_for_pred db obj needed extra id).mpr hq, pre, post, heq,
        fun j hj => ?_⟩
      cases hb : (match getObj db.store j with
        | some lib =>
          obj.can_use lib db.strict_linking && lib.basename == needed &&
            db.elf_finds obj lib.dirname extra
        | none => false) with
      | false => rfl
      | true =>
        exact absurd ((find_for_pred db obj needed extra j).mp hb)
          (hall j hj)
  · rw [DB.find_for, List.find?_eq_none]
    constructor
    · intro h id hid hq
      exact h id hid ((find_for_pred db obj needed extra id).mpr hq)
    · intro h id hid hb
      exact h id hid ((find_for_pred db obj needed extra id).mp hb)

theorem withAssume_pk_update (db : DB) (A : List String) (X : List Package) :
    { withAssume db A with packages := X } =
      withAssume { db with packages := X } A := rfl

theorem withAssume_obj_update (db : DB) (A : List String) (X : List Nat) :
    { withAssume db A with objects := X } =
      withAssume { db with objects := X } A := rfl

theorem reresolveStep_withAssume (d : DB) (A : List String) :
    (withAssume d A).reresolveStep = d.reresolveStep := rfl

theorem reresolveSeeker_withAssume (d : DB) (A : List String)
    (olds : List Nat) (s : Elf) :
    (withAssume d A).reresolveSeeker olds s = d.reresolveSeeker olds s := rfl

theorem refKept_withAssume (d : DB) (A : List String) :
    (withAssume d A).refKept = d.refKept := rfl

theorem seekerFold_withAssume (G : DB → Elf → Elf) (A : List String)
    (hG : ∀ d s, G (withAssume d A) s = G d s) :
    ∀ (ids : List Nat) (d : DB),
      seekerFold G ids (withAssume d A) =
        withAssume (seekerFold G ids d) A := by
  intro ids
  induction ids with
  | nil => intro d; rfl
  | cons i is ih =>
    intro d
    rw [seekerFold_cons, seekerFold_cons]
    simp only [show (withAssume d A).store = d.store from rfl]
    cases hg : getObj d.store i with
    | none =>
      simp only [hg]
      exact ih d
    | some s =>
      simp only [hg]
      rw [hG d s]
      show seekerFold G is
          (withAssume { d with store := setObj d.store i (G d s) } A) =
        withAssume (seekerFold G is { d with store := setObj d.store i (G d s) }) A
      exact ih _


theorem deleteDb2_withAssume (db : DB) (name : String) (old : Package)
    (A : List String) :
    deleteDb2 (withAssume db A) name old =
      withAssume (deleteDb2 db name old) A := rfl

theorem deleteDb3_withAssume (db : DB) (name : String) (old : Package)
    (A : List String) :
    deleteDb3 (withAssume db A) name old =
      withAssume (deleteDb3 db name old) A := by
  rw [deleteDb3, deleteDb3, deleteDb2_withAssume]
  rw [show (withAssume (deleteDb2 db name old) A).objects =
    (deleteDb2 db name old).objects from rfl]
  exact seekerFold_withAssume _ A
    (fun d s => reresolveSeeker_withAssume d A old.objects s) _ _

theorem deleteCore_withAssume (db : DB) (name : String) (old : Package)
    (A : List String) :
    deleteCore (withAssume db A) name old =
      withAssume (deleteCore db name old) A := by
  rw [deleteCore, deleteCore, deleteDb3_withAssume]
  rfl

/-- C3 (amended): `delete_package` never consults the assume-found
allowlist: its entire result — packages, flat index, and every object's
re-resolved `req_found`/`req_missing` — is unchanged under replacing
`assume_found_rules` (only that field itself differs), so a missed
re-resolution records `o.basename` in the seeker's `req_missing` even when
`o.basename` is a member of the allowlist. -/
theorem delete_package_ignores_assume (db : DB) (name : String)
    (A : List String) :
    (withAssume db A).delete_package name =
      (withAssume (db.delete_package name).1 A,
        (db.delete_package name).2) := by
  rw [DB.delete_package.eq_def, DB.delete_package.eq_def]
  rw [show (withAssume db A).packages = db.packages from rfl]
  cases hf : db.packages.find? (fun p => p.name == name) with
  | none => simp only [hf]
  | some old =>
    simp only [hf]
    rw [deleteCore_withAssume]

theorem linkFreshSpec_getObj (db : DB) (j : Nat) :
    getObj (linkFreshSpec db).store j =
      match db.packages.find? (fun p => p.objects.contains j) with
      | some pkg => (getObj db.store j).map (freshApply db pkg.name)
      | none => getObj db.store j := by
  show getObj (db.store.map _) j = _
  induction db.store with
  | nil => cases db.packages.find? (fun p => p.objects.contains j) <;> rfl
  | cons e es ih =>
    obtain ⟨k, v⟩ := e
    by_cases hk : k = j
    · subst hk
      rw [List.map_cons]
      cases hf : db.packages.find? (fun p => p.objects.contains k) with
      | some pkg =>
        simp only [hf]
        show getObj ((k, freshApply db pkg.name v) :: _) k = _
        rw [getObj, getObj, if_pos rfl, if_pos rfl]
        rfl
      | none =>
        simp only [hf]
        rw [getObj, getObj, if_pos rfl]
        simp
    · rw [List.map_cons]
      cases hf : db.packages.find? (fun p => p.objects.contains j) with
      | some pkg =>
        simp only [hf]
        simp only [hf] at ih
        cases hfk : db.packages.find? (fun p => p.objects.contains k) with
        | some pkg2 =>
          simp only [hfk]
          show getObj ((k, freshApply db pkg2.name v) :: _) j = _
          rw [getObj, if_neg hk, getObj, if_neg hk]
          exact ih
        | none =>
          simp only [hfk]
          show getObj ((k, v) :: _) j = _
          rw [getObj, if_neg hk, getObj, if_neg hk]
          exact ih
      | none =>
        simp only [hf]
        simp only [hf] at ih
        cases hfk : db.packages.find? (fun p => p.objects.contains k) with
        | some pkg2 =>
          simp only [hfk]
          show getObj ((k, freshApply db pkg2.name v) :: _) j = _
          rw [getObj, if_neg hk, getObj, if_neg hk]
          exact ih
        | none =>
          simp only [hfk]
          show getObj ((k, v) :: _) j = _
          rw [getObj, if_neg hk, getObj, if_neg hk]
          exact ih

theorem linkApply_congr {db0 d : DB} (hRel : DBRel db0 d) (own : String)
    (s : Elf) : linkApply d own s = linkApply db0 own s := by
  rw [linkApply, linkApply, link_object_congr hRel rfl]

theorem linkApply_static (d : DB) (own : String) (s : Elf) :
    Elf.static (linkApply d own s) = Elf.static s := rfl

theorem linkApply_fresh (db : DB) (own : String) {o : Elf}
    (hf : o.req_found = []) (hm : o.req_missing = []) :
    linkApply db own o = freshApply db own o := by
  rw [linkApply, freshApply, hf, hm]

theorem seekerFold_DBRel (G : DB → Elf → Elf) (db0 : DB)
    (hGcong : ∀ d s, DBRel db0 d → G d s = G db0 s)
    (hGstat : ∀ d s, Elf.static (G d s) = Elf.static s)
    (ids : List Nat) (d : DB) (hnd : ids.Nodup) (hRel : DBRel db0 d) :
    DBRel db0 (seekerFold G ids d) := by
  have hshape := seekerFold_shape G ids d
  have hget := seekerFold_getObj G db0 hGcong hGstat ids d hnd hRel
  refine ⟨?_, ?_, ?_, ?_, ?_, ?_, ?_, ?_⟩
  · rw [hshape]; exact hRel.pk
  · rw [hshape]; exact hRel.obj
  · rw [hshape]; exact hRel.lib
  · rw [hshape]; exact hRel.plp
  · rw [hshape]; exact hRel.ign
  · rw [hshape]; exact hRel.ass
  · rw [hshape]; exact hRel.strict
  · intro k
    rw [hget k]
    by_cases hk : k ∈ ids
    · rw [if_pos hk]
      have hsst := hRel.sst k
      cases hg : getObj d.store k with
      | none =>
        rw [hg] at hsst
        simpa using hsst
      | some s =>
        rw [hg] at hsst
        simp only [Option.map_some'] at hsst ⊢
        rw [hGstat db0 s]
        exact hsst
    · rw [if_neg hk]
      exact hRel.sst k

theorem find?_owner (pkgs : List Package) (pkg : Package) (id : Nat)
    (hnd : ((pkgs.map Package.objects).flatten).Nodup)
    (hpkg : pkg ∈ pkgs) (hid : id ∈ pkg.objects) :
    pkgs.find? (fun p => p.objects.contains id) = some pkg := by
  induction pkgs with
  | nil => cases hpkg
  | cons p ps ih =>
    rw [List.map_cons, List.flatten_cons, List.nodup_append] at hnd
    obtain ⟨hnd1, hnd2, hdisj⟩ := hnd
    rcases List.mem_cons.mp hpkg with rfl | hmem
    · rw [List.find?_cons_of_pos]
      simp [List.elem_iff, hid]
    · have hflat : id ∈ (ps.map Package.objects).flatten :=
        List.mem_flatten.mpr ⟨pkg.objects, List.mem_map.mpr ⟨pkg, hmem, rfl⟩, hid⟩
      have hnotin : id ∉ p.objects := fun hin => hdisj hin hflat
      rw [List.find?_cons_of_neg]
      · exact ih hnd2 hmem
      · simp [List.elem_iff, hnotin]

theorem relink_serial_fold (db : DB) :
    ∀ (pkgs : List Package) (d : DB), DBRel db d →
      ((pkgs.map Package.objects).flatten).Nodup →
      (∀ pkg ∈ pkgs, ∀ id ∈ pkg.objects,
        getObj d.store id = getObj db.store id) →
      (∀ pkg ∈ pkgs, ∀ id ∈ pkg.objects,
        foundOf db.store id = [] ∧ missingOf db.store id = []) →
      (∀ pkg ∈ pkgs, ∀ id ∈ pkg.objects,
        getObj ((pkgs.foldl
          (fun d2 pkg2 =>
            seekerFold (fun d3 s => linkApply d3 pkg2.name s) pkg2.objects d2)
          d)).store id =
          (getObj db.store id).map (freshApply db pkg.name)) ∧
      (∀ j, j ∉ (pkgs.map Package.objects).flatten →
        getObj ((pkgs.foldl
          (fun d2 pkg2 =>
            seekerFold (fun d3 s => linkApply d3 pkg2.name s) pkg2.objects d2)
          d)).store j = getObj d.store j) ∧
      DBRel db (pkgs.foldl
        (fun d2 pkg2 =>
          seekerFold (fun d3 s => linkApply d3 pkg2.name s) pkg2.objects d2) d) := by
  intro pkgs
  induction pkgs with
  | nil =>
    intro d hRel _ _ _
    exact ⟨fun pkg h => absurd h (List.not_mem_nil pkg),
      fun j _ => rfl, hRel⟩
  | cons p ps ih =>
    intro d hRel hnd huntouched hempty
    rw [List.map_cons, List.flatten_cons, List.nodup_append] at hnd
    obtain ⟨hnd1, hnd2, hdisj⟩ := hnd
    have hGcong : ∀ d2 s, DBRel db d2 →
        linkApply d2 p.name s = linkApply db p.name s :=
      fun d2 s h => linkApply_congr h p.name s
    have hGstat : ∀ (d2 : DB) (s : Elf),
        Elf.static (linkApply d2 p.name s) = Elf.static s :=
      fun d2 s => rfl
    have hget := seekerFold_getObj (fun d3 s => linkApply d3 p.name s) db
      hGcong hGstat p.objects d hnd1 hRel
    have hRel1 := seekerFold_DBRel (fun d3 s => linkApply d3 p.name s) db
      hGcong hGstat p.objects d hnd1 hRel
    set d1 := seekerFold (fun d3 s => linkApply d3 p.name s) p.objects d with hd1
    have huntouched1 : ∀ pkg ∈ ps, ∀ id ∈ pkg.objects,
        getObj d1.store id = getObj db.store id := by
      intro pkg hpkg id hid
      have hflat : id ∈ (ps.map Package.objects).flatten :=
        List.mem_flatten.mpr ⟨pkg.objects, List.mem_map.mpr ⟨pkg, hpkg, rfl⟩, hid⟩
      have hnotin : id ∉ p.objects := fun hin => hdisj hin hflat
      rw [hget id, if_neg hnotin]
      exact huntouched pkg (List.mem_cons_of_mem p hpkg) id hid
    have hempty1 : ∀ pkg ∈ ps, ∀ id ∈ pkg.objects,
        foundOf db.store id = [] ∧ missingOf db.store id = [] :=
      fun pkg hpkg id hid => hempty pkg (List.mem_cons_of_mem p hpkg) id hid
    obtain ⟨ih1, ih2, ih3⟩ := ih d1 hRel1 hnd2 huntouched1 hempty1
    rw [List.foldl_cons]
    refine ⟨?_, ?_, ih3⟩
    · intro pkg hpkg id hid
      rcases List.mem_cons.mp hpkg with rfl | hmem
      · have hflat : id ∉ (ps.map Package.objects).flatten :=
          fun hin => hdisj hid hin
        rw [ih2 id hflat, hget id, if_pos hid,
          huntouched pkg (List.mem_cons_self pkg ps) id hid]
        cases hg : getObj db.store id with
        | none => rfl
        | some o =>
          simp only [Option.map_some']
          obtain ⟨hf, hm⟩ := hempty pkg (List.mem_cons_self pkg ps) id hid
          rw [foundOf, hg] at hf
          rw [missingOf, hg] at hm
          simp only [Option.map_some', Option.getD_some] at hf hm
          rw [linkApply_fresh db pkg.name hf hm]
      · exact ih1 pkg hmem id hid
    · intro j hj
      rw [List.map_cons, List.flatten_cons, List.mem_append] at hj
      push_neg at hj
      rw [ih2 j hj.2, hget j, if_neg hj.1]

theorem mlookup_cons {α : Type} (k : Nat) (v : α) (m : List (Nat × α))
    (j : Nat) :
    mlookup ((k, v) :: m) j = if k = j then some v else mlookup m j := by
  rw [mlookup, mlookup]
  by_cases h : k = j
  · rw [List.find?_cons_of_pos _ (by simpa using h), if_pos h]
    rfl
  · rw [List.find?_cons_of_neg _ (by simpa using h), if_neg h]

theorem mlookup_not_key {α : Type} (m : List (Nat × α)) (j : Nat)
    (h : j ∉ m.map Prod.fst) : mlookup m j = none := by
  rw [mlookup, List.find?_eq_none.mpr]
  · rfl
  · intro e he hbe
    rw [beq_iff_eq] at hbe
    exact h (hbe ▸ List.mem_map.mpr ⟨e, he, rfl⟩)

theorem mlookup_map_ne {α : Type} (k : Nat) (v : α) (j : Nat) (hj : j ≠ k) :
    ∀ m : List (Nat × α),
      mlookup (m.map (fun e => if e.1 == k then (k, v) else e)) j =
        mlookup m j := by
  intro m
  induction m with
  | nil => rfl
  | cons e es ih =>
    obtain ⟨ek, ev⟩ := e
    rw [List.map_cons]
    by_cases hek : ek = k
    · subst hek
      rw [if_pos (by simp)]
      rw [mlookup_cons, mlookup_cons, if_neg (Ne.symm hj),
        if_neg (Ne.symm hj)]
      exact ih
    · rw [if_neg (by simpa using hek)]
      rw [mlookup_cons, mlookup_cons]
      by_cases hj2 : ek = j
      · rw [if_pos hj2, if_pos hj2]
      · rw [if_neg hj2, if_neg hj2]
        exact ih

theorem mlookup_map_key {α : Type} (k : Nat) (v : α) :
    ∀ m : List (Nat × α), k ∈ m.map Prod.fst →
      mlookup (m.map (fun e => if e.1 == k then (k, v) else e)) k =
        some v := by
  intro m
  induction m with
  | nil => intro h; simp at h
  | cons e es ih =>
    obtain ⟨ek, ev⟩ := e
    intro hk
    rw [List.map_cons]
    by_cases hek : ek = k
    · subst hek
      rw [if_pos (by simp), mlookup_cons, if_pos rfl]
    · rw [if_neg (by simpa using hek), mlookup_cons, if_neg hek]
      refine ih ?_
      rcases List.mem_map.mp hk with ⟨x, hx, hfst⟩
      rcases List.mem_cons.mp hx with rfl | hx2
      · exact absurd hfst hek
      · exact List.mem_map.mpr ⟨x, hx2, hfst⟩

theorem mlookup_mapSet {α : Type} (m : List (Nat × α)) (k : Nat) (v : α)
    (j : Nat) :
    mlookup (mapSet m k v) j = if k = j then some v else mlookup m j := by
  rw [mapSet]
  split
  · next hany =>
    by_cases hj : k = j
    · subst hj
      rw [if_pos rfl]
      refine mlookup_map_key k v m ?_
      rcases List.any_eq_true.mp hany with ⟨e, he, hbe⟩
      rw [beq_iff_eq] at hbe
      exact hbe ▸ List.mem_map.mpr ⟨e, he, rfl⟩
    · rw [if_neg hj]
      exact mlookup_map_ne k v j (Ne.symm hj) m
  · next hany =>
    rw [mlookup, List.find?_append]
    by_cases hj : k = j
    · subst hj
      have hm : m.find? (fun e => e.1 == k) = none := by
        rw [List.find?_eq_none]
        intro e he hbe
        exact hany (List.any_eq_true.mpr ⟨e, he, hbe⟩)
      rw [hm, if_pos rfl]
      simp [List.find?]
    · rw [if_neg hj]
      cases hm : m.find? (fun e => e.1 == j) with
      | some e => simp [hm, mlookup]
      | none =>
        rw [mlookup, hm]
        have : (k == j) = false := by simpa using hj
        simp [List.find?, this]

theorem getObj_setFound (st : Store) (id : Nat) (f : List Nat) (j : Nat) :
    getObj (setFound st id f) j =
      if j = id then
        (getObj st id).map (fun o => { o with req_found := f })
      else getObj st j := by
  induction st with
  | nil => simp [getObj, setFound]
  | cons e es ih =>
    obtain ⟨k, v⟩ := e
    by_cases hk : k = id
    · subst hk
      by_cases hj : k = j
      · subst hj; simp [getObj, setFound]
      · simp [getObj, setFound, hj, Ne.symm hj, ih]
    · by_cases hj : k = j
      · subst hj
        simp [getObj, setFound, hk, fun h => hk (h : k = id)]
      · simp [getObj, setFound, hk, hj, ih]

theorem getObj_setMissing (st : Store) (id : Nat) (m : List String)
    (j : Nat) :
    getObj (setMissing st id m) j =
      if j = id then
        (getObj st id).map (fun o => { o with req_missing := m })
      else getObj st j := by
  induction st with
  | nil => simp [getObj, setMissing]
  | cons e es ih =>
    obtain ⟨k, v⟩ := e
    by_cases hk : k = id
    · subst hk
      by_cases hj : k = j
      · subst hj; simp [getObj, setMissing]
      · simp [getObj, setMissing, hj, Ne.symm hj, ih]
    · by_cases hj : k = j
      · subst hj
        simp [getObj, setMissing, hk, fun h => hk (h : k = id)]
      · simp [getObj, setMissing, hk, hj, ih]

theorem applyF_getObj :
    ∀ (F : List (Nat × List Nat)) (d : DB), (F.map Prod.fst).Nodup →
      ∀ j, getObj ((F.foldl
          (fun dd p => { dd with store := setFound dd.store p.1 p.2 })
          d).store) j =
        match mlookup F j with
        | some f => (getObj d.store j).map (fun o => { o with req_found := f })
        | none => getObj d.store j := by
  intro F
  induction F with
  | nil => intro d _ j; rfl
  | cons e es ih =>
    obtain ⟨k, v⟩ := e
    intro d hnd j
    rw [List.map_cons, List.nodup_cons] at hnd
    obtain ⟨hk, hnd⟩ := hnd
    rw [List.foldl_cons]
    rw [ih _ hnd j]
    rw [mlookup_cons]
    by_cases hj : k = j
    · subst hj
      rw [if_pos rfl, mlookup_not_key es k hk]
      show (getObj (setFound d.store k v) k) = _
      rw [getObj_setFound, if_pos rfl]
    · rw [if_neg hj]
      cases hml : mlookup es j with
      | some f =>
        show ((getObj (setFound d.store k v) j).map _) = _
        rw [getObj_setFound, if_neg (Ne.symm hj)]
      | none =>
        show (getObj (setFound d.store k v) j) = _
        rw [getObj_setFound, if_neg (Ne.symm hj)]

theorem applyM_getObj :
    ∀ (M : List (Nat × List String)) (d : DB), (M.map Prod.fst).Nodup →
      ∀ j, getObj ((M.foldl
          (fun dd p => { dd with store := setMissing dd.store p.1 p.2 })
          d).store) j =
        match mlookup M j with
        | some m => (getObj d.store j).map (fun o => { o with req_missing := m })
        | none => getObj d.store j := by
  intro M
  induction M with
  | nil => intro d _ j; rfl
  | cons e es ih =>
    obtain ⟨k, v⟩ := e
    intro d hnd j
    rw [List.map_cons, List.nodup_cons] at hnd
    obtain ⟨hk, hnd⟩ := hnd
    rw [List.foldl_cons]
    rw [ih _ hnd j]
    rw [mlookup_cons]
    by_cases hj : k = j
    · subst hj
      rw [if_pos rfl, mlookup_not_key es k hk]
      show (getObj (setMissing d.store k v) k) = _
      rw [getObj_setMissing, if_pos rfl]
    · rw [if_neg hj]
      cases hml : mlookup es j with
      | some m =>
        show ((getObj (setMissing d.store k v) j).map _) = _
        rw [getObj_setMissing, if_neg (Ne.symm hj)]
      | none =>
        show (getObj (setMissing d.store k v) j) = _
        rw [getObj_setMissing, if_neg (Ne.symm hj)]

theorem mlookup_none_iff {α : Type} (m : List (Nat × α)) (j : Nat) :
    mlookup m j = none ↔ j ∉ m.map Prod.fst := by
  constructor
  · intro h hmem
    rcases List.mem_map.mp hmem with ⟨e, he, hfst⟩
    rw [mlookup] at h
    cases hf : m.find? (fun e => e.1 == j) with
    | some x => rw [hf] at h; simp at h
    | none =>
      have := List.find?_eq_none.mp hf e he
      rw [beq_iff_eq] at this
      exact this hfst
  · exact mlookup_not_key m j

theorem mapSet_keys {α : Type} (m : List (Nat × α)) (k : Nat) (v : α) :
    (mapSet m k v).map Prod.fst =
      if k ∈ m.map Prod.fst then m.map Prod.fst
      else m.map Prod.fst ++ [k] := by
  rw [mapSet]
  split
  · next hany =>
    rw [if_pos]
    · induction m with
      | nil => rfl
      | cons e es ih =>
        obtain ⟨ek, ev⟩ := e
        rw [List.map_cons, List.map_cons, List.map_cons]
        by_cases hek : ek = k
        · subst hek
          rw [if_pos (by simp)]
          show ek :: _ = ek :: _
          congr 1
          by_cases h2 : (es.any fun e => e.1 == ek) = true
          · exact ih h2
          · have hmap : (es.map fun e => if e.1 == ek then (ek, v) else e) =
                es.map id := by
              refine List.map_congr_left ?_
              intro e he
              rw [if_neg]
              · rfl
              · intro hbe
                exact h2 (List.any_eq_true.mpr ⟨e, he, hbe⟩)
            rw [hmap, List.map_id]
        · rw [if_neg (by simpa using hek)]
          show (ek, ev).1 :: _ = (ek, ev).1 :: _
          congr 1
          rcases List.any_eq_true.mp hany with ⟨e, he, hbe⟩
          rcases List.mem_cons.mp he with rfl | he2
          · rw [beq_iff_eq] at hbe
            exact absurd hbe hek
          · exact ih (List.any_eq_true.mpr ⟨e, he2, hbe⟩)
    · rcases List.any_eq_true.mp hany with ⟨e, he, hbe⟩
      rw [beq_iff_eq] at hbe
      exact hbe ▸ List.mem_map.mpr ⟨e, he, rfl⟩
  · next hany =>
    rw [if_neg, List.map_append]
    · rfl
    · intro hmem
      rcases List.mem_map.mp hmem with ⟨e, he, hfst⟩
      exact hany (List.any_eq_true.mpr ⟨e, he, by simpa using hfst⟩)

theorem workerPkg_fold (db : DB) (pkg : Package) :
    ∀ (ids : List Nat) (acc : List (Nat × List Nat) × List (Nat × List String)),
      ids.Nodup →
      (∀ id ∈ ids, mlookup acc.1 id = none ∧ mlookup acc.2 id = none) →
      (acc.1.map Prod.fst).Nodup → (acc.2.map Prod.fst).Nodup →
      (∀ id ∈ ids,
        mlookup (ids.foldl
          (fun acc2 id =>
            match getObj db.store id with
            | none => acc2
            | some obj =>
              let r := db.link_object obj pkg.name [] []
              let f := if r.1.isEmpty then acc2.1 else mapSet acc2.1 id r.1
              let m := if r.2.isEmpty then acc2.2 else mapSet acc2.2 id r.2
              (f, m)) acc).1 id = workerFoundOpt db pkg.name id ∧
        mlookup (ids.foldl
          (fun acc2 id =>
            match getObj db.store id with
            | none => acc2
            | some obj =>
              let r := db.link_object obj pkg.name [] []
              let f := if r.1.isEmpty then acc2.1 else mapSet acc2.1 id r.1
              let m := if r.2.isEmpty then acc2.2 else mapSet acc2.2 id r.2
              (f, m)) acc).2 id = workerMissingOpt db pkg.name id) ∧
      (∀ j, j ∉ ids →
        mlookup (ids.foldl
          (fun acc2 id =>
            match getObj db.store id with
            | none => acc2
            | some obj =>
              let r := db.link_object obj pkg.name [] []
              let f := if r.1.isEmpty then acc2.1 else mapSet acc2.1 id r.1
              let m := if r.2.isEmpty then acc2.2 else mapSet acc2.2 id r.2
              (f, m)) acc).1 j = mlookup acc.1 j ∧
        mlookup (ids.foldl
          (fun acc2 id =>
            match getObj db.store id with
            | none => acc2
            | some obj =>
              let r := db.link_object obj pkg.name [] []
              let f := if r.1.isEmpty then acc2.1 else mapSet acc2.1 id r.1
              let m := if r.2.isEmpty then acc2.2 else mapSet acc2.2 id r.2
              (f, m)) acc).2 j = mlookup acc.2 j) ∧
      ((ids.foldl
          (fun acc2 id =>
            match getObj db.store id with
            | none => acc2
            | some obj =>
              let r := db.link_object obj pkg.name [] []
              let f := if r.1.isEmpty then acc2.1 else mapSet acc2.1 id r.1
              let m := if r.2.isEmpty then acc2.2 else mapSet acc2.2 id r.2
              (f, m)) acc).1.map Prod.fst).Nodup ∧
      ((ids.foldl
          (fun acc2 id =>
            match getObj db.store id with
            | none => acc2
            | some obj =>
              let r := db.link_object obj pkg.name [] []
              let f := if r.1.isEmpty then acc2.1 else mapSet acc2.1 id r.1
              let m := if r.2.isEmpty then acc2.2 else mapSet acc2.2 id r.2
              (f, m)) acc).2.map Prod.fst).Nodup := by
  intro ids
  induction ids with
  | nil =>
    intro acc _ _ h1 h2
    exact ⟨fun id h => absurd h (List.not_mem_nil id),
      fun j _ => ⟨rfl, rfl⟩, h1, h2⟩
  | cons i is ih =>
    intro acc hnd hfresh hk1 hk2
    obtain ⟨hi_nin, his⟩ := List.nodup_cons.mp hnd
    obtain ⟨hfi1, hfi2⟩ := hfresh i (List.mem_cons_self i is)
    rw [List.foldl_cons]
    cases hg : getObj db.store i with
    | none =>
      simp only [hg]
      have hfresh' : ∀ id ∈ is, mlookup acc.1 id = none ∧
          mlookup acc.2 id = none :=
        fun id h => hfresh id (List.mem_cons_of_mem i h)
      obtain ⟨ih1, ih2, ih3, ih4⟩ := ih acc his hfresh' hk1 hk2
      refine ⟨?_, ?_, ih3, ih4⟩
      · intro id hid
        rcases List.mem_cons.mp hid with rfl | hid2
        · obtain ⟨e1, e2⟩ := ih2 id hi_nin
          rw [e1, e2, workerFoundOpt, workerMissingOpt, hg]
          exact ⟨hfi1, hfi2⟩
        · exact ih1 id hid2
      · intro j hj
        exact ih2 j (fun h => hj (List.mem_cons_of_mem i h))
    | some obj =>
      simp only [hg]
      have hacc1 : ∀ id ∈ is,
          mlookup (if (db.link_object obj pkg.name [] []).1.isEmpty
            then acc.1
            else mapSet acc.1 i (db.link_object obj pkg.name [] []).1) id =
            none ∧
          mlookup (if (db.link_object obj pkg.name [] []).2.isEmpty
            then acc.2
            else mapSet acc.2 i (db.link_object obj pkg.name [] []).2) id =
            none := by
        intro id hid
        have hne : i ≠ id := fun h => hi_nin (h ▸ hid)
        obtain ⟨f1, f2⟩ := hfresh id (List.mem_cons_of_mem i hid)
        constructor
        · split
          · exact f1
          · rw [mlookup_mapSet, if_neg hne]; exact f1
        · split
          · exact f2
          · rw [mlookup_mapSet, if_neg hne]; exact f2
      have hknew1 : ((if (db.link_object obj pkg.name [] []).1.isEmpty
          then acc.1
          else mapSet acc.1 i (db.link_object obj pkg.name [] []).1).map
            Prod.fst).Nodup := by
        split
        · exact hk1
        · rw [mapSet_keys, if_neg ((mlookup_none_iff acc.1 i).mp hfi1)]
          rw [List.nodup_append]
          exact ⟨hk1, List.nodup_singleton i,
            fun a ha hb => by
              rw [List.mem_singleton] at hb
              exact (mlookup_none_iff acc.1 i).mp hfi1 (hb ▸ ha)⟩
      have hknew2 : ((if (db.link_object obj pkg.name [] []).2.isEmpty
          then acc.2
          else mapSet acc.2 i (db.link_object obj pkg.name [] []).2).map
            Prod.fst).Nodup := by
        split
        · exact hk2
        · rw [mapSet_keys, if_neg ((mlookup_none_iff acc.2 i).mp hfi2)]
          rw [List.nodup_append]
          exact ⟨hk2, List.nodup_singleton i,
            fun a ha hb => by
              rw [List.mem_singleton] at hb
              exact (mlookup_none_iff acc.2 i).mp hfi2 (hb ▸ ha)⟩
      obtain ⟨ih1, ih2, ih3, ih4⟩ := ih
        ((if (db.link_object obj pkg.name [] []).1.isEmpty then acc.1
          else mapSet acc.1 i (db.link_object obj pkg.name [] []).1),
         (if (db.link_object obj pkg.name [] []).2.isEmpty then acc.2
          else mapSet acc.2 i (db.link_object obj pkg.name [] []).2))
        his hacc1 hknew1 hknew2
      refine ⟨?_, ?_, ih3, ih4⟩
      · intro id hid
        rcases List.mem_cons.mp hid with rfl | hid2
        · obtain ⟨e1, e2⟩ := ih2 id hi_nin
          rw [e1, e2, workerFoundOpt, workerMissingOpt, hg]
          dsimp only
          constructor
          · split
            · next hempty => exact hfi1
            · next hempty => rw [mlookup_mapSet, if_pos rfl]
          · split
            · next hempty => exact hfi2
            · next hempty => rw [mlookup_mapSet, if_pos rfl]
        · exact ih1 id hid2
      · intro j hj
        have hji : i ≠ j := fun h => hj (h ▸ List.mem_cons_self i is)
        obtain ⟨e1, e2⟩ := ih2 j (fun h => hj (List.mem_cons_of_mem i h))
        rw [e1, e2]
        dsimp only
        constructor
        · split
          · rfl
          · rw [mlookup_mapSet, if_neg hji]
        · split
          · rfl
          · rw [mlookup_mapSet, if_neg hji]

theorem relinkWorker_eq_from (db : DB) (pkgs : List Package) :
    db.relinkWorker pkgs = relinkWorkerFrom db pkgs ([], []) := rfl

theorem relinkWorkerFrom_lookup (db : DB) :
    ∀ (pkgs : List Package)
      (acc : List (Nat × List Nat) × List (Nat × List String)),
      ((pkgs.map Package.objects).flatten).Nodup →
      (∀ pkg ∈ pkgs, ∀ id ∈ pkg.objects,
        mlookup acc.1 id = none ∧ mlookup acc.2 id = none) →
      (acc.1.map Prod.fst).Nodup → (acc.2.map Prod.fst).Nodup →
      (∀ pkg ∈ pkgs, ∀ id ∈ pkg.objects,
        mlookup (relinkWorkerFrom db pkgs acc).1 id =
          workerFoundOpt db pkg.name id ∧
        mlookup (relinkWorkerFrom db pkgs acc).2 id =
          workerMissingOpt db pkg.name id) ∧
      (∀ j, (∀ pkg ∈ pkgs, j ∉ pkg.objects) →
        mlookup (relinkWorkerFrom db pkgs acc).1 j = mlookup acc.1 j ∧
        mlookup (relinkWorkerFrom db pkgs acc).2 j = mlookup acc.2 j) ∧
      ((relinkWorkerFrom db pkgs acc).1.map Prod.fst).Nodup ∧
      ((relinkWorkerFrom db pkgs acc).2.map Prod.fst).Nodup := by
  intro pkgs
  induction pkgs with
  | nil =>
    intro acc _ _ h1 h2
    exact ⟨fun pkg h => absurd h (List.not_mem_nil pkg),
      fun j _ => ⟨rfl, rfl⟩, h1, h2⟩
  | cons p ps ih =>
    intro acc hnd hfresh hk1 hk2
    rw [List.map_cons, List.flatten_cons, List.nodup_append] at hnd
    obtain ⟨hnd1, hnd2, hdisj⟩ := hnd
    obtain ⟨w1, w2, w3, w4⟩ := workerPkg_fold db p p.objects acc hnd1
      (fun id hid => hfresh p (List.mem_cons_self p ps) id hid) hk1 hk2
    have hstep : relinkWorkerFrom db (p :: ps) acc =
        relinkWorkerFrom db ps
          (p.objects.foldl
            (fun acc2 id =>
              match getObj db.store id with
              | none => acc2
              | some obj =>
                let r := db.link_object obj p.name [] []
                let f := if r.1.isEmpty then acc2.1 else mapSet acc2.1 id r.1
                let m := if r.2.isEmpty then acc2.2 else mapSet acc2.2 id r.2
                (f, m))
            acc) := rfl
    set acc1 := p.objects.foldl
      (fun acc2 id =>
        match getObj db.store id with
        | none => acc2
        | some obj =>
          let r := db.link_object obj p.name [] []
          let f := if r.1.isEmpty then acc2.1 else mapSet acc2.1 id r.1
          let m := if r.2.isEmpty then acc2.2 else mapSet acc2.2 id r.2
          (f, m))
      acc with hacc1
    have hfresh1 : ∀ pkg ∈ ps, ∀ id ∈ pkg.objects,
        mlookup acc1.1 id = none ∧ mlookup acc1.2 id = none := by
      intro pkg hpkg id hid
      have hflat : id ∈ (ps.map Package.objects).flatten :=
        List.mem_flatten.mpr ⟨pkg.objects, List.mem_map.mpr ⟨pkg, hpkg, rfl⟩, hid⟩
      have hnotin : id ∉ p.objects := fun hin => hdisj hin hflat
      obtain ⟨e1, e2⟩ := w2 id hnotin
      rw [e1, e2]
      exact hfresh pkg (List.mem_cons_of_mem p hpkg) id hid
    obtain ⟨ih1, ih2, ih3, ih4⟩ := ih acc1 hnd2 hfresh1 w3 w4
    rw [hstep]
    refine ⟨?_, ?_, ih3, ih4⟩
    · intro pkg hpkg id hid
      rcases List.mem_cons.mp hpkg with rfl | hmem
      · have hflat : id ∉ (ps.map Package.objects).flatten :=
          fun hin => hdisj hid hin
        have hnotps : ∀ pkg2 ∈ ps, id ∉ pkg2.objects := by
          intro pkg2 hpkg2 hin
          exact hflat (List.mem_flatten.mpr
            ⟨pkg2.objects, List.mem_map.mpr ⟨pkg2, hpkg2, rfl⟩, hin⟩)
        obtain ⟨e1, e2⟩ := ih2 id hnotps
        rw [e1, e2]
        exact w1 id hid
      · exact ih1 pkg hmem id hid
    · intro j hj
      obtain ⟨e1, e2⟩ := ih2 j
        (fun pkg hpkg => hj pkg (List.mem_cons_of_mem p hpkg))
      rw [e1, e2]
      exact w2 j (hj p (List.mem_cons_self p ps))

theorem applyF_shape :
    ∀ (F : List (Nat × List Nat)) (d : DB),
      F.foldl (fun dd p => { dd with store := setFound dd.store p.1 p.2 }) d =
        { d with store := (F.foldl
          (fun dd p => { dd with store := setFound dd.store p.1 p.2 })
          d).store } := by
  intro F
  induction F with
  | nil => intro d; rfl
  | cons e es ih =>
    intro d
    exact ih _

theorem applyM_shape :
    ∀ (M : List (Nat × List String)) (d : DB),
      M.foldl (fun dd p => { dd with store := setMissing dd.store p.1 p.2 }) d =
        { d with store := (M.foldl
          (fun dd p => { dd with store := setMissing dd.store p.1 p.2 })
          d).store } := by
  intro M
  induction M with
  | nil => intro d; rfl
  | cons e es ih =>
    intro d
    exact ih _

theorem applyF_DBRel {db0 : DB} (F : List (Nat × List Nat)) (d : DB)
    (hnd : (F.map Prod.fst).Nodup) (hRel : DBRel db0 d) :
    DBRel db0 (F.foldl
      (fun dd p => { dd with store := setFound dd.store p.1 p.2 }) d) := by
  have hshape := applyF_shape F d
  have hget := applyF_getObj F d hnd
  refine ⟨?_, ?_, ?_, ?_, ?_, ?_, ?_, ?_⟩
  · rw [hshape]; exact hRel.pk
  · rw [hshape]; exact hRel.obj
  · rw [hshape]; exact hRel.lib
  · rw [hshape]; exact hRel.plp
  · rw [hshape]; exact hRel.ign
  · rw [hshape]; exact hRel.ass
  · rw [hshape]; exact hRel.strict
  · intro k
    rw [hget k]
    have hsst := hRel.sst k
    cases hml : mlookup F k with
    | none => exact hsst
    | some f =>
      cases hg : getObj d.store k with
      | none =>
        rw [hg] at hsst
        simpa using hsst
      | some o =>
        rw [hg] at hsst
        simp only [Option.map_some'] at hsst ⊢
        exact hsst
  
theorem applyM_DBRel {db0 : DB} (M : List (Nat × List String)) (d : DB)
    (hnd : (M.map Prod.fst).Nodup) (hRel : DBRel db0 d) :
    DBRel db0 (M.foldl
      (fun dd p => { dd with store := setMissing dd.store p.1 p.2 }) d) := by
  have hshape := applyM_shape M d
  have hget := applyM_getObj M d hnd
  refine ⟨?_, ?_, ?_, ?_, ?_, ?_, ?_, ?_⟩
  · rw [hshape]; exact hRel.pk
  · rw [hshape]; exact hRel.obj
  · rw [hshape]; exact hRel.lib
  · rw [hshape]; exact hRel.plp
  · rw [hshape]; exact hRel.ign
  · rw [hshape]; exact hRel.ass
  · rw [hshape]; exact hRel.strict
  · intro k
    rw [hget k]
    have hsst := hRel.sst k
    cases hml : mlookup M k with
    | none => exact hsst
    | some m =>
      cases hg : getObj d.store k with
      | none =>
        rw [hg] at hsst
        simpa using hsst
      | some o =>
        rw [hg] at hsst
        simp only [Option.map_some'] at hsst ⊢
        exact hsst

theorem tuple_fresh_at (db : DB) (own : String) (id : Nat)
    (F : List (Nat × List Nat)) (M : List (Nat × List String)) (d : DB)
    (hndF : (F.map Prod.fst).Nodup) (hndM : (M.map Prod.fst).Nodup)
    (hF : mlookup F id = workerFoundOpt db own id)
    (hM : mlookup M id = workerMissingOpt db own id)
    (hd : getObj d.store id = getObj db.store id)
    (hf : foundOf db.store id = []) (hm : missingOf db.store id = []) :
    getObj ((M.foldl
        (fun dd p => { dd with store := setMissing dd.store p.1 p.2 })
        (F.foldl
          (fun dd p => { dd with store := setFound dd.store p.1 p.2 })
          d)).store) id =
      (getObj db.store id).map (freshApply db own) := by
  rw [applyM_getObj M _ hndM id, hM, applyF_getObj F d hndF id, hF]
  cases hg : getObj db.store id with
  | none =>
    rw [hg] at hd
    rw [workerFoundOpt, workerMissingOpt, hg, hd]
    rfl
  | some o =>
    rw [hg] at hd
    have hfo : o.req_found = [] := by
      rw [foundOf, hg] at hf
      simpa using hf
    have hmo : o.req_missing = [] := by
      rw [missingOf, hg] at hm
      simpa using hm
    have hWF : workerFoundOpt db own id =
        (if (db.link_object o own [] []).1.isEmpty then none
         else some (db.link_object o own [] []).1) := by
      rw [workerFoundOpt, hg]
    have hWM : workerMissingOpt db own id =
        (if (db.link_object o own [] []).2.isEmpty then none
         else some (db.link_object o own [] []).2) := by
      rw [workerMissingOpt, hg]
    by_cases h1 : (db.link_object o own [] []).1.isEmpty
    · have hr1 : (db.link_object o own [] []).1 = [] :=
        List.isEmpty_iff.mp h1
      have hwf1 : workerFoundOpt db own id = none := by
        rw [hWF, if_pos h1]
      by_cases h2 : (db.link_object o own [] []).2.isEmpty
      · have hr2 : (db.link_object o own [] []).2 = [] :=
          List.isEmpty_iff.mp h2
        have hwm1 : workerMissingOpt db own id = none := by
          rw [hWM, if_pos h2]
        have hfr : freshApply db own o = o := by
          rw [freshApply, hr1, hr2, ← hfo, ← hmo]
        simp only [hwm1, hwf1, hd, Option.map_some', hfr]
      · have hwm1 : workerMissingOpt db own id =
            some (db.link_object o own [] []).2 := by
          rw [hWM, if_neg h2]
        have hfr : freshApply db own o =
            { o with req_missing := (db.link_object o own [] []).2 } := by
          rw [freshApply, hr1, ← hfo]
        simp only [hwm1, hwf1, hd, Option.map_some', hfr]
    · have hwf1 : workerFoundOpt db own id =
          some (db.link_object o own [] []).1 := by
        rw [hWF, if_neg h1]
      by_cases h2 : (db.link_object o own [] []).2.isEmpty
      · have hr2 : (db.link_object o own [] []).2 = [] :=
          List.isEmpty_iff.mp h2
        have hwm1 : workerMissingOpt db own id = none := by
          rw [hWM, if_pos h2]
        have hfr : freshApply db own o =
            { o with req_found := (db.link_object o own [] []).1 } := by
          rw [freshApply, hr2, ← hmo]
        simp only [hwm1, hwf1, hd, Option.map_some', hfr]
      · have hwm1 : workerMissingOpt db own id =
            some (db.link_object o own [] []).2 := by
          rw [hWM, if_neg h2]
        have hfr : freshApply db own o =
            { { o with req_found := (db.link_object o own [] []).1 } with
                req_missing := (db.link_object o own [] []).2 } := rfl
        simp only [hwm1, hwf1, hd, Option.map_some', hfr]

theorem relink_threaded_fold (db : DB) :
    ∀ (slices : List (List Package)) (d : DB), DBRel db d →
      (((slices.flatten).map Package.objects).flatten).Nodup →
      (∀ sl ∈ slices, ∀ pkg ∈ sl, ∀ id ∈ pkg.objects,
        getObj d.store id = getObj db.store id) →
      (∀ sl ∈ slices, ∀ pkg ∈ sl, ∀ id ∈ pkg.objects,
        foundOf db.store id = [] ∧ missingOf db.store id = []) →
      (∀ sl ∈ slices, ∀ pkg ∈ sl, ∀ id ∈ pkg.objects,
        getObj (DB.relinkMerge d (slices.map db.relinkWorker)).store id =
          (getObj db.store id).map (freshApply db pkg.name)) ∧
      (∀ j, (∀ sl ∈ slices, ∀ pkg ∈ sl, j ∉ pkg.objects) →
        getObj (DB.relinkMerge d (slices.map db.relinkWorker)).store j =
          getObj d.store j) ∧
      DBRel db (DB.relinkMerge d (slices.map db.relinkWorker)) := by
  intro slices
  induction slices with
  | nil =>
    intro d hRel _ _ _
    exact ⟨fun sl h => absurd h (List.not_mem_nil sl),
      fun j _ => rfl, hRel⟩
  | cons sl rest ih =>
    intro d hRel hnd huntouched hempty
    rw [List.flatten_cons, List.map_append, List.flatten_append,
      List.nodup_append] at hnd
    obtain ⟨hnd1, hnd2, hdisj⟩ := hnd
    obtain ⟨w1, w2, w3, w4⟩ := relinkWorkerFrom_lookup db sl ([], [])
      hnd1 (fun pkg _ id _ => ⟨rfl, rfl⟩) List.nodup_nil List.nodup_nil
    rw [← relinkWorker_eq_from db sl] at w1 w2 w3 w4
    have hstep : DB.relinkMerge d ((sl :: rest).map db.relinkWorker) =
        DB.relinkMerge ((db.relinkWorker sl).2.foldl
          (fun dd p => { dd with store := setMissing dd.store p.1 p.2 })
          ((db.relinkWorker sl).1.foldl
            (fun dd p => { dd with store := setFound dd.store p.1 p.2 })
            d)) (rest.map db.relinkWorker) := rfl
    set d1 := (db.relinkWorker sl).2.foldl
      (fun dd p => { dd with store := setMissing dd.store p.1 p.2 })
      ((db.relinkWorker sl).1.foldl
        (fun dd p => { dd with store := setFound dd.store p.1 p.2 })
        d) with hd1
    have hRel1 : DBRel db d1 :=
      applyM_DBRel (db.relinkWorker sl).2 _ w4
        (applyF_DBRel (db.relinkWorker sl).1 d w3 hRel)
    have hlinked1 : ∀ pkg ∈ sl, ∀ id ∈ pkg.objects,
        getObj d1.store id =
          (getObj db.store id).map (freshApply db pkg.name) := by
      intro pkg hpkg id hid
      obtain ⟨e1, e2⟩ := w1 pkg hpkg id hid
      rw [hd1]
      exact tuple_fresh_at db pkg.name id (db.relinkWorker sl).1
        (db.relinkWorker sl).2 d w3 w4 e1 e2
        (huntouched sl (List.mem_cons_self sl rest) pkg hpkg id hid)
        (hempty sl (List.mem_cons_self sl rest) pkg hpkg id hid).1
        (hempty sl (List.mem_cons_self sl rest) pkg hpkg id hid).2
    have huntop1 : ∀ j, (∀ pkg ∈ sl, j ∉ pkg.objects) →
        getObj d1.store j = getObj d.store j := by
      intro j hj
      obtain ⟨e1, e2⟩ := w2 j hj
      rw [hd1, applyM_getObj _ _ w4 j, e2, applyF_getObj _ d w3 j, e1]
      rfl
    have huntouched1 : ∀ sl2 ∈ rest, ∀ pkg ∈ sl2, ∀ id ∈ pkg.objects,
        getObj d1.store id = getObj db.store id := by
      intro sl2 hsl2 pkg hpkg id hid
      have hflat : id ∈ ((rest.flatten).map Package.objects).flatten :=
        List.mem_flatten.mpr ⟨pkg.objects,
          List.mem_map.mpr ⟨pkg, List.mem_flatten.mpr ⟨sl2, hsl2, hpkg⟩, rfl⟩,
          hid⟩
      have hnotin : ∀ pkg2 ∈ sl, id ∉ pkg2.objects := by
        intro pkg2 hp2 hin
        exact hdisj (List.mem_flatten.mpr
          ⟨pkg2.objects, List.mem_map.mpr ⟨pkg2, hp2, rfl⟩, hin⟩) hflat
      rw [huntop1 id hnotin]
      exact huntouched sl2 (List.mem_cons_of_mem sl hsl2) pkg hpkg id hid
    have hempty1 : ∀ sl2 ∈ rest, ∀ pkg ∈ sl2, ∀ id ∈ pkg.objects,
        foundOf db.store id = [] ∧ missingOf db.store id = [] :=
      fun sl2 hsl2 pkg hpkg id hid =>
        hempty sl2 (List.mem_cons_of_mem sl hsl2) pkg hpkg id hid
    obtain ⟨ih1, ih2, ih3⟩ := ih d1 hRel1 hnd2 huntouched1 hempty1
    rw [hstep]
    refine ⟨?_, ?_, ih3⟩
    · intro sl2 hsl2 pkg hpkg id hid
      rcases List.mem_cons.mp hsl2 with rfl | hmem
      · have hnot2 : ∀ sl3 ∈ rest, ∀ pkg3 ∈ sl3, id ∉ pkg3.objects := by
          intro sl3 hsl3 pkg3 hp3 hin
          exact hdisj (List.mem_flatten.mpr
              ⟨pkg.objects, List.mem_map.mpr ⟨pkg, hpkg, rfl⟩, hid⟩)
            (List.mem_flatten.mpr ⟨pkg3.objects,
              List.mem_map.mpr
                ⟨pkg3, List.mem_flatten.mpr ⟨sl3, hsl3, hp3⟩, rfl⟩, hin⟩)
        rw [ih2 id hnot2]
        exact hlinked1 pkg hpkg id hid
      · exact ih1 sl2 hmem pkg hpkg id hid
    · intro j hj
      rw [ih2 j
        (fun sl2 h2 pkg hp => hj sl2 (List.mem_cons_of_mem sl h2) pkg hp)]
      exact huntop1 j (fun pkg hp => hj sl (List.mem_cons_self sl rest) pkg hp)

/-- C2 (amended): from a state whose resolution sets are all empty (the
state in which a relink is run; on stale states the serial path accumulates
into the existing sets while the threaded path replaces only non-empty
results, so the original claim fails), both the serial `relink_all` and the
threaded `relink_all_threaded` — for any partition of the package list into
worker slices — produce, at every arena entry, exactly the fresh
`link_object(o, o.owner)` sets described by `linkFreshSpec`; in particular
the two paths agree everywhere. -/
theorem relink_all_fresh (db : DB) (slices : List (List Package))
    (hnd : ((db.packages.map Package.objects).flatten).Nodup)
    (hAE : ∀ pkg ∈ db.packages, ∀ id ∈ pkg.objects,
      foundOf db.store id = [] ∧ missingOf db.store id = [])
    (hsl : slices.flatten = db.packages) :
    ∀ j, getObj (db.relink_all).store j = getObj (linkFreshSpec db).store j ∧
      getObj (db.relink_all_threaded slices).store j =
        getObj (linkFreshSpec db).store j := by
  obtain ⟨s1, s2, s3⟩ := relink_serial_fold db db.packages db (DBRel.rfl' db)
    hnd (fun pkg _ id _ => rfl) hAE
  have hndsl : (((slices.flatten).map Package.objects).flatten).Nodup := by
    rw [hsl]; exact hnd
  obtain ⟨t1, t2, t3⟩ := relink_threaded_fold db slices db (DBRel.rfl' db)
    hndsl (fun sl hs pkg hp id hi => rfl)
    (fun sl hs pkg hp id hi =>
      hAE pkg (by rw [← hsl]; exact List.mem_flatten.mpr ⟨sl, hs, hp⟩) id hi)
  intro j
  by_cases hj : j ∈ (db.packages.map Package.objects).flatten
  · obtain ⟨l, hl, hjl⟩ := List.mem_flatten.mp hj
    obtain ⟨pkg, hpkg, rfl⟩ := List.mem_map.mp hl
    have hfind := find?_owner db.packages pkg j hnd hpkg hjl
    have hspec := linkFreshSpec_getObj db j
    rw [hfind] at hspec
    have hsl2 : ∃ sl ∈ slices, pkg ∈ sl := by
      have hmem : pkg ∈ slices.flatten := by rw [hsl]; exact hpkg
      obtain ⟨sl, hs, hp⟩ := List.mem_flatten.mp hmem
      exact ⟨sl, hs, hp⟩
    obtain ⟨sl, hs, hp⟩ := hsl2
    constructor
    · rw [hspec]
      exact s1 pkg hpkg j hjl
    · rw [hspec]
      exact t1 sl hs pkg hp j hjl
  · have hspec := linkFreshSpec_getObj db j
    have hfind : db.packages.find? (fun p => p.objects.contains j) = none := by
      rw [List.find?_eq_none]
      intro p hp hcon
      apply hj
      exact List.mem_flatten.mpr ⟨p.objects, List.mem_map.mpr ⟨p, hp, rfl⟩,
        List.elem_iff.mp hcon⟩
    rw [hfind] at hspec
    constructor
    · rw [hspec]
      exact s2 j hj
    · rw [hspec]
      refine t2 j ?_
      intro sl hs pkg hp hjin
      apply hj
      refine List.mem_flatten.mpr
        ⟨pkg.objects, List.mem_map.mpr ⟨pkg, ?_, rfl⟩, hjin⟩
      rw [← hsl]
      exact List.mem_flatten.mpr ⟨sl, hs, hp⟩

/-- C2 witness: on the concrete freshly-loaded state `dbC2f` (one package,
one object with an unresolvable need), the hypotheses hold and both relink
paths agree with the fresh computation at the object. -/
theorem relink_all_fresh_witness :
    ((dbC2f.packages.map Package.objects).flatten).Nodup ∧
    ((([[mkPkg "P" [1]]] : List (List Package)).flatten) = dbC2f.packages) ∧
    getObj (dbC2f.relink_all).store 1 = getObj (linkFreshSpec dbC2f).store 1 ∧
    getObj (dbC2f.relink_all_threaded [[mkPkg "P" [1]]]).store 1 =
      getObj (linkFreshSpec dbC2f).store 1 := by
  refine ⟨by decide, rfl, ?_, ?_⟩
  · exact (relink_all_fresh dbC2f [[mkPkg "P" [1]]] (by decide)
      (by decide) rfl 1).1
  · exact (relink_all_fresh dbC2f [[mkPkg "P" [1]]] (by decide)
      (by decide) rfl 1).2

theorem mem_sinsert (l : List String) (x a : String) :
    a ∈ sinsert l x ↔ a = x ∨ a ∈ l := by
  induction l with
  | nil => simp [sinsert]
  | cons y ys ih =>
    by_cases h1 : strLtB x y
    · simp [sinsert, h1]
    · by_cases h2 : x = y
      · subst h2
        simp only [sinsert, if_neg h1, if_pos rfl]
        constructor
        · exact Or.inr
        · rintro (rfl | h) <;> [exact List.mem_cons_self _ _; exact h]
      · simp only [sinsert, if_neg h1, if_neg h2, List.mem_cons, ih]
        tauto

theorem filterMap_nodup_iff {α β : Type} (F : α → Option β) :
    ∀ l : List α, l.Nodup →
      ((l.filterMap F).Nodup ↔
        (∀ a ∈ l, ∀ b ∈ l, ∀ c, F a = some c → F b = some c → a = b)) := by
  intro l
  induction l with
  | nil => intro _; simp
  | cons x xs ih =>
    intro hnd
    rw [List.nodup_cons] at hnd
    obtain ⟨hx, hnd⟩ := hnd
    rw [List.filterMap_cons]
    cases hFx : F x with
    | none =>
      rw [ih hnd]
      constructor
      · intro h a ha b hb c hFa hFb
        rcases List.mem_cons.mp ha with rfl | ha2
        · rw [hFx] at hFa; cases hFa
        · rcases List.mem_cons.mp hb with rfl | hb2
          · rw [hFx] at hFb; cases hFb
          · exact h a ha2 b hb2 c hFa hFb
      · intro h a ha b hb c hFa hFb
        exact h a (List.mem_cons_of_mem x ha) b (List.mem_cons_of_mem x hb)
          c hFa hFb
    | some cx =>
      rw [List.nodup_cons, ih hnd]
      constructor
      · intro h a ha b hb c hFa hFb
        rcases List.mem_cons.mp ha with rfl | ha2
        · rcases List.mem_cons.mp hb with rfl | hb2
          · rfl
          · rw [hFx] at hFa
            cases hFa
            exact absurd (List.mem_filterMap.mpr ⟨b, hb2, hFb⟩) h.1
        · rcases List.mem_cons.mp hb with rfl | hb2
          · rw [hFx] at hFb
            cases hFb
            exact absurd (List.mem_filterMap.mpr ⟨a, ha2, hFa⟩) h.1
          · exact h.2 a ha2 b hb2 c hFa hFb
      · intro h
        refine ⟨fun hmem => ?_, fun a ha b hb c hFa hFb =>
          h a (List.mem_cons_of_mem x ha) b (List.mem_cons_of_mem x hb)
            c hFa hFb⟩
        obtain ⟨a, ha, hFa⟩ := List.mem_filterMap.mp hmem
        have : x = a := h x (List.mem_cons_self x xs)
          a (List.mem_cons_of_mem x ha) cx hFx hFa
        exact hx (this ▸ ha)

theorem storeStaticEq_symm {st st' : Store} (h : storeStaticEq st st') :
    storeStaticEq st' st := fun i => (h i).symm

theorem basename_staticEq {st st' : Store} (h : storeStaticEq st st')
    (f : Nat) :
    (getObj st f).map Elf.basename = (getObj st' f).map Elf.basename := by
  have hf := h f
  cases hg : getObj st f with
  | none =>
    rw [hg] at hf
    cases hg' : getObj st' f with
    | none => rfl
    | some o' => rw [hg'] at hf; simp at hf
  | some o =>
    rw [hg] at hf
    cases hg' : getObj st' f with
    | none => rw [hg'] at hf; simp at hf
    | some o' =>
      rw [hg'] at hf
      simp only [Option.map_some'] at hf ⊢
      obtain ⟨-, hb, -⟩ := static_fields (Option.some.inj hf)
      rw [hb]

theorem namesOf_staticEq {st st' : Store} (h : storeStaticEq st st')
    (l : List Nat) : namesOf st l = namesOf st' l := by
  rw [namesOf, namesOf]
  induction l with
  | nil => rfl
  | cons f fs ih =>
    rw [List.filterMap_cons, List.filterMap_cons, basename_staticEq h f, ih]

theorem SeekerInv_static {st st' : Store} (h : storeStaticEq st st')
    {A : List String} {t : Elf} (hinv : SeekerInv st A t) :
    SeekerInv st' A t := by
  obtain ⟨h1, h2, h3, h4, h5, h6⟩ := hinv
  rw [SeekerInv, ← namesOf_staticEq h t.req_found]
  refine ⟨h1, h2, h3, h4, h5, fun f1 hf1 f2 hf2 n ha hb => ?_⟩
  rw [← basename_staticEq h f1] at ha
  rw [← basename_staticEq h f2] at hb
  exact h6 f1 hf1 f2 hf2 n ha hb

theorem DBRel.trans {a b c : DB} (h1 : DBRel a b) (h2 : DBRel b c) :
    DBRel a c :=
  ⟨h2.pk.trans h1.pk, h2.obj.trans h1.obj, h2.lib.trans h1.lib,
   h2.plp.trans h1.plp, h2.ign.trans h1.ign, h2.ass.trans h1.ass,
   h2.strict.trans h1.strict, fun i => (h2.sst i).trans (h1.sst i)⟩

theorem partitionInv_of_seekerInv (d : DB) (id : Nat) (t : Elf)
    (hg : getObj d.store id = some t)
    (h : SeekerInv d.store d.assume_found_rules t) : PartitionInv d id := by
  obtain ⟨h1, h2, h3, h4, h5, h6⟩ := h
  have hfo : foundOf d.store id = t.req_found := by
    rw [foundOf, hg]; rfl
  have hmo : missingOf d.store id = t.req_missing := by
    rw [missingOf, hg]; rfl
  have hne : neededOf d.store id = t.needed := by
    rw [neededOf, hg]; rfl
  rw [PartitionInv, hfo, hmo, hne]
  refine ⟨h1, h2, h3, h4, ?_⟩
  exact (filterMap_nodup_iff _ t.req_found h5.nodup).mpr h6

theorem seekerInv_of_partitionInv (d : DB) (id : Nat) (t : Elf)
    (hg : getObj d.store id = some t)
    (hsorted : t.req_found.Sorted (· < ·))
    (h : PartitionInv d id) : SeekerInv d.store d.assume_found_rules t := by
  have hfo : foundOf d.store id = t.req_found := by
    rw [foundOf, hg]; rfl
  have hmo : missingOf d.store id = t.req_missing := by
    rw [missingOf, hg]; rfl
  have hne : neededOf d.store id = t.needed := by
    rw [neededOf, hg]; rfl
  rw [PartitionInv, hfo, hmo, hne] at h
  obtain ⟨h1, h2, h3, h4, h5⟩ := h
  exact ⟨h1, h2, h3, h4, hsorted,
    (filterMap_nodup_iff _ t.req_found hsorted.nodup).mp h5⟩

theorem linkFold_spec (db : DB) (o : Elf) (own : String) :
    ∀ (needs : List String) (F : List Nat) (M : List String),
      (∀ f, f ∈ (linkFold db o own needs (F, M)).1 ↔
        (f ∈ F ∨ ∃ n ∈ needs,
          db.find_for o n (db.get_pkg_libpath own) = some f)) ∧
      (∀ m, m ∈ (linkFold db o own needs (F, M)).2 ↔
        (m ∈ M ∨ (m ∈ needs ∧
          db.find_for o m (db.get_pkg_libpath own) = none ∧
          db.assume_found_rules.contains m = false))) ∧
      (F.Sorted (· < ·) → (linkFold db o own needs (F, M)).1.Sorted (· < ·)) := by
  intro needs
  induction needs with
  | nil =>
    intro F M
    refine ⟨fun f => ?_, fun m => ?_, fun h => h⟩
    · simp [linkFold]
    · simp [linkFold]
  | cons n ns ih =>
    intro F M
    have hstep : ∀ acc : List Nat × List String,
        linkFold db o own (n :: ns) acc =
        linkFold db o own ns
          (match db.find_for o n (db.get_pkg_libpath own) with
           | some found => (oinsert acc.1 found, acc.2)
           | none =>
             if db.assume_found_rules.contains n then acc
             else (acc.1, sinsert acc.2 n)) := fun acc => rfl
    cases hfind : db.find_for o n (db.get_pkg_libpath own) with
    | some f0 =>
      simp only [hstep (F, M), hfind]
      obtain ⟨ih1, ih2, ih3⟩ := ih (oinsert F f0) M
      refine ⟨fun f => ?_, fun m => ?_,
        fun hs => ih3 (sorted_oinsert F f0 hs)⟩
      · rw [ih1 f, mem_oinsert]
        constructor
        · rintro ((rfl | hF) | ⟨n', hn', hf'⟩)
          · exact Or.inr ⟨n, List.mem_cons_self n ns, hfind⟩
          · exact Or.inl hF
          · exact Or.inr ⟨n', List.mem_cons_of_mem n hn', hf'⟩
        · rintro (hF | ⟨n', hn', hf'⟩)
          · exact Or.inl (Or.inr hF)
          · rcases List.mem_cons.mp hn' with rfl | hn2
            · exact Or.inl (Or.inl (Option.some.inj (hf'.symm.trans hfind)))
            · exact Or.inr ⟨n', hn2, hf'⟩
      · rw [ih2 m]
        constructor
        · rintro (hM | ⟨hmem, hnone, hass⟩)
          · exact Or.inl hM
          · exact Or.inr ⟨List.mem_cons_of_mem n hmem, hnone, hass⟩
        · rintro (hM | ⟨hmem, hnone, hass⟩)
          · exact Or.inl hM
          · rcases List.mem_cons.mp hmem with rfl | h2
            · rw [hfind] at hnone; cases hnone
            · exact Or.inr ⟨h2, hnone, hass⟩
    | none =>
      by_cases hass : db.assume_found_rules.contains n
      · simp only [hstep (F, M), hfind, if_pos hass]
        obtain ⟨ih1, ih2, ih3⟩ := ih F M
        refine ⟨fun f => ?_, fun m => ?_, ih3⟩
        · rw [ih1 f]
          constructor
          · rintro (hF | ⟨n', hn', hf'⟩)
            · exact Or.inl hF
            · exact Or.inr ⟨n', List.mem_cons_of_mem n hn', hf'⟩
          · rintro (hF | ⟨n', hn', hf'⟩)
            · exact Or.inl hF
            · rcases List.mem_cons.mp hn' with rfl | h2
              · rw [hfind] at hf'; cases hf'
              · exact Or.inr ⟨n', h2, hf'⟩
        · rw [ih2 m]
          constructor
          · rintro (hM | ⟨hmem, hnone, hass2⟩)
            · exact Or.inl hM
            · exact Or.inr ⟨List.mem_cons_of_mem n hmem, hnone, hass2⟩
          · rintro (hM | ⟨hmem, hnone, hass2⟩)
            · exact Or.inl hM
            · rcases List.mem_cons.mp hmem with rfl | h2
              · rw [hass2] at hass; cases hass
              · exact Or.inr ⟨h2, hnone, hass2⟩
      · simp only [hstep (F, M), hfind, if_neg hass]
        obtain ⟨ih1, ih2, ih3⟩ := ih F (sinsert M n)
        refine ⟨fun f => ?_, fun m => ?_, ih3⟩
        · rw [ih1 f]
          constructor
          · rintro (hF | ⟨n', hn', hf'⟩)
            · exact Or.inl hF
            · exact Or.inr ⟨n', List.mem_cons_of_mem n hn', hf'⟩
          · rintro (hF | ⟨n', hn', hf'⟩)
            · exact Or.inl hF
            · rcases List.mem_cons.mp hn' with rfl | h2
              · rw [hfind] at hf'; cases hf'
              · exact Or.inr ⟨n', h2, hf'⟩
        · rw [ih2 m, mem_sinsert]
          constructor
          · rintro ((rfl | hM) | ⟨hmem, hnone, hass2⟩)
            · exact Or.inr ⟨List.mem_cons_self m ns, hfind,
                Bool.of_not_eq_true hass⟩
            · exact Or.inl hM
            · exact Or.inr ⟨List.mem_cons_of_mem n hmem, hnone, hass2⟩
          · rintro (hM | ⟨hmem, hnone, hass2⟩)
            · exact Or.inl (Or.inr hM)
            · rcases List.mem_cons.mp hmem with rfl | h2
              · exact Or.inl (Or.inl rfl)
              · exact Or.inr ⟨h2, hnone, hass2⟩

theorem link_object_empty_eq (db : DB) (o : Elf) (own : String)
    (hig : db.ignore_file_rules = []) :
    db.link_object o own [] [] = linkFold db o own o.needed ([], []) := by
  rw [DB.link_object, hig]
  rfl

theorem seekerInv_of_fresh (db : DB) (own : String) (o : Elf)
    (hig : db.ignore_file_rules = []) :
    SeekerInv db.store db.assume_found_rules (freshApply db own o) := by
  obtain ⟨hmemF, hmemM, hsort⟩ := linkFold_spec db o own o.needed [] []
  have heq := link_object_empty_eq db o own hig
  have hf : (freshApply db own o).req_found =
      (linkFold db o own o.needed ([], [])).1 := by
    show (db.link_object o own [] []).1 = _
    rw [heq]
  have hm : (freshApply db own o).req_missing =
      (linkFold db o own o.needed ([], [])).2 := by
    show (db.link_object o own [] []).2 = _
    rw [heq]
  have hneed : (freshApply db own o).needed = o.needed := rfl
  have hpredOf : ∀ n f, db.find_for o n (db.get_pkg_libpath own) = some f →
      (getObj db.store f).map Elf.basename = some n := by
    intro n f hfind
    have hq : (match getObj db.store f with
        | some lib => o.can_use lib db.strict_linking && lib.basename == n &&
            db.elf_finds o lib.dirname (db.get_pkg_libpath own)
        | none => false) = true := by
      rw [DB.find_for] at hfind
      have hq' := List.find?_some hfind
      exact hq'
    obtain ⟨lib, hgl, -, hbl, -⟩ :=
      (find_for_pred db o n (db.get_pkg_libpath own) f).mp hq
    rw [hgl, Option.map_some', hbl]
  have hname : ∀ f ∈ (linkFold db o own o.needed ([], [])).1,
      ∃ n ∈ o.needed, db.find_for o n (db.get_pkg_libpath own) = some f ∧
        (getObj db.store f).map Elf.basename = some n := by
    intro f hf2
    obtain ⟨n, hn, hfind⟩ := ((hmemF f).mp hf2).resolve_left (by simp)
    exact ⟨n, hn, hfind, hpredOf n f hfind⟩
  have hmemN : ∀ nn l, nn ∈ namesOf db.store l ↔
      ∃ f ∈ l, (getObj db.store f).map Elf.basename = some nn := by
    intro nn l
    simp [namesOf, List.mem_filterMap]
  rw [SeekerInv, hf, hm, hneed]
  refine ⟨?_, ?_, ?_, ?_, ?_, ?_⟩
  · intro nn hmem
    obtain ⟨f, hfmem, hbase⟩ := (hmemN nn _).mp hmem
    obtain ⟨n, hn, -, hb2⟩ := hname f hfmem
    have : nn = n := Option.some.inj (hbase.symm.trans hb2)
    exact this ▸ hn
  · intro m hmem
    obtain ⟨hmem2, -, -⟩ := ((hmemM m).mp hmem).resolve_left (by simp)
    exact hmem2
  · intro n hn
    cases hfi : db.find_for o n (db.get_pkg_libpath own) with
    | some f =>
      refine Or.inl ((hmemN n _).mpr ⟨f, ?_, hpredOf n f hfi⟩)
      exact (hmemF f).mpr (Or.inr ⟨n, hn, hfi⟩)
    | none =>
      by_cases hass : db.assume_found_rules.contains n
      · exact Or.inr (Or.inr (List.elem_iff.mp hass))
      · exact Or.inr (Or.inl ((hmemM n).mpr
          (Or.inr ⟨hn, hfi, Bool.of_not_eq_true hass⟩)))
  · intro nn hmem hmiss
    obtain ⟨f, hfmem, hbase⟩ := (hmemN nn _).mp hmem
    obtain ⟨n, -, hfind, hb2⟩ := hname f hfmem
    have hnn : nn = n := Option.some.inj (hbase.symm.trans hb2)
    obtain ⟨-, hnone, -⟩ := ((hmemM nn).mp hmiss).resolve_left (by simp)
    rw [hnn, hfind] at hnone
    cases hnone
  · exact hsort List.sorted_nil
  · intro f1 hf1 f2 hf2 nn hb1 hb2
    obtain ⟨n1, -, hfind1, hbn1⟩ := hname f1 hf1
    obtain ⟨n2, -, hfind2, hbn2⟩ := hname f2 hf2
    have e1 : nn = n1 := Option.some.inj (hb1.symm.trans hbn1)
    have e2 : nn = n2 := Option.some.inj (hb2.symm.trans hbn2)
    rw [← e1] at hfind1
    rw [← e2] at hfind2
    exact Option.some.inj (hfind1.symm.trans hfind2)

theorem reresolveStep_eq (d : DB) (t : Elf) (oid : Nat) :
    d.reresolveStep t oid =
      match getObj d.store oid with
      | none => t
      | some elf =>
        if t.req_found.contains oid then
          match d.find_for t elf.basename (d.get_obj_libpath t) with
          | some other =>
            { t with req_found := oinsert (t.req_found.erase oid) other }
          | none =>
            { t with req_found := t.req_found.erase oid,
                     req_missing := sinsert t.req_missing elf.basename }
        else t := rfl

theorem reverseFixStep_eq (d : DB) (lp : Option (List String)) (t : Elf)
    (oid : Nat) :
    d.reverseFixStep lp t oid =
      match getObj d.store oid with
      | none => t
      | some obj =>
        if t.can_use obj d.strict_linking &&
            d.elf_finds t obj.dirname lp then
          if t.req_missing.contains obj.basename then
            { t with req_missing := t.req_missing.erase obj.basename,
                     req_found := oinsert t.req_found oid }
          else t
        else t := rfl

theorem reresolveStep_static (d : DB) (t : Elf) (oid : Nat) :
    Elf.static (d.reresolveStep t oid) = Elf.static t := by
  rw [reresolveStep_eq]
  cases getObj d.store oid with
  | none => rfl
  | some elf =>
    dsimp only
    by_cases h1 : t.req_found.contains oid
    · rw [if_pos h1]
      cases d.find_for t elf.basename (d.get_obj_libpath t) with
      | some other => rfl
      | none => rfl
    · rw [if_neg h1]

theorem reresolveSeeker_static (d : DB) :
    ∀ (olds : List Nat) (t : Elf),
      Elf.static (d.reresolveSeeker olds t) = Elf.static t := by
  intro olds
  induction olds with
  | nil => intro t; rfl
  | cons oid os ih =>
    intro t
    show Elf.static (d.reresolveSeeker os (d.reresolveStep t oid)) = _
    rw [ih (d.reresolveStep t oid), reresolveStep_static]

theorem reverseFixStep_static (d : DB) (lp : Option (List String)) (t : Elf)
    (oid : Nat) :
    Elf.static (d.reverseFixStep lp t oid) = Elf.static t := by
  rw [reverseFixStep_eq]
  cases getObj d.store oid with
  | none => rfl
  | some obj =>
    dsimp only
    by_cases h1 : (t.can_use obj d.strict_linking &&
        d.elf_finds t obj.dirname lp) = true
    · rw [if_pos h1]
      by_cases h2 : t.req_missing.contains obj.basename
      · rw [if_pos h2]; rfl
      · rw [if_neg h2]
    · rw [if_neg h1]

theorem reverseFixSeeker_static (d : DB) (lp : Option (List String)) :
    ∀ (news : List Nat) (t : Elf),
      Elf.static (d.reverseFixSeeker lp news t) = Elf.static t := by
  intro news
  induction news with
  | nil => intro t; rfl
  | cons oid os ih =>
    intro t
    show Elf.static (d.reverseFixSeeker lp os (d.reverseFixStep lp t oid)) = _
    rw [ih (d.reverseFixStep lp t oid), reverseFixStep_static]

theorem reresolveStep_congr {db0 d : DB} (hRel : DBRel db0 d) (t : Elf)
    (oid : Nat) : d.reresolveStep t oid = db0.reresolveStep t oid := by
  rw [reresolveStep_eq, reresolveStep_eq]
  have hs := hRel.sst oid
  cases hg : getObj d.store oid with
  | none =>
    rw [hg] at hs
    cases hg0 : getObj db0.store oid with
    | none => rfl
    | some e0 => rw [hg0] at hs; simp at hs
  | some elf =>
    rw [hg] at hs
    cases hg0 : getObj db0.store oid with
    | none => rw [hg0] at hs; simp at hs
    | some elf0 =>
      rw [hg0] at hs
      simp only [Option.map_some'] at hs
      obtain ⟨-, hb, -⟩ := static_fields (Option.some.inj hs)
      dsimp only
      rw [hb, get_obj_libpath_congr hRel (Eq.refl (Elf.static t)),
        find_for_congr hRel (Eq.refl (Elf.static t)) elf0.basename
          (db0.get_obj_libpath t)]

theorem reresolveSeeker_congr {db0 d : DB} (hRel : DBRel db0 d)
    (olds : List Nat) (t : Elf) :
    d.reresolveSeeker olds t = db0.reresolveSeeker olds t := by
  rw [DB.reresolveSeeker, DB.reresolveSeeker]
  exact foldl_congr olds t (fun oid _ acc => reresolveStep_congr hRel acc oid)

theorem reverseFixStep_congr {db0 d : DB} (hRel : DBRel db0 d)
    (lp : Option (List String)) (t : Elf) (oid : Nat) :
    d.reverseFixStep lp t oid = db0.reverseFixStep lp t oid := by
  rw [reverseFixStep_eq, reverseFixStep_eq]
  have hs := hRel.sst oid
  cases hg : getObj d.store oid with
  | none =>
    rw [hg] at hs
    cases hg0 : getObj db0.store oid with
    | none => rfl
    | some e0 => rw [hg0] at hs; simp at hs
  | some obj =>
    rw [hg] at hs
    cases hg0 : getObj db0.store oid with
    | none => rw [hg0] at hs; simp at hs
    | some obj0 =>
      rw [hg0] at hs
      simp only [Option.map_some'] at hs
      have hstat := Option.some.inj hs
      obtain ⟨hd, hb, -⟩ := static_fields hstat
      dsimp only
      rw [hRel.strict, can_use_congr (Eq.refl (Elf.static t)) hstat, hb, hd,
        elf_finds_congr hRel.lib (Eq.refl (Elf.static t))]

theorem reverseFixSeeker_congr {db0 d : DB} (hRel : DBRel db0 d)
    (lp : Option (List String)) (news : List Nat) (t : Elf) :
    d.reverseFixSeeker lp news t = db0.reverseFixSeeker lp news t := by
  rw [DB.reverseFixSeeker, DB.reverseFixSeeker]
  exact foldl_congr news t
    (fun oid _ acc => reverseFixStep_congr hRel lp acc oid)

theorem reresolveStep_inv (d : DB) (t : Elf) (oid : Nat)
    (h : SeekerInv d.store d.assume_found_rules t) :
    SeekerInv d.store d.assume_found_rules (d.reresolveStep t oid) := by
  rw [reresolveStep_eq]
  cases hg : getObj d.store oid with
  | none => exact h
  | some elf =>
    dsimp only
    by_cases hmem : t.req_found.contains oid
    · rw [if_pos hmem]
      obtain ⟨h1, h2, h3, h4, h5, h6⟩ := h
      have hmem' : oid ∈ t.req_found := List.elem_iff.mp hmem
      have hnodup : t.req_found.Nodup := h5.nodup
      have hoidname : (getObj d.store oid).map Elf.basename =
          some elf.basename := by rw [hg]; rfl
      have hbmem : elf.basename ∈ namesOf d.store t.req_found := by
        simp only [namesOf, List.mem_filterMap]
        exact ⟨oid, hmem', hoidname⟩
      have hbneed : elf.basename ∈ t.needed := h1 _ hbmem
      have hbnotmiss : elf.basename ∉ t.req_missing := h4 _ hbmem
      have herase_sub : ∀ f ∈ t.req_found.erase oid, f ∈ t.req_found :=
        fun f hf => List.mem_of_mem_erase hf
      have herase_not : oid ∉ t.req_found.erase oid :=
        fun hf => ((List.Nodup.mem_erase_iff hnodup).mp hf).1 rfl
      have hsorted1 : (t.req_found.erase oid).Sorted (· < ·) :=
        List.Pairwise.sublist (List.erase_sublist oid t.req_found) h5
      have hmemN : ∀ nn l, nn ∈ namesOf d.store l ↔
          ∃ f ∈ l, (getObj d.store f).map Elf.basename = some nn := by
        intro nn l
        simp [namesOf, List.mem_filterMap]
      have hbnot1 : elf.basename ∉ namesOf d.store (t.req_found.erase oid) := by
        rw [hmemN]
        rintro ⟨f, hf, hbf⟩
        have : f = oid := h6 f (herase_sub f hf) oid hmem' elf.basename
          hbf hoidname
        exact herase_not (this ▸ hf)
      cases hfind : d.find_for t elf.basename (d.get_obj_libpath t) with
      | some other =>
        have hq : (match getObj d.store other with
            | some lib => t.can_use lib d.strict_linking &&
                lib.basename == elf.basename &&
                d.elf_finds t lib.dirname (d.get_obj_libpath t)
            | none => false) = true := by
          rw [DB.find_for] at hfind
          have hq' := List.find?_some hfind
          exact hq'
        obtain ⟨lib, hglib, -, hbl, -⟩ :=
          (find_for_pred d t elf.basename (d.get_obj_libpath t) other).mp hq
        have hothername : (getObj d.store other).map Elf.basename =
            some elf.basename := by rw [hglib, Option.map_some', hbl]
        refine ⟨?_, h2, ?_, ?_, sorted_oinsert _ other hsorted1, ?_⟩
        · intro nn hnn
          obtain ⟨f, hf, hbf⟩ := (hmemN nn _).mp hnn
          rcases (mem_oinsert _ other f).mp hf with rfl | hf1
          · have : nn = elf.basename :=
              Option.some.inj (hbf.symm.trans hothername)
            exact this ▸ hbneed
          · exact h1 nn ((hmemN nn _).mpr ⟨f, herase_sub f hf1, hbf⟩)
        · intro n hn
          rcases h3 n hn with hnf | hrest
          · obtain ⟨f, hf, hbf⟩ := (hmemN n _).mp hnf
            by_cases hfo : f = oid
            · subst hfo
              have : n = elf.basename :=
                Option.some.inj (hbf.symm.trans hoidname)
              refine Or.inl ((hmemN n _).mpr ⟨other,
                (mem_oinsert _ other other).mpr (Or.inl rfl), ?_⟩)
              rw [this, hothername]
            · refine Or.inl ((hmemN n _).mpr ⟨f,
                (mem_oinsert _ other f).mpr
                  (Or.inr ((List.Nodup.mem_erase_iff hnodup).mpr
                    ⟨hfo, hf⟩)), hbf⟩)
          · exact Or.inr hrest
        · intro nn hnn
          obtain ⟨f, hf, hbf⟩ := (hmemN nn _).mp hnn
          rcases (mem_oinsert _ other f).mp hf with rfl | hf1
          · have : nn = elf.basename :=
              Option.some.inj (hbf.symm.trans hothername)
            exact this ▸ hbnotmiss
          · exact h4 nn ((hmemN nn _).mpr ⟨f, herase_sub f hf1, hbf⟩)
        · intro f1 hf1 f2 hf2 nn hb1 hb2
          rcases (mem_oinsert _ other f1).mp hf1 with heq1 | hf1e
          · rcases (mem_oinsert _ other f2).mp hf2 with heq2 | hf2e
            · rw [heq1, heq2]
            · rw [heq1] at hb1
              have hn1 : nn = elf.basename :=
                Option.some.inj (hb1.symm.trans hothername)
              have hf2oid : f2 = oid := h6 f2 (herase_sub f2 hf2e) oid
                hmem' nn hb2 (by rw [hn1]; exact hoidname)
              exact absurd (hf2oid ▸ hf2e) herase_not
          · rcases (mem_oinsert _ other f2).mp hf2 with heq2 | hf2e
            · rw [heq2] at hb2
              have hn2 : nn = elf.basename :=
                Option.some.inj (hb2.symm.trans hothername)
              have hf1oid : f1 = oid := h6 f1 (herase_sub f1 hf1e) oid
                hmem' nn hb1 (by rw [hn2]; exact hoidname)
              exact absurd (hf1oid ▸ hf1e) herase_not
            · exact h6 f1 (herase_sub f1 hf1e) f2 (herase_sub f2 hf2e)
                nn hb1 hb2
      | none =>
        refine ⟨?_, ?_, ?_, ?_, hsorted1, ?_⟩
        · intro nn hnn
          obtain ⟨f, hf, hbf⟩ := (hmemN nn _).mp hnn
          exact h1 nn ((hmemN nn _).mpr ⟨f, herase_sub f hf, hbf⟩)
        · intro m hm
          rcases (mem_sinsert _ _ m).mp hm with rfl | hm2
          · exact hbneed
          · exact h2 m hm2
        · intro n hn
          rcases h3 n hn with hnf | hmiss | hass
          · obtain ⟨f, hf, hbf⟩ := (hmemN n _).mp hnf
            by_cases hfo : f = oid
            · subst hfo
              have : n = elf.basename :=
                Option.some.inj (hbf.symm.trans hoidname)
              exact Or.inr (Or.inl ((mem_sinsert _ _ n).mpr (Or.inl this)))
            · refine Or.inl ((hmemN n _).mpr ⟨f,
                (List.Nodup.mem_erase_iff hnodup).mpr ⟨hfo, hf⟩, hbf⟩)
          · exact Or.inr (Or.inl ((mem_sinsert _ _ n).mpr (Or.inr hmiss)))
          · exact Or.inr (Or.inr hass)
        · intro nn hnn
          obtain ⟨f, hf, hbf⟩ := (hmemN nn _).mp hnn
          have hnmem : nn ∈ namesOf d.store t.req_found :=
            (hmemN nn _).mpr ⟨f, herase_sub f hf, hbf⟩
          have hne : nn ≠ elf.basename := by
            intro he
            exact hbnot1 (he ▸ (hmemN nn _).mpr ⟨f, hf, hbf⟩)
          intro hin
          rcases (mem_sinsert _ _ nn).mp hin with he | hm2
          · exact hne he
          · exact h4 nn hnmem hm2
        · intro f1 hf1 f2 hf2 nn hb1 hb2
          exact h6 f1 (herase_sub f1 hf1) f2 (herase_sub f2 hf2) nn hb1 hb2
    · rw [if_neg hmem]
      exact h

theorem reresolveSeeker_inv (d : DB) :
    ∀ (olds : List Nat) (t : Elf),
      SeekerInv d.store d.assume_found_rules t →
      SeekerInv d.store d.assume_found_rules (d.reresolveSeeker olds t) := by
  intro olds
  induction olds with
  | nil => intro t h; exact h
  | cons oid os ih =>
    intro t h
    show SeekerInv _ _ (d.reresolveSeeker os (d.reresolveStep t oid))
    exact ih (d.reresolveStep t oid) (reresolveStep_inv d t oid h)

theorem reverseFixSeeker_noop (d : DB) (lp : Option (List String)) :
    ∀ (news : List Nat) (t : Elf),
      (∀ oid ∈ news, ∀ obj, getObj d.store oid = some obj →
        obj.basename ∈ t.req_missing →
        (t.can_use obj d.strict_linking &&
          d.elf_finds t obj.dirname lp) = false) →
      d.reverseFixSeeker lp news t = t := by
  intro news
  induction news with
  | nil => intro t _; rfl
  | cons oid os ih =>
    intro t hyp
    have hstep : d.reverseFixStep lp t oid = t := by
      rw [reverseFixStep_eq]
      cases hg : getObj d.store oid with
      | none => rfl
      | some obj =>
        dsimp only
        by_cases hcond : (t.can_use obj d.strict_linking &&
            d.elf_finds t obj.dirname lp) = true
        · by_cases hmiss : t.req_missing.contains obj.basename
          · have hfalse := hyp oid (List.mem_cons_self oid os) obj hg
              (List.elem_iff.mp hmiss)
            rw [hfalse] at hcond
            cases hcond
          · rw [if_pos hcond, if_neg hmiss]
        · rw [if_neg hcond]
    show d.reverseFixSeeker lp os (d.reverseFixStep lp t oid) = t
    rw [hstep]
    exact ih t (fun o ho obj hgo hm =>
      hyp o (List.mem_cons_of_mem oid ho) obj hgo hm)

theorem seekerFold_objects (G : DB → Elf → Elf) (ids : List Nat) (d : DB) :
    (seekerFold G ids d).objects = d.objects := by
  rw [seekerFold_shape]

/-- C1 (amended): the weakened partition of spec §8 I1 — found-names and
`req_missing` lie inside `needed`, each `needed` name is covered by a
found entry, a missing entry or the assume-found allowlist, found-names
avoid `req_missing`, and each needed name has at most one resolver — is
preserved by `delete_package` from any state where it holds, and is
established for every owned object by `relink_all` from a freshly loaded
state and for a new package's objects by `install_package`, all under an
empty `ignore_file_rules` list.  (The full I1 is false: a resolvable
allowlisted name lands in both `names(req_found)` and
`needed ∩ assume_found_rules`, and `delete_package`'s re-resolution puts
allowlisted names into `req_missing`.) -/
theorem partition_invariant_ops (db : DB) (name : String) (pkg : Package)
    (hWF : WF db) (hig : db.ignore_file_rules = []) :
    ((∀ id ∈ db.objects, PartitionInv db id) →
      ∀ id ∈ ((db.delete_package name).1).objects,
        PartitionInv (db.delete_package name).1 id) ∧
    (AllEmpty db →
      ∀ pkg2 ∈ db.packages, ∀ id ∈ pkg2.objects,
        PartitionInv db.relink_all id) ∧
    (FreshPkg db pkg →
      db.packages.find? (fun p => p.name == pkg.name) = none →
      ∀ id ∈ pkg.objects, PartitionInv (db.install_package pkg).1 id) := by
  obtain ⟨hw1, hw2, hw3, hw4, hw5, hw6, hw7, hw8⟩ := hWF
  refine ⟨?_, ?_, ?_⟩
  · -- delete_package preserves the weakened partition
    intro hPart
    cases hfind : db.packages.find? (fun p => p.name == name) with
    | none =>
      have hdel : db.delete_package name = (db, true) := by
        rw [DB.delete_package.eq_def, hfind]
      rw [hdel]
      intro id hid
      exact hPart id hid
    | some old =>
      have hdel : db.delete_package name = (deleteCore db name old, true) := by
        rw [DB.delete_package.eq_def, hfind]
      rw [hdel]
      intro id hid
      have hid3 : id ∈ (deleteDb3 db name old).objects :=
        (List.mem_filter.mp hid).1
      have hobj3 : (deleteDb3 db name old).objects =
          (deleteDb2 db name old).objects := by
        rw [deleteDb3, seekerFold_objects]
      rw [hobj3] at hid3
      have hobjB : (deleteDb2 db name old).objects =
          db.objects.filter (fun i => !old.objects.contains i) := rfl
      have hiddb : id ∈ db.objects := by
        rw [hobjB] at hid3
        exact (List.mem_filter.mp hid3).1
      have hndB : (deleteDb2 db name old).objects.Nodup := by
        rw [hobjB]
        exact hw2.filter _
      have hcong : ∀ d s, DBRel (deleteDb2 db name old) d →
          d.reresolveSeeker old.objects s =
            (deleteDb2 db name old).reresolveSeeker old.objects s :=
        fun d s h => reresolveSeeker_congr h old.objects s
      have hstat : ∀ (d : DB) (s : Elf),
          Elf.static (d.reresolveSeeker old.objects s) = Elf.static s :=
        fun d s => reresolveSeeker_static d old.objects s
      have hget := seekerFold_getObj
        (fun d s => d.reresolveSeeker old.objects s) (deleteDb2 db name old)
        hcong hstat (deleteDb2 db name old).objects (deleteDb2 db name old)
        hndB (DBRel.rfl' _)
      have hRel3 : DBRel (deleteDb2 db name old) (deleteDb3 db name old) :=
        seekerFold_DBRel
          (fun d s => d.reresolveSeeker old.objects s) (deleteDb2 db name old)
          hcong hstat (deleteDb2 db name old).objects (deleteDb2 db name old)
          hndB (DBRel.rfl' _)
      obtain ⟨s, hg⟩ := Option.isSome_iff_exists.mp (hw5 id hiddb)
      have hsorted : s.req_found.Sorted (· < ·) := by
        have hh := (hw8 id hiddb).1
        rw [foundOf, hg] at hh
        simpa using hh
      have hseek0 : SeekerInv db.store db.assume_found_rules s :=
        seekerInv_of_partitionInv db id s hg hsorted (hPart id hiddb)
      have hseek0B : SeekerInv (deleteDb2 db name old).store
          (deleteDb2 db name old).assume_found_rules s := hseek0
      have hseekT := reresolveSeeker_inv (deleteDb2 db name old)
        old.objects s hseek0B
      have hgB : getObj (deleteDb2 db name old).store id = some s := hg
      have hval : getObj (deleteDb3 db name old).store id =
          some ((deleteDb2 db name old).reresolveSeeker old.objects s) := by
        rw [deleteDb3, hget id, if_pos hid3, hgB, Option.map_some']
      refine partitionInv_of_seekerInv (deleteCore db name old) id
        ((deleteDb2 db name old).reresolveSeeker old.objects s) hval ?_
      have hsst : storeStaticEq (deleteDb2 db name old).store
          (deleteDb3 db name old).store := storeStaticEq_symm hRel3.sst
      have hass : (deleteDb3 db name old).assume_found_rules =
          (deleteDb2 db name old).assume_found_rules := hRel3.ass
      show SeekerInv (deleteDb3 db name old).store
        (deleteDb3 db name old).assume_found_rules _
      rw [hass]
      exact SeekerInv_static hsst hseekT
  · -- relink_all establishes the weakened partition from a fresh state
    intro hAE pkg2 hpkg2 id hid
    have hnd : ((db.packages.map Package.objects).flatten).Nodup := by
      rw [← hw1]; exact hw2
    have hiddb : id ∈ db.objects := by
      rw [hw1]
      exact List.mem_flatten.mpr ⟨pkg2.objects,
        List.mem_map.mpr ⟨pkg2, hpkg2, rfl⟩, hid⟩
    obtain ⟨s1, s2, s3⟩ := relink_serial_fold db db.packages db
      (DBRel.rfl' db) hnd (fun p _ i _ => rfl)
      (fun p hp i hi => hAE i (by
        rw [hw1]
        exact List.mem_flatten.mpr ⟨p.objects,
          List.mem_map.mpr ⟨p, hp, rfl⟩, hi⟩))
    have hval := s1 pkg2 hpkg2 id hid
    obtain ⟨s, hg⟩ := Option.isSome_iff_exists.mp (hw5 id hiddb)
    rw [hg, Option.map_some'] at hval
    have hRelR : DBRel db db.relink_all := s3
    refine partitionInv_of_seekerInv db.relink_all id
      (freshApply db pkg2.name s) hval ?_
    have hfresh := seekerInv_of_fresh db pkg2.name s hig
    have hass : (db.relink_all).assume_found_rules =
        db.assume_found_rules := hRelR.ass
    show SeekerInv (db.relink_all).store
      (db.relink_all).assume_found_rules _
    rw [hass]
    exact SeekerInv_static (storeStaticEq_symm hRelR.sst) hfresh
  · -- install_package links a fresh package's objects into the partition
    intro hFresh hname id hid
    obtain ⟨hfnd, hfnotin, hfobj⟩ := hFresh
    have hdel0 : db.delete_package pkg.name = (db, true) := by
      rw [DB.delete_package.eq_def, hname]
    have hinst : db.install_package pkg = (installDb4 db pkg, true) := by
      rw [DB.install_package.eq_def, hdel0]
      rfl
    rw [hinst]
    obtain ⟨o, hg, hfields⟩ := Option.map_eq_some'.mp (hfobj id hid)
    have hrf : o.req_found = [] := congrArg (fun t => t.2.1) hfields
    have hrm : o.req_missing = [] := congrArg (fun t => t.2.2) hfields
    have hg2 : getObj (installDb2 db pkg).store id = some o := hg
    have hcong3 : ∀ d s, DBRel (installDb2 db pkg) d →
        linkApply d pkg.name s = linkApply (installDb2 db pkg) pkg.name s :=
      fun d s h => linkApply_congr h pkg.name s
    have hstat3 : ∀ (d : DB) (s : Elf),
        Elf.static (linkApply d pkg.name s) = Elf.static s :=
      fun d s => linkApply_static d pkg.name s
    have hget3 := seekerFold_getObj (fun d s => linkApply d pkg.name s)
      (installDb2 db pkg) hcong3 hstat3 pkg.objects (installDb2 db pkg)
      hfnd (DBRel.rfl' _)
    have hRel23 : DBRel (installDb2 db pkg) (installDb3 db pkg) :=
      seekerFold_DBRel (fun d s => linkApply d pkg.name s)
        (installDb2 db pkg) hcong3 hstat3 pkg.objects (installDb2 db pkg)
        hfnd (DBRel.rfl' _)
    have hval3 : getObj (installDb3 db pkg).store id =
        some (freshApply (installDb2 db pkg) pkg.name o) := by
      rw [installDb3, hget3 id, if_pos hid, hg2, Option.map_some']
      exact congrArg some (linkApply_fresh _ pkg.name hrf hrm)
    have hobj3 : (installDb3 db pkg).objects = db.objects ++ pkg.objects := by
      rw [installDb3, seekerFold_objects]
      rfl
    have hnd4 : (installDb3 db pkg).objects.Nodup := by
      rw [hobj3]
      exact List.nodup_append.mpr
        ⟨hw2, hfnd, fun a ha hain => hfnotin a hain ha⟩
    have hcong4 : ∀ d s, DBRel (installDb3 db pkg) d →
        d.reverseFixSeeker (db.get_pkg_libpath pkg.name) pkg.objects s =
          (installDb3 db pkg).reverseFixSeeker (db.get_pkg_libpath pkg.name)
            pkg.objects s :=
      fun d s h => reverseFixSeeker_congr h _ pkg.objects s
    have hstat4 : ∀ (d : DB) (s : Elf),
        Elf.static (d.reverseFixSeeker (db.get_pkg_libpath pkg.name)
          pkg.objects s) = Elf.static s :=
      fun d s => reverseFixSeeker_static d _ pkg.objects s
    have hget4 := seekerFold_getObj
      (fun d s => d.reverseFixSeeker (db.get_pkg_libpath pkg.name)
        pkg.objects s)
      (installDb3 db pkg) hcong4 hstat4 (installDb3 db pkg).objects
      (installDb3 db pkg) hnd4 (DBRel.rfl' _)
    have hRel34 : DBRel (installDb3 db pkg) (installDb4 db pkg) :=
      seekerFold_DBRel
        (fun d s => d.reverseFixSeeker (db.get_pkg_libpath pkg.name)
          pkg.objects s)
        (installDb3 db pkg) hcong4 hstat4 (installDb3 db pkg).objects
        (installDb3 db pkg) hnd4 (DBRel.rfl' _)
    have hid4 : id ∈ (installDb3 db pkg).objects := by
      rw [hobj3]
      exact List.mem_append.mpr (Or.inr hid)
    have hnoop : (installDb3 db pkg).reverseFixSeeker
        (db.get_pkg_libpath pkg.name) pkg.objects
        (freshApply (installDb2 db pkg) pkg.name o) =
        freshApply (installDb2 db pkg) pkg.name o := by
      apply reverseFixSeeker_noop
      intro oid hoid obj hgobj hbmem
      obtain ⟨hmemF, hmemM, -⟩ :=
        linkFold_spec (installDb2 db pkg) o pkg.name o.needed [] []
      have heq := link_object_empty_eq (installDb2 db pkg) o pkg.name hig
      have hsmem : obj.basename ∈
          ((installDb2 db pkg).link_object o pkg.name [] []).2 := hbmem
      rw [heq] at hsmem
      obtain ⟨-, hnone, -⟩ :=
        ((hmemM obj.basename).mp hsmem).resolve_left (by simp)
      rw [DB.find_for] at hnone
      have hpredfalse := List.find?_eq_none.mp hnone oid
        (List.mem_append.mpr (Or.inr hoid))
      have hs23 := hRel23.sst oid
      rw [hgobj] at hs23
      cases hgl : getObj (installDb2 db pkg).store oid with
      | none =>
        rw [hgl] at hs23
        simp at hs23
      | some lib =>
        rw [hgl] at hs23
        simp only [Option.map_some'] at hs23
        have hstat := Option.some.inj hs23
        obtain ⟨hdx, hbx, -⟩ := static_fields hstat
        have hb2 : (match getObj (installDb2 db pkg).store oid with
            | some lib => o.can_use lib (installDb2 db pkg).strict_linking &&
                lib.basename == obj.basename &&
                (installDb2 db pkg).elf_finds o lib.dirname
                  ((installDb2 db pkg).get_pkg_libpath pkg.name)
            | none => false) = false := Bool.of_not_eq_true hpredfalse
        rw [hgl] at hb2
        have hb3 : (o.can_use lib (installDb2 db pkg).strict_linking &&
            lib.basename == obj.basename &&
            (installDb2 db pkg).elf_finds o lib.dirname
              ((installDb2 db pkg).get_pkg_libpath pkg.name)) = false := hb2
        rw [hbx] at hb3
        simp only [beq_self_eq_true, Bool.and_true] at hb3
        have e1 : (freshApply (installDb2 db pkg) pkg.name o).can_use obj
            (installDb3 db pkg).strict_linking =
            o.can_use lib (installDb2 db pkg).strict_linking := by
          rw [hRel23.strict]
          exact can_use_congr rfl hstat _
        have e2 : (installDb3 db pkg).elf_finds
            (freshApply (installDb2 db pkg) pkg.name o) obj.dirname
            (db.get_pkg_libpath pkg.name) =
            (installDb2 db pkg).elf_finds o lib.dirname
              ((installDb2 db pkg).get_pkg_libpath pkg.name) := by
          rw [hdx]
          show (installDb3 db pkg).elf_finds _ lib.dirname
            ((installDb2 db pkg).get_pkg_libpath pkg.name) = _
          exact elf_finds_congr hRel23.lib rfl lib.dirname _
        rw [e1, e2]
        exact hb3
    have hval4 : getObj (installDb4 db pkg).store id =
        some (freshApply (installDb2 db pkg) pkg.name o) := by
      rw [installDb4, hget4 id, if_pos hid4, hval3, Option.map_some']
      exact congrArg some hnoop
    have hRel24 : DBRel (installDb2 db pkg) (installDb4 db pkg) :=
      DBRel.trans hRel23 hRel34
    refine partitionInv_of_seekerInv (installDb4 db pkg) id
      (freshApply (installDb2 db pkg) pkg.name o) hval4 ?_
    have hfresh := seekerInv_of_fresh (installDb2 db pkg) pkg.name o hig
    have hass : (installDb4 db pkg).assume_found_rules =
        (installDb2 db pkg).assume_found_rules := hRel24.ass
    show SeekerInv (installDb4 db pkg).store
      (installDb4 db pkg).assume_found_rules _
    rw [hass]
    exact SeekerInv_static (storeStaticEq_symm hRel24.sst) hfresh

/-- C1 witness: the concrete state `dbC8` satisfies the hypotheses, and
deleting package `R` preserves the weakened partition at the surviving
seeker (object 2). -/
theorem partition_invariant_ops_witness :
    WF dbC8 ∧ dbC8.ignore_file_rules = [] ∧
    PartitionInv (dbC8.delete_package "R").1 2 :=
  ⟨by unfold WF; decide, rfl,
    (partition_invariant_ops dbC8 "R" pkgC8 (by unfold WF; decide) rfl).1
      (by unfold PartitionInv; decide) 2 (by decide)⟩

theorem char_toNat_inj {a b : Char} (h : a.toNat = b.toNat) : a = b :=
  Char.ext (UInt32.ext h)

theorem listLtB_irrefl : ∀ a : List Char, listLtB a a = false := by
  intro a
  induction a with
  | nil => rfl
  | cons c cs ih =>
    rw [listLtB, if_neg (lt_irrefl c.toNat), if_neg (lt_irrefl c.toNat)]
    exact ih

theorem listLtB_asymm :
    ∀ a b : List Char, listLtB a b = true → listLtB b a = false := by
  intro a
  induction a with
  | nil =>
    intro b h
    cases b with
    | nil => cases h
    | cons d ds => rfl
  | cons c cs ih =>
    intro b h
    cases b with
    | nil => cases h
    | cons d ds =>
      rw [listLtB] at h
      rw [listLtB]
      by_cases h1 : c.toNat < d.toNat
      · rw [if_neg (Nat.lt_asymm h1), if_pos h1]
      · rw [if_neg h1] at h
        by_cases h2 : d.toNat < c.toNat
        · rw [if_pos h2] at h
          cases h
        · rw [if_neg h2] at h
          rw [if_neg h2, if_neg h1]
          exact ih ds h

theorem listLtB_conn :
    ∀ a b : List Char, listLtB a b = false → listLtB b a = false → a = b := by
  intro a
  induction a with
  | nil =>
    intro b h1 h2
    cases b with
    | nil => rfl
    | cons d ds => cases h1
  | cons c cs ih =>
    intro b h1 h2
    cases b with
    | nil => cases h2
    | cons d ds =>
      rw [listLtB] at h1 h2
      by_cases hc : c.toNat < d.toNat
      · rw [if_pos hc] at h1; cases h1
      · by_cases hd : d.toNat < c.toNat
        · rw [if_pos hd] at h2; cases h2
        · rw [if_neg hc, if_neg hd] at h1
          have hce : c = d := char_toNat_inj (Nat.le_antisymm
            (Nat.not_lt.mp hd) (Nat.not_lt.mp hc))
          rw [if_neg hd, if_neg hc] at h2
          rw [hce, ih ds h1 h2]

theorem listLtB_trans :
    ∀ a b c : List Char, listLtB a b = true → listLtB b c = true →
      listLtB a c = true := by
  intro a
  induction a with
  | nil =>
    intro b c h1 h2
    cases b with
    | nil => cases h1
    | cons y ys =>
      cases c with
      | nil => cases h2
      | cons z zs => rfl
  | cons x xs ih =>
    intro b c h1 h2
    cases b with
    | nil => cases h1
    | cons y ys =>
      cases c with
      | nil => cases h2
      | cons z zs =>
        rw [listLtB] at h1 h2 ⊢
        by_cases hxy : x.toNat < y.toNat
        · by_cases hyz : y.toNat < z.toNat
          · rw [if_pos (Nat.lt_trans hxy hyz)]
          · rw [if_neg hyz] at h2
            by_cases hzy : z.toNat < y.toNat
            · rw [if_pos hzy] at h2; cases h2
            · have : y.toNat = z.toNat := Nat.le_antisymm
                (Nat.not_lt.mp hzy) (Nat.not_lt.mp hyz)
              rw [if_pos (this ▸ hxy)]
        · rw [if_neg hxy] at h1
          by_cases hyx : y.toNat < x.toNat
          · rw [if_pos hyx] at h1; cases h1
          · have hxey : x.toNat = y.toNat := Nat.le_antisymm
              (Nat.not_lt.mp hyx) (Nat.not_lt.mp hxy)
            rw [if_neg hyx] at h1
            by_cases hyz : y.toNat < z.toNat
            · rw [if_pos (hxey ▸ hyz)]
            · rw [if_neg hyz] at h2
              by_cases hzy : z.toNat < y.toNat
              · rw [if_pos hzy] at h2; cases h2
              · rw [if_neg hzy] at h2
                rw [if_neg (hxey ▸ hyz), if_neg (hxey ▸ hzy)]
                exact ih ys zs h1 h2

theorem strLt_asymm (a b : String) : strLt a b → ¬ strLt b a := by
  intro h h2
  rw [strLt, strLtB] at h h2
  rw [listLtB_asymm a.data b.data h] at h2
  cases h2

theorem strLt_conn (a b : String) : ¬ strLt a b → ¬ strLt b a → a = b := by
  intro h1 h2
  have e1 : listLtB a.data b.data = false :=
    Bool.of_not_eq_true h1
  have e2 : listLtB b.data a.data = false :=
    Bool.of_not_eq_true h2
  have hdata := listLtB_conn a.data b.data e1 e2
  cases a
  cases b
  exact congrArg String.mk hdata

theorem strLt_trans (a b c : String) :
    strLt a b → strLt b c → strLt a c := by
  intro h1 h2
  exact listLtB_trans a.data b.data c.data h1 h2

theorem sorted_nodup_of_asymm {α : Type} {r : α → α → Prop}
    (hasymm : ∀ a b, r a b → ¬ r b a) :
    ∀ l : List α, l.Sorted r → l.Nodup := by
  intro l h
  refine h.imp ?_
  intro a b hab
  intro he
  subst he
  exact hasymm a a hab hab

theorem sorted_sinsert (l : List String) (x : String)
    (h : l.Sorted strLt) : (sinsert l x).Sorted strLt := by
  induction l with
  | nil => simp [sinsert]
  | cons y ys ih =>
    rw [List.sorted_cons] at h
    obtain ⟨hy, hys⟩ := h
    by_cases h1 : strLtB x y
    · rw [sinsert, if_pos h1, List.sorted_cons]
      refine ⟨fun b hb => ?_, List.sorted_cons.mpr ⟨hy, hys⟩⟩
      rcases List.mem_cons.mp hb with heq | hb2
      · rw [heq]
        exact h1
      · exact strLt_trans x y b h1 (hy b hb2)
    · by_cases h2 : x = y
      · rw [sinsert, if_neg h1, if_pos h2, List.sorted_cons]
        exact ⟨hy, hys⟩
      · rw [sinsert, if_neg h1, if_neg h2, List.sorted_cons]
        refine ⟨fun b hb => ?_, ih hys⟩
        rcases (mem_sinsert ys x b).mp hb with heq | hb2
        · rw [heq]
          by_cases h3 : strLtB y x = true
          · exact h3
          · exact absurd (strLt_conn x y h1 h3) h2
        · exact hy b hb2

theorem sorted_mem_eq {α : Type} {r : α → α → Prop}
    (hasymm : ∀ a b, r a b → ¬ r b a) :
    ∀ l1 l2 : List α, l1.Sorted r → l2.Sorted r →
      (∀ a, a ∈ l1 ↔ a ∈ l2) → l1 = l2 := by
  intro l1
  induction l1 with
  | nil =>
    intro l2 _ _ hmem
    cases l2 with
    | nil => rfl
    | cons y ys =>
      exact absurd ((hmem y).mpr (List.mem_cons_self y ys))
        (List.not_mem_nil y)
  | cons x xs ih =>
    intro l2 h1 h2 hmem
    cases l2 with
    | nil =>
      exact absurd ((hmem x).mp (List.mem_cons_self x xs))
        (List.not_mem_nil x)
    | cons y ys =>
      rw [List.sorted_cons] at h1 h2
      obtain ⟨hx, hxs⟩ := h1
      obtain ⟨hy, hys⟩ := h2
      have hxy : x = y := by
        rcases List.mem_cons.mp ((hmem x).mp (List.mem_cons_self x xs)) with
          he | hxys
        · exact he
        · rcases List.mem_cons.mp ((hmem y).mpr (List.mem_cons_self y ys))
            with he | hyxs
          · exact he.symm
          · exact absurd (hx y hyxs) (hasymm y x (hy x hxys))
      subst hxy
      have htail : ∀ a, a ∈ xs ↔ a ∈ ys := by
        intro a
        constructor
        · intro ha
          rcases List.mem_cons.mp ((hmem a).mp (List.mem_cons_of_mem x ha))
            with he | hy2
          · subst he
            exact absurd (hx a ha) (fun hr => hasymm a a hr hr)
          · exact hy2
        · intro ha
          rcases List.mem_cons.mp ((hmem a).mpr (List.mem_cons_of_mem x ha))
            with he | hx2
          · subst he
            exact absurd (hy a ha) (fun hr => hasymm a a hr hr)
          · exact hx2
      rw [ih ys hxs hys htail]

theorem elf_eq_of_parts {u s : Elf} (h : Elf.static u = Elf.static s)
    (hf : u.req_found = s.req_found) (hm : u.req_missing = s.req_missing) :
    u = s := by
  obtain ⟨h1, h2, h3, h4, h5, h6, h7, h8, h9⟩ := static_fields h
  cases u
  cases s
  simp_all

theorem reresolveStep_notmem (d : DB) (u : Elf) (oid : Nat)
    (h : oid ∉ u.req_found) : d.reresolveStep u oid = u := by
  rw [reresolveStep_eq]
  cases getObj d.store oid with
  | none => rfl
  | some elf =>
    dsimp only
    rw [if_neg (fun hc => h (List.elem_iff.mp hc))]

theorem removeFirstBy_append_last {α : Type} (p : α → Bool) :
    ∀ (l : List α) (y : α), (∀ x ∈ l, p x = false) → p y = true →
      removeFirstBy p (l ++ [y]) = l := by
  intro l
  induction l with
  | nil =>
    intro y _ hy
    show removeFirstBy p [y] = []
    rw [removeFirstBy, if_pos hy]
  | cons a as ih =>
    intro y hl hy
    show removeFirstBy p (a :: (as ++ [y])) = a :: as
    rw [removeFirstBy, if_neg (by
      rw [hl a (List.mem_cons_self a as)]
      exact Bool.false_ne_true)]
    rw [ih y (fun x hx => hl x (List.mem_cons_of_mem a hx)) hy]

theorem reverseFix_roundtrip (d : DB) (lp : Option (List String))
    (P : List Nat) (s : Elf) :
    ∀ (news : List Nat) (u : Elf),
      (∀ x ∈ news, x ∈ P) →
      Elf.static u = Elf.static s →
      (∀ f ∈ s.req_found, f ∈ u.req_found) →
      (∀ f ∈ u.req_found, f ∈ s.req_found ∨ f ∈ P) →
      u.req_found.Sorted (· < ·) →
      (∀ f ∈ u.req_found, f ∈ P →
        ∃ b, (getObj d.store f).map Elf.basename = some b ∧
          b ∈ s.req_missing) →
      (∀ m ∈ u.req_missing, m ∈ s.req_missing) →
      (∀ m ∈ s.req_missing, m ∈ u.req_missing ∨
        ∃ f ∈ u.req_found, f ∈ P ∧
          (getObj d.store f).map Elf.basename = some m) →
      u.req_missing.Sorted strLt →
      (Elf.static (d.reverseFixSeeker lp news u) = Elf.static s ∧
       (∀ f ∈ s.req_found, f ∈ (d.reverseFixSeeker lp news u).req_found) ∧
       (∀ f ∈ (d.reverseFixSeeker lp news u).req_found,
         f ∈ s.req_found ∨ f ∈ P) ∧
       (d.reverseFixSeeker lp news u).req_found.Sorted (· < ·) ∧
       (∀ f ∈ (d.reverseFixSeeker lp news u).req_found, f ∈ P →
         ∃ b, (getObj d.store f).map Elf.basename = some b ∧
           b ∈ s.req_missing) ∧
       (∀ m ∈ (d.reverseFixSeeker lp news u).req_missing,
         m ∈ s.req_missing) ∧
       (∀ m ∈ s.req_missing,
         m ∈ (d.reverseFixSeeker lp news u).req_missing ∨
         ∃ f ∈ (d.reverseFixSeeker lp news u).req_found, f ∈ P ∧
           (getObj d.store f).map Elf.basename = some m) ∧
       (d.reverseFixSeeker lp news u).req_missing.Sorted strLt) := by
  intro news
  induction news with
  | nil =>
    intro u _ h1 h2 h3 h4 h5 h6 h7 h8
    exact ⟨h1, h2, h3, h4, h5, h6, h7, h8⟩
  | cons oid os ih =>
    intro u hP h1 h2 h3 h4 h5 h6 h7 h8
    have hshow : ∀ v : Elf, d.reverseFixSeeker lp (oid :: os) v =
        d.reverseFixSeeker lp os (d.reverseFixStep lp v oid) := fun v => rfl
    rw [hshow u]
    have hP' : ∀ x ∈ os, x ∈ P := fun x hx => hP x (List.mem_cons_of_mem oid hx)
    cases hg : getObj d.store oid with
    | none =>
      have hstep : d.reverseFixStep lp u oid = u := by
        rw [reverseFixStep_eq, hg]
      rw [hstep]
      exact ih u hP' h1 h2 h3 h4 h5 h6 h7 h8
    | some obj =>
      by_cases hguard : (u.can_use obj d.strict_linking &&
          d.elf_finds u obj.dirname lp) = true
      · by_cases hcont : u.req_missing.contains obj.basename
        · have hstep : d.reverseFixStep lp u oid =
              { u with req_missing := u.req_missing.erase obj.basename,
                       req_found := oinsert u.req_found oid } := by
            rw [reverseFixStep_eq, hg]
            dsimp only
            rw [if_pos hguard, if_pos hcont]
          rw [hstep]
          have hbmem : obj.basename ∈ u.req_missing := List.elem_iff.mp hcont
          have hbs : obj.basename ∈ s.req_missing := h6 _ hbmem
          have hmnodup : u.req_missing.Nodup :=
            sorted_nodup_of_asymm strLt_asymm u.req_missing h8
          have hbn : (getObj d.store oid).map Elf.basename =
              some obj.basename := by rw [hg]; rfl
          refine ih _ hP' h1 ?_ ?_ ?_ ?_ ?_ ?_ ?_
          · intro f hf
            exact (mem_oinsert u.req_found oid f).mpr (Or.inr (h2 f hf))
          · intro f hf
            rcases (mem_oinsert u.req_found oid f).mp hf with heq | hf2
            · exact Or.inr (heq ▸ hP oid (List.mem_cons_self oid os))
            · exact h3 f hf2
          · exact sorted_oinsert u.req_found oid h4
          · intro f hf hfP
            rcases (mem_oinsert u.req_found oid f).mp hf with heq | hf2
            · exact ⟨obj.basename, heq ▸ hbn, hbs⟩
            · exact h5 f hf2 hfP
          · intro m hm
            exact h6 m (List.mem_of_mem_erase hm)
          · intro m hm
            rcases h7 m hm with hmu | ⟨f, hfu, hfP, hbnf⟩
            · by_cases hmb : m = obj.basename
              · refine Or.inr ⟨oid,
                  (mem_oinsert u.req_found oid oid).mpr (Or.inl rfl),
                  hP oid (List.mem_cons_self oid os), ?_⟩
                rw [hbn, hmb]
              · exact Or.inl ((List.Nodup.mem_erase_iff hmnodup).mpr
                  ⟨hmb, hmu⟩)
            · exact Or.inr ⟨f,
                (mem_oinsert u.req_found oid f).mpr (Or.inr hfu), hfP, hbnf⟩
          · exact List.Pairwise.sublist
              (List.erase_sublist obj.basename u.req_missing) h8
        · have hstep : d.reverseFixStep lp u oid = u := by
            rw [reverseFixStep_eq, hg]
            dsimp only
            rw [if_pos hguard, if_neg hcont]
          rw [hstep]
          exact ih u hP' h1 h2 h3 h4 h5 h6 h7 h8
      · have hstep : d.reverseFixStep lp u oid = u := by
          rw [reverseFixStep_eq, hg]
          dsimp only
          rw [if_neg hguard]
        rw [hstep]
        exact ih u hP' h1 h2 h3 h4 h5 h6 h7 h8

theorem reresolve_roundtrip (d : DB) (s : Elf)
    (hsf : s.req_found.Sorted (· < ·))
    (hsm : s.req_missing.Sorted strLt)
    (hMiss : ∀ b ∈ s.req_missing,
      d.find_for s b (d.get_obj_libpath s) = none) :
    ∀ (rem : List Nat) (u : Elf),
      Elf.static u = Elf.static s →
      (∀ f ∈ s.req_found, f ∈ u.req_found) →
      (∀ f ∈ s.req_found, f ∉ rem) →
      (∀ f ∈ u.req_found, f ∈ s.req_found ∨ f ∈ rem) →
      u.req_found.Sorted (· < ·) →
      (∀ f ∈ u.req_found, f ∈ rem →
        ∃ b, (getObj d.store f).map Elf.basename = some b ∧
          b ∈ s.req_missing) →
      (∀ m ∈ u.req_missing, m ∈ s.req_missing) →
      (∀ m ∈ s.req_missing, m ∈ u.req_missing ∨
        ∃ f ∈ u.req_found, f ∈ rem ∧
          (getObj d.store f).map Elf.basename = some m) →
      u.req_missing.Sorted strLt →
      d.reresolveSeeker rem u = s := by
  intro rem
  induction rem with
  | nil =>
    intro u h1 h2 h3 h4 h5 h6 h7 h8 h9
    have hfeq : u.req_found = s.req_found :=
      sorted_mem_eq (fun a b hab => Nat.lt_asymm hab) u.req_found s.req_found
        h5 hsf
        (fun a => ⟨fun ha => (h4 a ha).resolve_right (List.not_mem_nil a),
          fun ha => h2 a ha⟩)
    have hmeq : u.req_missing = s.req_missing :=
      sorted_mem_eq strLt_asymm u.req_missing s.req_missing h9 hsm
        (fun m => ⟨h7 m, fun hm => (h8 m hm).resolve_right (by
          rintro ⟨f, -, hfrem, -⟩
          exact List.not_mem_nil f hfrem)⟩)
    exact elf_eq_of_parts h1 hfeq hmeq
  | cons oid os ih =>
    intro u h1 h2 h3 h4 h5 h6 h7 h8 h9
    show d.reresolveSeeker os (d.reresolveStep u oid) = s
    by_cases hmem : oid ∈ u.req_found
    · have hnotins : oid ∉ s.req_found := fun hin =>
        h3 oid hin (List.mem_cons_self oid os)
      obtain ⟨b0, hbn, hb0⟩ := h6 oid hmem (List.mem_cons_self oid os)
      obtain ⟨elf, hgelf, hbelf⟩ := Option.map_eq_some'.mp hbn
      have hfnodup : u.req_found.Nodup := h5.nodup
      have hstep : d.reresolveStep u oid =
          { u with req_found := u.req_found.erase oid,
                   req_missing := sinsert u.req_missing elf.basename } := by
        rw [reresolveStep_eq, hgelf]
        dsimp only
        rw [if_pos (List.elem_iff.mpr hmem)]
        have hlib : d.get_obj_libpath u = d.get_obj_libpath s :=
          get_obj_libpath_congr (DBRel.rfl' d) h1
        have hfind : d.find_for u elf.basename
            (d.get_obj_libpath u) = none := by
          rw [hlib, find_for_congr (DBRel.rfl' d) h1 elf.basename
            (d.get_obj_libpath s), hbelf]
          exact hMiss b0 hb0
        rw [hfind]
      rw [hstep]
      refine ih _ h1 ?_ ?_ ?_ ?_ ?_ ?_ ?_ ?_
      · intro f hf
        exact (List.Nodup.mem_erase_iff hfnodup).mpr
          ⟨fun he => hnotins (he ▸ hf), h2 f hf⟩
      · intro f hf
        exact fun hin => h3 f hf (List.mem_cons_of_mem oid hin)
      · intro f hf
        have hf2 := (List.Nodup.mem_erase_iff hfnodup).mp hf
        rcases h4 f hf2.2 with hs | hrem
        · exact Or.inl hs
        · exact Or.inr ((List.mem_cons.mp hrem).resolve_left hf2.1)
      · exact List.Pairwise.sublist (List.erase_sublist oid u.req_found) h5
      · intro f hf hfos
        exact h6 f (List.mem_of_mem_erase hf) (List.mem_cons_of_mem oid hfos)
      · intro m hm
        rcases (mem_sinsert u.req_missing elf.basename m).mp hm with heq | hm2
        · rw [heq, hbelf]
          exact hb0
        · exact h7 m hm2
      · intro m hm
        rcases h8 m hm with hmu | ⟨f, hfu, hfrem, hbnf⟩
        · exact Or.inl ((mem_sinsert u.req_missing elf.basename m).mpr
            (Or.inr hmu))
        · by_cases hfo : f = oid
          · refine Or.inl ((mem_sinsert u.req_missing elf.basename m).mpr
              (Or.inl ?_))
            rw [hfo] at hbnf
            rw [hbn] at hbnf
            exact (Option.some.inj hbnf).symm.trans hbelf.symm
          · refine Or.inr ⟨f, (List.Nodup.mem_erase_iff hfnodup).mpr
              ⟨hfo, hfu⟩, (List.mem_cons.mp hfrem).resolve_left hfo, hbnf⟩
      · exact sorted_sinsert u.req_missing elf.basename h9
    · rw [reresolveStep_notmem d u oid hmem]
      refine ih u h1 h2 ?_ ?_ h5 ?_ h7 ?_ h9
      · intro f hf
        exact fun hin => h3 f hf (List.mem_cons_of_mem oid hin)
      · intro f hf
        rcases h4 f hf with hs | hrem
        · exact Or.inl hs
        · exact Or.inr ((List.mem_cons.mp hrem).resolve_left
            (fun he => hmem (he ▸ hf)))
      · intro f hf hfos
        exact h6 f hf (List.mem_cons_of_mem oid hfos)
      · intro m hm
        rcases h8 m hm with hmu | ⟨f, hfu, hfrem, hbnf⟩
        · exact Or.inl hmu
        · exact Or.inr ⟨f, hfu, (List.mem_cons.mp hfrem).resolve_left
            (fun he => hmem (he ▸ hfu)), hbnf⟩

theorem consistent_of_dec (d : DB)
    (h : ∀ id ∈ d.objects, ∀ o ∈ (getObj d.store id).toList,
      ∀ b ∈ o.req_missing,
        d.find_for o b (d.get_obj_libpath o) = none) : Consistent d := by
  intro id hid o hg b hb
  refine h id hid o ?_ b hb
  rw [hg]
  exact List.mem_singleton.mpr rfl

/-- C8 (amended): from a well-formed, resolution-consistent state, installing
a fresh package whose name is not present and deleting it again restores
the package list, the flat object index, and every pre-existing arena
entry — `req_found`/`req_missing` included — exactly.  (On inconsistent
states — reachable by editing `library_path` without a relink — the claim
fails: the reverse-fix of `install_package` moves a stale `req_missing`
entry into `req_found`, and `delete_package`'s re-resolution then finds the
still-visible provider instead of restoring the entry.) -/
theorem install_delete_roundtrip (db : DB) (pkg : Package)
    (hWF : WF db) (hCons : Consistent db) (hFresh : FreshPkg db pkg)
    (hname : db.packages.find? (fun p => p.name == pkg.name) = none) :
    (((db.install_package pkg).1.delete_package pkg.name).1).packages =
      db.packages ∧
    (((db.install_package pkg).1.delete_package pkg.name).1).objects =
      db.objects ∧
    ∀ id ∈ db.objects,
      getObj (((db.install_package pkg).1.delete_package pkg.name).1).store
        id = getObj db.store id := by
  obtain ⟨hw1, hw2, hw3, hw4, hw5, hw6, hw7, hw8⟩ := hWF
  obtain ⟨hfnd, hfnotin, hfobj⟩ := hFresh
  have hdel0 : db.delete_package pkg.name = (db, true) := by
    rw [DB.delete_package.eq_def, hname]
  have hinst : db.install_package pkg = (installDb4 db pkg, true) := by
    rw [DB.install_package.eq_def, hdel0]
    rfl
  -- install-stage facts
  have hcong3 : ∀ d s, DBRel (installDb2 db pkg) d →
      linkApply d pkg.name s = linkApply (installDb2 db pkg) pkg.name s :=
    fun d s h => linkApply_congr h pkg.name s
  have hstat3 : ∀ (d : DB) (s : Elf),
      Elf.static (linkApply d pkg.name s) = Elf.static s :=
    fun d s => linkApply_static d pkg.name s
  have hget3 := seekerFold_getObj (fun d s => linkApply d pkg.name s)
    (installDb2 db pkg) hcong3 hstat3 pkg.objects (installDb2 db pkg)
    hfnd (DBRel.rfl' _)
  have hRel23 : DBRel (installDb2 db pkg) (installDb3 db pkg) :=
    seekerFold_DBRel (fun d s => linkApply d pkg.name s)
      (installDb2 db pkg) hcong3 hstat3 pkg.objects (installDb2 db pkg)
      hfnd (DBRel.rfl' _)
  have hobj3 : (installDb3 db pkg).objects = db.objects ++ pkg.objects := by
    rw [installDb3, seekerFold_objects]
    rfl
  have hnd4 : (installDb3 db pkg).objects.Nodup := by
    rw [hobj3]
    exact List.nodup_append.mpr
      ⟨hw2, hfnd, fun a ha hain => hfnotin a hain ha⟩
  have hcong4 : ∀ d s, DBRel (installDb3 db pkg) d →
      d.reverseFixSeeker (db.get_pkg_libpath pkg.name) pkg.objects s =
        (installDb3 db pkg).reverseFixSeeker (db.get_pkg_libpath pkg.name)
          pkg.objects s :=
    fun d s h => reverseFixSeeker_congr h _ pkg.objects s
  have hstat4 : ∀ (d : DB) (s : Elf),
      Elf.static (d.reverseFixSeeker (db.get_pkg_libpath pkg.name)
        pkg.objects s) = Elf.static s :=
    fun d s => reverseFixSeeker_static d _ pkg.objects s
  have hget4 := seekerFold_getObj
    (fun d s => d.reverseFixSeeker (db.get_pkg_libpath pkg.name)
      pkg.objects s)
    (installDb3 db pkg) hcong4 hstat4 (installDb3 db pkg).objects
    (installDb3 db pkg) hnd4 (DBRel.rfl' _)
  have hRel34 : DBRel (installDb3 db pkg) (installDb4 db pkg) :=
    seekerFold_DBRel
      (fun d s => d.reverseFixSeeker (db.get_pkg_libpath pkg.name)
        pkg.objects s)
      (installDb3 db pkg) hcong4 hstat4 (installDb3 db pkg).objects
      (installDb3 db pkg) hnd4 (DBRel.rfl' _)
  have hRel24 : DBRel (installDb2 db pkg) (installDb4 db pkg) :=
    DBRel.trans hRel23 hRel34
  -- the deletion finds exactly the new package
  have hpk4 : (installDb4 db pkg).packages = db.packages ++ [pkg] :=
    hRel24.pk
  have hfind4 : (installDb4 db pkg).packages.find?
      (fun p => p.name == pkg.name) = some pkg := by
    rw [hpk4, List.find?_append, hname]
    show (List.find? (fun p => p.name == pkg.name) [pkg]) = some pkg
    rw [List.find?_cons_of_pos]
    exact beq_self_eq_true pkg.name
  have hdel4 : (installDb4 db pkg).delete_package pkg.name =
      (deleteCore (installDb4 db pkg) pkg.name pkg, true) := by
    rw [DB.delete_package.eq_def, hfind4]
  -- the post-delete base state dbB relates back to db
  have hobj4 : (installDb4 db pkg).objects = db.objects ++ pkg.objects :=
    hRel24.obj
  have hpkB : (deleteDb2 (installDb4 db pkg) pkg.name pkg).packages =
      db.packages := by
    show removeFirstBy (fun p => p.name == pkg.name)
      (installDb4 db pkg).packages = db.packages
    rw [hpk4]
    exact removeFirstBy_append_last _ db.packages pkg
      (fun x hx => Bool.of_not_eq_true (List.find?_eq_none.mp hname x hx))
      (beq_self_eq_true pkg.name)
  have hobjB : (deleteDb2 (installDb4 db pkg) pkg.name pkg).objects =
      db.objects := by
    show (installDb4 db pkg).objects.filter
      (fun i => !pkg.objects.contains i) = db.objects
    rw [hobj4, List.filter_append]
    have e1 : db.objects.filter (fun i => !pkg.objects.contains i) =
        db.objects := by
      refine List.filter_eq_self.mpr ?_
      intro a ha
      have hnin : a ∉ pkg.objects := fun hain => hfnotin a hain ha
      simp [List.elem_iff, hnin]
    have e2 : pkg.objects.filter (fun i => !pkg.objects.contains i) =
        [] := by
      refine List.filter_eq_nil_iff.mpr ?_
      intro a ha
      simp [List.elem_iff, ha]
    rw [e1, e2, List.append_nil]
  have hRelB : DBRel db (deleteDb2 (installDb4 db pkg) pkg.name pkg) :=
    ⟨hpkB, hobjB, hRel24.lib, hRel24.plp, hRel24.ign, hRel24.ass,
     hRel24.strict, fun i => hRel24.sst i⟩
  -- the delete re-resolution fold
  have hndB : (deleteDb2 (installDb4 db pkg) pkg.name pkg).objects.Nodup := by
    rw [hobjB]
    exact hw2
  have hcongB : ∀ d s, DBRel (deleteDb2 (installDb4 db pkg) pkg.name pkg) d →
      d.reresolveSeeker pkg.objects s =
        (deleteDb2 (installDb4 db pkg) pkg.name pkg).reresolveSeeker
          pkg.objects s :=
    fun d s h => reresolveSeeker_congr h pkg.objects s
  have hstatB : ∀ (d : DB) (s : Elf),
      Elf.static (d.reresolveSeeker pkg.objects s) = Elf.static s :=
    fun d s => reresolveSeeker_static d pkg.objects s
  have hgetB := seekerFold_getObj
    (fun d s => d.reresolveSeeker pkg.objects s)
    (deleteDb2 (installDb4 db pkg) pkg.name pkg) hcongB hstatB
    (deleteDb2 (installDb4 db pkg) pkg.name pkg).objects
    (deleteDb2 (installDb4 db pkg) pkg.name pkg) hndB (DBRel.rfl' _)
  have hRelB3 : DBRel (deleteDb2 (installDb4 db pkg) pkg.name pkg)
      (deleteDb3 (installDb4 db pkg) pkg.name pkg) :=
    seekerFold_DBRel (fun d s => d.reresolveSeeker pkg.objects s)
      (deleteDb2 (installDb4 db pkg) pkg.name pkg) hcongB hstatB
      (deleteDb2 (installDb4 db pkg) pkg.name pkg).objects
      (deleteDb2 (installDb4 db pkg) pkg.name pkg) hndB (DBRel.rfl' _)
  have hpk3 : (deleteDb3 (installDb4 db pkg) pkg.name pkg).packages =
      db.packages := hRelB3.pk.trans hpkB
  have hobj3B : (deleteDb3 (installDb4 db pkg) pkg.name pkg).objects =
      db.objects := hRelB3.obj.trans hobjB
  -- every original object survives the refcount cleanup
  have hkeep : ∀ id ∈ db.objects,
      (deleteDb3 (installDb4 db pkg) pkg.name pkg).refKept id = true := by
    intro id hid
    have hflat : id ∈ (db.packages.map Package.objects).flatten := by
      rw [← hw1]; exact hid
    obtain ⟨l, hl, hidl⟩ := List.mem_flatten.mp hflat
    obtain ⟨p, hp, rfl⟩ := List.mem_map.mp hl
    have hany : (deleteDb3 (installDb4 db pkg) pkg.name pkg).packages.any
        (fun q => q.objects.contains id) = true := by
      rw [hpk3]
      exact List.any_eq_true.mpr ⟨p, hp, List.elem_iff.mpr hidl⟩
    rw [DB.refKept, hany]
    rfl
  rw [hinst, hdel4]
  refine ⟨hpk3, ?_, ?_⟩
  · show (deleteDb3 (installDb4 db pkg) pkg.name pkg).objects.filter
      (deleteDb3 (installDb4 db pkg) pkg.name pkg).refKept = db.objects
    rw [hobj3B]
    exact List.filter_eq_self.mpr hkeep
  · intro id hiddb
    obtain ⟨s, hg⟩ := Option.isSome_iff_exists.mp (hw5 id hiddb)
    have hsorted : s.req_found.Sorted (· < ·) := by
      have hh := (hw8 id hiddb).1
      rw [foundOf, hg] at hh
      simpa using hh
    have hmsorted : s.req_missing.Sorted strLt := by
      have hh := (hw8 id hiddb).2
      rw [missingOf, hg] at hh
      simpa using hh
    have hnotpkg : id ∉ pkg.objects := fun hin => hfnotin id hin hiddb
    have hval3old : getObj (installDb3 db pkg).store id = some s := by
      rw [installDb3, hget3 id, if_neg hnotpkg]
      exact hg
    have hid4mem : id ∈ (installDb3 db pkg).objects := by
      rw [hobj3]
      exact List.mem_append.mpr (Or.inl hiddb)
    have hval4old : getObj (installDb4 db pkg).store id =
        some ((installDb3 db pkg).reverseFixSeeker
          (db.get_pkg_libpath pkg.name) pkg.objects s) := by
      rw [installDb4, hget4 id, if_pos hid4mem, hval3old, Option.map_some']
    -- Phase A facts about the reverse-fixed seeker
    have hsfresh : ∀ f ∈ s.req_found, f ∉ pkg.objects := by
      intro f hf hin
      refine hfnotin f hin (hw7 id hiddb f ?_)
      rw [foundOf, hg]
      exact hf
    obtain ⟨a1, a2, a3, a4, a5, a6, a7, a8⟩ :=
      reverseFix_roundtrip (installDb3 db pkg) (db.get_pkg_libpath pkg.name)
        pkg.objects s pkg.objects s (fun x hx => hx) rfl
        (fun f hf => hf) (fun f hf => Or.inl hf) hsorted
        (fun f hf hfP => absurd hfP (hsfresh f hf))
        (fun m hm => hm) (fun m hm => Or.inl hm) hmsorted
    -- transfer the store used for basenames from stage 3 to the delete base
    have hst3B : storeStaticEq (installDb3 db pkg).store
        (deleteDb2 (installDb4 db pkg) pkg.name pkg).store :=
      fun i => (hRel34.sst i).symm
    -- consistency gives the find misses in the delete base
    have hMissB : ∀ b ∈ s.req_missing,
        (deleteDb2 (installDb4 db pkg) pkg.name pkg).find_for s b
          ((deleteDb2 (installDb4 db pkg) pkg.name pkg).get_obj_libpath s) =
          none := by
      intro b hb
      rw [get_obj_libpath_congr hRelB (Eq.refl (Elf.static s)),
        find_for_congr hRelB (Eq.refl (Elf.static s)) b
          (db.get_obj_libpath s)]
      exact hCons id hiddb s hg b hb
    -- Phase B: the re-resolution restores the seeker
    have hrestore : (deleteDb2 (installDb4 db pkg) pkg.name
        pkg).reresolveSeeker pkg.objects
        ((installDb3 db pkg).reverseFixSeeker (db.get_pkg_libpath pkg.name)
          pkg.objects s) = s := by
      refine reresolve_roundtrip _ s hsorted hmsorted hMissB pkg.objects _
        a1 a2 hsfresh a3 a4 ?_ a6 ?_ a8
      · intro f hf hfrem
        obtain ⟨b, hb, hbs⟩ := a5 f hf hfrem
        refine ⟨b, ?_, hbs⟩
        rw [← basename_staticEq hst3B f]
        exact hb
      · intro m hm
        rcases a7 m hm with hmu | ⟨f, hfu, hfP, hbn⟩
        · exact Or.inl hmu
        · refine Or.inr ⟨f, hfu, hfP, ?_⟩
          rw [← basename_staticEq hst3B f]
          exact hbn
    have hidB : id ∈ (deleteDb2 (installDb4 db pkg) pkg.name pkg).objects :=
      hobjB.symm ▸ hiddb
    have hvalB : getObj (deleteDb2 (installDb4 db pkg) pkg.name
        pkg).store id = some ((installDb3 db pkg).reverseFixSeeker
          (db.get_pkg_libpath pkg.name) pkg.objects s) := hval4old
    show getObj (deleteDb3 (installDb4 db pkg) pkg.name pkg).store id =
      getObj db.store id
    rw [deleteDb3, hgetB id, if_pos hidB, hvalB, Option.map_some', hg]
    exact congrArg some hrestore

/-- C8 witness: on the concrete consistent state `dbC8w`, installing the
fresh package `pkgC8` and deleting it again restores the pre-existing
seeker (object 2) exactly. -/
theorem install_delete_roundtrip_witness :
    WF dbC8w ∧ Consistent dbC8w ∧ FreshPkg dbC8w pkgC8 ∧
    getObj (((dbC8w.install_package pkgC8).1.delete_package
      pkgC8.name).1).store 2 = getObj dbC8w.store 2 :=
  ⟨by unfold WF; decide,
   consistent_of_dec dbC8w (by decide),
   by unfold FreshPkg; decide,
   (install_delete_roundtrip dbC8w pkgC8 (by unfold WF; decide)
      (consistent_of_dec dbC8w (by decide))
      (by unfold FreshPkg; decide) (by decide)).2.2 2 (by decide)⟩
